import Mathlib

/-!
# AlembicGetInfo

A shallow embedding of `AlembicGetInfoCommand::doIt` and `infoTuple::toInfo`
(`AlembicGetInfo.cpp`) and theorems about them.

Modelling conventions.

* The Alembic archive is an external collaborator.  An archive's object hierarchy is a
  finite tree (`ObjectTree`); an `Abc::IObject` is a handle on one object of it
  (`IObject`): the position of the object below the top object together with the
  object and everything below it.  What the accessors and predicates called on a child
  (`getFullName`, `getName`, `getAlembicTypeFromObject`, `getNumSamplesFromObject`,
  the `matches` tests, `isAlembicMeshTopoDynamic`, `isAlembicMeshPointCache`, the
  `ICurves` wrapper) answer is stored with the object (`ObjectData`).
* `MProgressWindow::isCancelled()` is an oracle `isCancelled : Nat → Bool`: the answer
  to the poll number `n` of the call (counted from 0).
* Calls to the host (`MGlobal`, `MProgressWindow`, `addRefArchive`, `delRefArchive`,
  `setResult`) are recorded, in order, in a trace (`State.calls`).
* The counters of the traversal (`i`, `j`, `idx`, `nbChild`, `interrupt`) are unbounded
  integers: they are bounded by the number of objects of the archive, and the embedding
  is about archives with fewer than `2^31` objects.  The number of samples of an object
  is not bounded in this way; its conversion to `int` is `toInt32`.
* `MString`/`std::string` are `String`.  The conversions `c_str()` of the names stored
  in a record (lines 150 and 154) are `c_str`, which cuts a string at its first NUL
  character; the set `uniqueIdentifiers` holds the full names uncut.  The parameter
  `alembicTypeToString` of `toInfo` stands for the type name as converted on line 63.
* The `while`-like traversal loop takes fuel; `doIt` passes the number of objects of the
  archive, which is shown to be enough.
-/

namespace AlembicGetInfo

/-! ## Data model -/

/-- Modelled from the spec: the enumeration `ALEMBIC_TYPE`, declared in a header that
is not part of the sources.  The spec lists `Unknown, Xform, Group, PolyMesh, SubD,
Curves, ...`; the remaining tags are `AT_Other n`. -/
inductive ALEMBIC_TYPE where
  | AT_UNKNOWN
  | AT_Xform
  | AT_Group
  | AT_PolyMesh
  | AT_SubD
  | AT_Curves
  | AT_Other (n : Nat)
  deriving DecidableEq, Repr

open ALEMBIC_TYPE

/-- The answers of the Node Source for one object. -/
structure ObjectData where
  /-- Answer of `getFullName()`. -/
  fullName : String
  /-- Answer of `getName()`. -/
  name : String
  /-- Answer of `getAlembicTypeFromObject(obj)`. -/
  alembicType : ALEMBIC_TYPE
  /-- Answer of `getNumSamplesFromObject(obj)`. -/
  numSamples : Nat
  /-- Answer of `AbcG::IPolyMesh::matches(obj.getMetaData())`. -/
  polyMeshMatches : Bool
  /-- Answer of `AbcG::ISubD::matches(obj.getMetaData())`. -/
  subDMatches : Bool
  /-- Answer of `AbcG::ICurves::matches(obj.getMetaData())`. -/
  curvesMatches : Bool
  /-- Answer of `isAlembicMeshTopoDynamic(&obj)`. -/
  meshTopoDynamic : Bool
  /-- Answer of `isAlembicMeshPointCache(&obj)`. -/
  meshPointCache : Bool
  /-- Answer of `AbcG::ICurves(obj, Abc::kWrapExisting).valid()`. -/
  curvesValid : Bool
  /-- Answers of `getNumCurves()` for the samples `0 .. getSchema().getNumSamples() - 1` -/
  curvesNumCurves : List Nat
  deriving DecidableEq, Repr

/-- The object hierarchy of an archive: an object and its children, in the order of
`getChild(0)`, `getChild(1)`, ... -/
inductive ObjectTree where
  | node (data : ObjectData) (children : List ObjectTree)

namespace ObjectTree

/-- The answers of the Node Source for the object at the top of the hierarchy. -/
def data : ObjectTree → ObjectData
  | node d _ => d

/-- The children of the object at the top of the hierarchy. -/
def children : ObjectTree → List ObjectTree
  | node _ cs => cs

mutual
/-- Number of objects of a hierarchy (the object at its top included). -/
def size : ObjectTree → Nat
  | node _ cs => 1 + sizeList cs
/-- Number of objects of a list of hierarchies. -/
def sizeList : List ObjectTree → Nat
  | [] => 0
  | t :: ts => t.size + sizeList ts
end

/-- The object reached from the top of the hierarchy by following the child numbers
of `path`. -/
def nodeAt : ObjectTree → List Nat → Option ObjectTree
  | t, [] => some t
  | t, j :: rest =>
    match t.children[j]? with
    | some c => nodeAt c rest
    | none => none

end ObjectTree

/-- An `Abc::IObject`: a handle on one object of the archive. -/
structure IObject where
  /-- The child numbers leading from the top object to this object -/
  path : List Nat
  /-- The object and what is below it. -/
  tree : ObjectTree

namespace IObject

/-- Method `getNumChildren()`. -/
def getNumChildren (o : IObject) : Nat := o.tree.children.length

/-- Method `getChild(j)`; `none` when there is no such child. -/
def getChild (o : IObject) (j : Nat) : Option IObject :=
  match o.tree.children[j]? with
  | some c => some { path := o.path ++ [j], tree := c }
  | none => none

/-- Method `getFullName()`. -/
def getFullName (o : IObject) : String := o.tree.data.fullName

/-- Method `getName()`. -/
def getName (o : IObject) : String := o.tree.data.name

end IObject

/-- External function `getAlembicTypeFromObject`. -/
def getAlembicTypeFromObject (o : IObject) : ALEMBIC_TYPE := o.tree.data.alembicType

/-- External function `getNumSamplesFromObject`. -/
def getNumSamplesFromObject (o : IObject) : Nat := o.tree.data.numSamples

/-- The `MString` made from the C string `s.c_str()` (lines 150 and 154): the characters
of `s` before its first NUL character. -/
def c_str (s : String) : String :=
  String.mk (s.data.takeWhile (fun c => c != Char.ofNat 0))

/-- The conversion `(int) x` of a `size_t` value `x` (32 bits, two's complement). -/
def toInt32 (x : Nat) : Int :=
  if x % 2 ^ 32 < 2 ^ 31 then ((x % 2 ^ 32 : Nat) : Int) else ((x % 2 ^ 32 : Nat) : Int) - 2 ^ 32

/-- The `struct infoTuple`; the default values are those of its constructor. -/
structure infoTuple where
  valid : Bool := false
  identifier : String := ""
  type : ALEMBIC_TYPE := AT_UNKNOWN
  name : String := ""
  nbSample : Int := 0
  parentID : Int := -1
  childID : List Int := []
  data : String := ""
  deriving DecidableEq, Repr

/-- Method `infoTuple::toInfo`; `alembicTypeToString` is external. -/
def infoTuple.toInfo (alembicTypeToString : ALEMBIC_TYPE → String) (t : infoTuple) : String :=
  let str := "|" ++ toString t.nbSample ++ "|" ++ toString t.parentID ++ "|"
  let str :=
    match t.childID with
    | [] => str ++ "-1"
    | beg :: rest => rest.foldl (fun s c => s ++ "." ++ toString c) (str ++ toString beg)
  let ret := ((t.identifier ++ "|") ++ alembicTypeToString t.type) ++ "|" ++ t.name
  let ret := ret ++ str
  if t.data.length > 0 then ret ++ ("|" ++ t.data) else ret

/-- The status type `MStatus`. -/
inductive MStatus where
  | kSuccess
  | kFailure
  deriving DecidableEq, Repr

/-- The calls `doIt` makes to the host and to the archive registry. -/
inductive Call where
  | displayInfo (msg : String)
  | displayError (msg : String)
  | addRefArchive (fileName : String)
  | delRefArchive (fileName : String)
  | reserve
  | setTitle (title : String)
  | setInterruptable (b : Bool)
  | setProgressRange (lo hi : Int)
  | setProgress (n : Int)
  | startProgress
  | isCancelled (answer : Bool)
  | advanceProgress (n : Int)
  | endProgress
  | setResult (identifiers : List String)
  deriving DecidableEq, Repr

/-- The local variables of `doIt`, the trace of its external calls, and one history
variable (`log`). -/
structure State where
  /-- Local `std::deque<Abc::IObject> objects`. -/
  objects : List IObject
  /-- Local `std::deque<infoTuple> infoVector`. -/
  infoVector : List infoTuple
  /-- Local `std::set<std::string> uniqueIdentifiers`. -/
  uniqueIdentifiers : List String
  /-- Local `int idx`. -/
  idx : Int
  /-- The counter `i` of the traversal loop. -/
  i : Nat
  /-- Local `MStringArray identifiers`. -/
  identifiers : List String
  /-- Local `bool processStopped`. -/
  processStopped : Bool
  /-- Number of `isCancelled` polls made so far. -/
  polls : Nat
  /-- Trace of the external calls made so far. -/
  calls : List Call
  /-- History variable (not in the source): the pairs `(i, child)` of the iterations of
  the inner loop executed so far -/
  log : List (Nat × IObject)

/-! ## The traversal loop -/

/-- The loop over the samples of an `ICurves` object (lines 188-196). -/
def hairLoop : List Nat → String → String
  | [], data => data
  | numCurves :: rest, data =>
    if numCurves != 1 then data ++ "hair=1" else hairLoop rest data

/-- The value of the local `MString data` of the inner loop body (lines 165-198). -/
def additionalData (child : IObject) : String :=
  let d := child.tree.data
  let data := ""
  if d.polyMeshMatches then
    let data := if d.meshTopoDynamic then data ++ "dynamictopology=1" else data
    let data := if d.meshPointCache then data ++ "purepointcache=1" else data
    data
  else if d.subDMatches then
    let data := if d.meshTopoDynamic then data ++ "dynamictopology=1" else data
    let data := if d.meshPointCache then data ++ "purepointcache=1" else data
    data
  else if d.curvesMatches then
    if d.curvesValid then hairLoop d.curvesNumCurves data else data
  else data

/-- Update through a reference to `infoVector.back()`. -/
def modifyBack (f : infoTuple → infoTuple) (v : List infoTuple) : List infoTuple :=
  v.modify f (v.length - 1)

/-- Lines 157-162: the update of `parentTuple = infoVector[i]`, given the type just
stored in the child's tuple and the new value of `idx`. -/
def parentUpdate (childType : ALEMBIC_TYPE) (idx : Int) (parentTuple : infoTuple) : infoTuple :=
  let parentTuple :=
    if childType = AT_Xform ∧ parentTuple.type = AT_Xform then
      { parentTuple with type := AT_Group }
    else parentTuple
  { parentTuple with childID := parentTuple.childID ++ [idx] }

/-- The body of the inner loop (lines 136-201) for the child `child` of the object
dequeued in iteration `i` of the outer loop. -/
def processChild (i : Nat) (child : IObject) (s : State) : State :=
  let objects := s.objects ++ [child]
  let idx := s.idx + 1
  let infoVector := s.infoVector ++ [({} : infoTuple)]
  let fullName := child.getFullName
  let found := decide (fullName ∈ s.uniqueIdentifiers)
  let uniqueIdentifiers := if found then s.uniqueIdentifiers else fullName :: s.uniqueIdentifiers
  let type := getAlembicTypeFromObject child
  let infoVector := modifyBack (fun iTuple =>
    { iTuple with
      identifier := if found then "" else c_str fullName
      type := type
      name := c_str child.getName
      nbSample := toInt32 (getNumSamplesFromObject child)
      parentID := (i : Int) }) infoVector
  let infoVector := infoVector.modify (parentUpdate type idx) i
  let data := additionalData child
  let infoVector := modifyBack (fun iTuple =>
    { (if data.length > 0 then { iTuple with data := data } else iTuple) with
      valid := true }) infoVector
  { s with
    objects := objects
    idx := idx
    infoVector := infoVector
    uniqueIdentifiers := uniqueIdentifiers
    log := s.log ++ [(i, child)] }

/-- The inner loop `for (j = 0; j < nbChild; ++j)` of the iteration `i` of the outer
loop, `iObj` being the dequeued object. -/
def childLoop (i : Nat) (iObj : IObject) (s : State) : State :=
  (List.range iObj.getNumChildren).foldl
    (fun s j =>
      match iObj.getChild j with
      | some child => processChild i child s
      | none => s)
    s

/-- The outer loop `for (i = 0; !objects.empty(); ++i)` (lines 122-203), with fuel:
`none` when the fuel runs out before the loop ends. -/
def traversalLoop (isCancelled : Nat → Bool) : Nat → State → Option State
  | 0, s =>
    match s.objects with
    | [] => some s
    | _ :: _ => none
  | fuel + 1, s =>
    match s.objects with
    | [] => some s
    | iObj :: rest =>
      if isCancelled s.polls then
        some { s with
          processStopped := true
          polls := s.polls + 1
          calls := s.calls ++ [Call.isCancelled true] }
      else
        let s := { s with
          polls := s.polls + 1
          calls := s.calls ++ [Call.isCancelled false, Call.advanceProgress 1]
          objects := rest }
        let s := childLoop s.i iObj s
        traversalLoop isCancelled fuel { s with i := s.i + 1 }

/-! ## The encoding loop -/

/-- The body of the encoding loop after the cancellation check (lines 221-223). -/
def encodeBody (alembicTypeToString : ALEMBIC_TYPE → String) (beg : infoTuple) (s : State) :
    State :=
  let s := { s with calls := s.calls ++ [Call.advanceProgress 1] }
  if beg.valid then
    { s with identifiers := s.identifiers ++ [beg.toInfo alembicTypeToString] }
  else s

/-- The loop over `infoVector` (lines 210-224); the first argument is the part of
`infoVector` from `beg` on, the second the counter `interrupt`. -/
def encodingLoop (isCancelled : Nat → Bool) (alembicTypeToString : ALEMBIC_TYPE → String) :
    List infoTuple → Int → State → State
  | [], _, s => s
  | beg :: rest, interrupt, s =>
    if interrupt = 0 then
      if isCancelled s.polls then
        { s with
          processStopped := true
          polls := s.polls + 1
          calls := s.calls ++ [Call.isCancelled true] }
      else
        let s := { s with
          polls := s.polls + 1
          calls := s.calls ++ [Call.isCancelled false] }
        encodingLoop isCancelled alembicTypeToString rest (20 - 1)
          (encodeBody alembicTypeToString beg s)
    else
      encodingLoop isCancelled alembicTypeToString rest (interrupt - 1)
        (encodeBody alembicTypeToString beg s)

/-! ## `doIt` -/

/-- What `MArgParser argData(syntax(), args, &status)` yields. -/
structure Args where
  /-- The status written by the parser. -/
  status : MStatus
  /-- Answer of `argData.isFlagSet("help")`. -/
  help : Bool
  /-- Answer of `argData.flagArgumentString("fileNameArg", 0)` when `isFlagSet("fileNameArg")` -/
  fileNameArg : Option String

/-- What a call of `doIt` leaves behind. -/
structure Outcome where
  /-- The returned status. -/
  status : MStatus
  /-- The argument of `setResult`, when it was called. -/
  result : Option (List String)
  /-- The final state of the locals and the trace of the external calls -/
  final : State

/-- The handle `archive->getTop()`. -/
def getTop (archive : ObjectTree) : IObject := { path := [], tree := archive }

/-- The state when the traversal loop is entered (lines 104-121). -/
def initialState (fileName : String) (archive : ObjectTree) : State :=
  { objects := [getTop archive]
    infoVector := [({} : infoTuple)]
    uniqueIdentifiers := []
    idx := 0
    i := 0
    identifiers := []
    processStopped := false
    polls := 0
    calls :=
      [Call.addRefArchive fileName, Call.reserve, Call.setTitle "AlembicGetInfo",
       Call.setInterruptable true, Call.setProgressRange 0 500000, Call.setProgress 0,
       Call.startProgress]
    log := [] }

/-- The traversal phase of `doIt` (lines 104-203) on an available archive. -/
def traversal (isCancelled : Nat → Bool) (fileName : String) (archive : ObjectTree) :
    Option State :=
  traversalLoop isCancelled archive.size (initialState fileName archive)

/-- Lines 205-225. -/
def encoding (isCancelled : Nat → Bool) (alembicTypeToString : ALEMBIC_TYPE → String)
    (fileName : String) (s : State) : State :=
  if !s.processStopped then
    let s := { s with calls := s.calls ++ [Call.delRefArchive fileName] }
    encodingLoop isCancelled alembicTypeToString s.infoVector 20 s
  else s

/-- Lines 227-236. -/
def finish (status : MStatus) (s : State) : Outcome :=
  let s :=
    if s.processStopped then
      { s with
        calls := s.calls ++ [Call.displayInfo "Alembic import halted!"]
        identifiers := [] }
    else s
  let s := { s with calls := s.calls ++ [Call.endProgress, Call.setResult s.identifiers] }
  { status := status, result := some s.identifiers, final := s }

/-- The state of a call that returns before the traversal. -/
def earlyState (calls : List Call) : State :=
  { objects := [], infoVector := [], uniqueIdentifiers := [], idx := 0, i := 0,
    identifiers := [], processStopped := false, polls := 0, calls := calls, log := [] }

/-- The method `AlembicGetInfoCommand::doIt`.  `getArchiveFromID` answers for the archive registry
after `addRefArchive`; `none` stands for `NULL`.  The result is `none` only if the
traversal loop runs out of fuel. -/
def doIt (isCancelled : Nat → Bool) (alembicTypeToString : ALEMBIC_TYPE → String)
    (getArchiveFromID : String → Option ObjectTree) (args : Args) : Option Outcome :=
  if args.help then
    some
      { status := MStatus.kSuccess
        result := none
        final := earlyState
          [Call.displayInfo "[ExocortexAlembic]: ExocortexAlembic_getInfo command:",
           Call.displayInfo "                    -f : provide a fileName (string)"] }
  else
    match args.fileNameArg with
    | none =>
      some
        { status := MStatus.kFailure
          result := none
          final := earlyState [Call.displayError "[ExocortexAlembic] No fileName specified."] }
    | some fileName =>
      match getArchiveFromID fileName with
      | none =>
        some
          { status := MStatus.kFailure
            result := none
            final := earlyState
              [Call.addRefArchive fileName,
               Call.displayError
                 ("[ExocortexAlembic] FileName specified. '" ++ fileName ++ "' does not exist.")] }
      | some archive =>
        match traversal isCancelled fileName archive with
        | none => none
        | some s =>
          some (finish args.status (encoding isCancelled alembicTypeToString fileName s))

/-! ## The record sequence in closed form -/

/-- Indices, counted from `n`, of the entries of a log whose first component is `r`. -/
def kidsFrom (r : Nat) : Nat → List (Nat × IObject) → List Int
  | _, [] => []
  | n, e :: rest =>
    if e.1 = r then (n : Int) :: kidsFrom r (n + 1) rest else kidsFrom r (n + 1) rest

/-- Whether the log has an entry with first component `r` whose object is classified
`AT_Xform`. -/
def hasXformChild (r : Nat) (log : List (Nat × IObject)) : Bool :=
  log.any (fun e => decide (e.1 = r) && decide (getAlembicTypeFromObject e.2 = AT_Xform))

/-- The record of the top object after the inner loop iterations `log`. -/
def rootRecord (log : List (Nat × IObject)) : infoTuple :=
  { childID := kidsFrom 0 1 log }

/-- The record of the entry `e` at position `k` of the log, after the inner loop
iterations `log`. -/
def childRecord (log : List (Nat × IObject)) (k : Nat) (e : Nat × IObject) : infoTuple :=
  { valid := true
    identifier :=
      if e.2.getFullName ∈ (log.take k).map (fun x => x.2.getFullName) then ""
      else c_str e.2.getFullName
    type :=
      if getAlembicTypeFromObject e.2 = AT_Xform ∧ hasXformChild (k + 1) log = true then AT_Group
      else getAlembicTypeFromObject e.2
    name := c_str e.2.getName
    nbSample := toInt32 (getNumSamplesFromObject e.2)
    parentID := (e.1 : Int)
    childID := kidsFrom (k + 1) 1 log
    data := additionalData e.2 }

/-- The records of the entries `es`, which are at the positions `k`, `k + 1`, ... of `log`. -/
def recordsFrom (log : List (Nat × IObject)) : Nat → List (Nat × IObject) → List infoTuple
  | _, [] => []
  | k, e :: es => childRecord log k e :: recordsFrom log (k + 1) es

/-- The record sequence after the inner loop iterations `log`, in closed form. -/
def recordsOf (log : List (Nat × IObject)) : List infoTuple :=
  rootRecord log :: recordsFrom log 0 log

/-- The tuple of a child once the body of the inner loop is through. -/
def newTuple (found : Bool) (i : Nat) (child : IObject) : infoTuple :=
  { valid := true
    identifier := if found then "" else c_str child.getFullName
    type := getAlembicTypeFromObject child
    name := c_str child.getName
    nbSample := toInt32 (getNumSamplesFromObject child)
    parentID := (i : Int)
    childID := []
    data := additionalData child }

/-! ## The handles visited and the invariants of the loops -/

/-- The handles of the hierarchies `cs`, which are the children number `j`, `j + 1`,
... of the object at `path`. -/
def childrenFrom (path : List Nat) : Nat → List ObjectTree → List IObject
  | _, [] => []
  | j, c :: cs => { path := path ++ [j], tree := c } :: childrenFrom path (j + 1) cs

/-- The handles `getChild(0)`, `getChild(1)`, ... of the children of an object. -/
def IObject.children (o : IObject) : List IObject :=
  childrenFrom o.path 0 o.tree.children

/-- The handles pushed on `objects` so far, in the order of the pushes. -/
def visited (archive : ObjectTree) (log : List (Nat × IObject)) : List IObject :=
  getTop archive :: log.map Prod.snd

/-- What the fields written by the body of the inner loop satisfy between two of its
iterations. -/
structure Core (s : State) : Prop where
  records : s.infoVector = recordsOf s.log
  idx : s.idx = (s.log.length : Int)
  uniq : ∀ x, x ∈ s.uniqueIdentifiers ↔ x ∈ s.log.map (fun e => e.2.getFullName)
  parents : ∀ e ∈ s.log, e.1 ≤ s.log.length

/-- What relates the log of the inner loop iterations to the archive when the outer loop
is about to start its iteration `i` (or has ended with `i` iterations made). -/
structure Bfs (archive : ObjectTree) (i : Nat) (log : List (Nat × IObject)) : Prop where
  i_le : i ≤ log.length + 1
  genuine : ∀ h ∈ visited archive log, archive.nodeAt h.path = some h.tree
  parentLt : ∀ (k : Nat) (e : Nat × IObject), log[k]? = some e → e.1 ≤ k ∧ e.1 < i
  parentsSorted : ∀ (a b : Nat) (ea eb : Nat × IObject), a ≤ b → log[a]? = some ea →
    log[b]? = some eb → ea.1 ≤ eb.1
  batch : ∀ (r : Nat) (hp : IObject), r < i → (visited archive log)[r]? = some hp →
    (log.filter (fun e => decide (e.1 = r))).map Prod.snd = hp.children
  inj : ∀ (a b : Nat) (ha hb : IObject), (visited archive log)[a]? = some ha →
    (visited archive log)[b]? = some hb → ha.path = hb.path → a = b
  depthSorted : ∀ (a b : Nat) (ha hb : IObject), a ≤ b → (visited archive log)[a]? = some ha →
    (visited archive log)[b]? = some hb → ha.path.length ≤ hb.path.length
  depthBound : ∀ (a : Nat) (ha h0 : IObject), (visited archive log)[i]? = some h0 →
    (visited archive log)[a]? = some ha → ha.path.length ≤ h0.path.length + 1

/-- The invariant of the traversal loop, at the head of the loop. -/
structure Inv (archive : ObjectTree) (s : State) : Prop where
  core : Core s
  bfs : Bfs archive s.i s.log
  queue : s.objects = (visited archive s.log).drop s.i
  size : s.i + ObjectTree.sizeList (s.objects.map IObject.tree) = archive.size

/-- What the flag `processStopped` says about the polls made so far. -/
structure PollInv (isCancelled : Nat → Bool) (s : State) : Prop where
  running : s.processStopped = false → ∀ n, n < s.polls → isCancelled n = false
  stopped : s.processStopped = true → ∃ n, n < s.polls ∧ isCancelled n = true

/-- The lines of the valid records of a record sequence. -/
def linesOf (alembicTypeToString : ALEMBIC_TYPE → String) (v : List infoTuple) : List String :=
  (v.filter (fun t => t.valid)).map (infoTuple.toInfo alembicTypeToString)

/-! ## Examples and notions of the spec -/

/-- An object with the given names, classification and number of samples, for which
none of the metadata tests holds (for the examples). -/
def plainObject (fullName name : String) (type : ALEMBIC_TYPE) (numSamples : Nat) :
    ObjectData :=
  { fullName := fullName, name := name, alembicType := type, numSamples := numSamples,
    polyMeshMatches := false, subDMatches := false, curvesMatches := false,
    meshTopoDynamic := false, meshPointCache := false, curvesValid := false,
    curvesNumCurves := [] }

/-- A string form of the type tags (for the examples; the function of the plug-in is
external). -/
def exampleTypeName : ALEMBIC_TYPE → String
  | AT_UNKNOWN => "Unknown"
  | AT_Xform => "Xform"
  | AT_Group => "Group"
  | AT_PolyMesh => "PolyMesh"
  | AT_SubD => "SubD"
  | AT_Curves => "Curves"
  | AT_Other _ => "Other"

/-- The archive of the scenario of the spec: the top object has the children `A`
(Xform) and `B` (a mesh), and `A` has the child `C` (Xform). -/
def scenarioArchive : ObjectTree :=
  ObjectTree.node (plainObject "/" "ABC" AT_UNKNOWN 0)
    [ ObjectTree.node (plainObject "/A" "A" AT_Xform 1)
        [ObjectTree.node (plainObject "/A/C" "C" AT_Xform 1) []],
      ObjectTree.node
        { plainObject "/B" "B" AT_PolyMesh 2 with polyMeshMatches := true } [] ]

/-- Arguments with the flag `-f scene.abc`. -/
def exampleArgs : Args :=
  { status := MStatus.kSuccess, help := false, fileNameArg := some "scene.abc" }

/-- The child index field of a line, in the words of the spec: `-1` if there are no
children, else the child indices joined with `.` in stored order. -/
def childIndexList (childID : List Int) : String :=
  if childID = [] then "-1" else String.intercalate "." (childID.map toString)

/-- The last part of a line, in the words of the spec: nothing when the metadata is
empty, else `|` and the metadata. -/
def metadataTail (data : String) : String :=
  if data = "" then "" else "|" ++ data

/-- The tokens of the flags that the two mesh predicates report, in the order in which
the predicates are checked. -/
def meshTokens (d : ObjectData) : List String :=
  (if d.meshTopoDynamic then ["dynamictopology=1"] else []) ++
    (if d.meshPointCache then ["purepointcache=1"] else [])

/-- An archive whose top object has one child, a mesh for which both mesh predicates
hold. -/
def meshArchive : ObjectTree :=
  ObjectTree.node (plainObject "/" "ABC" AT_UNKNOWN 0)
    [ ObjectTree.node
        { plainObject "/mesh" "mesh" AT_PolyMesh 4 with
          polyMeshMatches := true, meshTopoDynamic := true, meshPointCache := true } [] ]

/-- An archive whose top object has one child, a curves object with a valid wrapper and
the given numbers of curves in its samples. -/
def curvesArchive (numCurves : List Nat) : ObjectTree :=
  ObjectTree.node (plainObject "/" "ABC" AT_UNKNOWN 0)
    [ ObjectTree.node
        { plainObject "/curves" "curves" AT_Curves numCurves.length with
          curvesMatches := true, curvesValid := true, curvesNumCurves := numCurves } [] ]

/-- Arguments with the flag `-f scene.abc` for which the argument parser wrote
`kFailure` into `status`. -/
def failedParseArgs : Args :=
  { status := MStatus.kFailure, help := false, fileNameArg := some "scene.abc" }

/-- The object of the handle `h` has a direct child whose source classification is
`AT_Xform`. -/
def hasXformChildObject (h : IObject) : Prop :=
  ∃ (j : Nat) (c : IObject), h.getChild j = some c ∧ getAlembicTypeFromObject c = AT_Xform

/-- The handle of the object `A` of the scenario of the spec. -/
def scenarioHandleA : IObject :=
  { path := [0]
    tree :=
      ObjectTree.node (plainObject "/A" "A" AT_Xform 1)
        [ObjectTree.node (plainObject "/A/C" "C" AT_Xform 1) []] }

/-- An archive whose top object has twenty children without children. -/
def wideArchive : ObjectTree :=
  ObjectTree.node (plainObject "/" "ABC" AT_UNKNOWN 0)
    (List.replicate 20 (ObjectTree.node (plainObject "/leaf" "leaf" AT_PolyMesh 1) []))

/-- Arguments without the flag `-f`. -/
def noFileArgs : Args :=
  { status := MStatus.kSuccess, help := false, fileNameArg := none }

/-- The state in which the top object of the scenario of the spec has been dequeued and
its first child (`A`) has been processed. -/
def stateAfterA : State :=
  processChild 0 scenarioHandleA
    { initialState "scene.abc" scenarioArchive with objects := [] }

/-- The handle of the object `C` of the scenario of the spec. -/
def scenarioHandleC : IObject :=
  { path := [0, 0], tree := ObjectTree.node (plainObject "/A/C" "C" AT_Xform 1) [] }

/-- The external calls of `k` iterations of the traversal loop that are not cancelled:
a poll answered false and `advanceProgress(1)`, each time. -/
def iterationCalls : Nat → List Call
  | 0 => []
  | k + 1 => Call.isCancelled false :: Call.advanceProgress 1 :: iterationCalls k

/-- The external calls of the encoding loop for the record at position `p`: a poll
answered false when `p` is one of 20, 40, 60, ..., and `advanceProgress(1)`. -/
def encodingCallsAt (p : Nat) : List Call :=
  (if 0 < p ∧ p % 20 = 0 then [Call.isCancelled false] else []) ++ [Call.advanceProgress 1]

/-- The value of the counter `interrupt` when the encoding loop reaches the record at
position `p`. -/
def interruptAt (p : Nat) : Int :=
  if p = 0 then 20 else ((20 - (p % 20 : Nat) : Int)) % 20

/-- Whether a call is one of the two calls made inside the loops: a poll or
`advanceProgress`. -/
def isProgressCall : Call → Bool
  | Call.isCancelled _ => true
  | Call.advanceProgress _ => true
  | _ => false

/-- A state, not stopped, with 45 valid records and nothing else. -/
def manyRecordsState : State :=
  { earlyState [] with infoVector := List.replicate 45 { valid := true } }

/-- The traversal loop once more, returning with the final state the handles taken from
the front of `objects` (`objects.front()`, `objects.pop_front()`), in order. -/
def traversalLoopDequeued (isCancelled : Nat → Bool) :
    Nat → State → Option (State × List IObject)
  | 0, s =>
    match s.objects with
    | [] => some (s, [])
    | _ :: _ => none
  | fuel + 1, s =>
    match s.objects with
    | [] => some (s, [])
    | iObj :: rest =>
      if isCancelled s.polls then
        some ({ s with
          processStopped := true
          polls := s.polls + 1
          calls := s.calls ++ [Call.isCancelled true] }, [])
      else
        let s := { s with
          polls := s.polls + 1
          calls := s.calls ++ [Call.isCancelled false, Call.advanceProgress 1]
          objects := rest }
        let s := childLoop s.i iObj s
        match traversalLoopDequeued isCancelled fuel { s with i := s.i + 1 } with
        | some (s', dequeued) => some (s', iObj :: dequeued)
        | none => none

/-- The state after an iteration of the traversal loop that is not cancelled, `iObj`
being the front of `objects` and `rest` what is behind it. -/
def afterIteration (s : State) (iObj : IObject) (rest : List IObject) : State :=
  let s1 : State := { s with
    polls := s.polls + 1
    calls := s.calls ++ [Call.isCancelled false, Call.advanceProgress 1]
    objects := rest }
  let s2 := childLoop s1.i iObj s1
  { s2 with i := s2.i + 1 }

/-- The number that a list of decimal digit characters stands for. -/
def decimalValue (l : List Char) : Nat :=
  l.foldl (fun a c => 10 * a + (c.toNat - 48)) 0

/-- The characters of the child index field for a non-empty `childID`, with a `.` in
front of every index. -/
def dottedChars (l : List Int) : List Char :=
  l.flatMap (fun c => '.' :: (toString c).data)

/-- A string form of the type tags that tells all of them apart (for the examples). -/
def numberedTypeName : ALEMBIC_TYPE → String
  | AT_Other n => "Other" ++ toString n
  | t => exampleTypeName t

/-- The record of the object `A` of the scenario of the spec after the traversal. -/
def recordA : infoTuple :=
  { valid := true, identifier := "/A", type := AT_Group, name := "A", nbSample := 1,
    parentID := 0, childID := [3], data := "" }

/-! ## Lemmas: the closed form and the body of the inner loop -/

theorem kidsFrom_append (r : Nat) (l1 l2 : List (Nat × IObject)) (n : Nat) :
    kidsFrom r n (l1 ++ l2) = kidsFrom r n l1 ++ kidsFrom r (n + l1.length) l2 := by
  induction l1 generalizing n with
  | nil => simp [kidsFrom]
  | cons e es ih =>
    have h : n + 1 + es.length = n + (es.length + 1) := by omega
    have ih1 := ih (n + 1)
    rw [h] at ih1
    by_cases he : e.1 = r
    · simp [kidsFrom, he, ih1]
    · simp [kidsFrom, he, ih1]

theorem kidsFrom_eq_nil (r : Nat) (l : List (Nat × IObject)) (n : Nat)
    (h : ∀ e ∈ l, e.1 ≠ r) : kidsFrom r n l = [] := by
  induction l generalizing n with
  | nil => rfl
  | cons e es ih =>
    have h1 : e.1 ≠ r := h e (List.mem_cons_self _ _)
    simp only [kidsFrom, if_neg h1]
    exact ih (n + 1) (fun x hx => h x (List.mem_cons_of_mem _ hx))

theorem hasXformChild_append (r : Nat) (l1 l2 : List (Nat × IObject)) :
    hasXformChild r (l1 ++ l2) = (hasXformChild r l1 || hasXformChild r l2) := by
  simp [hasXformChild]

theorem hasXformChild_eq_false (r : Nat) (l : List (Nat × IObject))
    (h : ∀ e ∈ l, e.1 ≠ r) : hasXformChild r l = false := by
  simp only [hasXformChild, List.any_eq_false]
  intro e he
  simp [h e he]

theorem length_recordsFrom (log es : List (Nat × IObject)) (k : Nat) :
    (recordsFrom log k es).length = es.length := by
  induction es generalizing k with
  | nil => rfl
  | cons e es ih => simp [recordsFrom, ih]

theorem length_recordsOf (log : List (Nat × IObject)) :
    (recordsOf log).length = log.length + 1 := by
  simp [recordsOf, length_recordsFrom]

theorem getElem?_recordsFrom (log es : List (Nat × IObject)) (k n : Nat) :
    (recordsFrom log k es)[n]? = (es[n]?).map (childRecord log (k + n)) := by
  induction es generalizing k n with
  | nil => simp [recordsFrom]
  | cons e es ih =>
    cases n with
    | zero => simp [recordsFrom]
    | succ n =>
      simp only [recordsFrom, List.getElem?_cons_succ]
      rw [ih (k + 1) n]
      have h : k + 1 + n = k + (n + 1) := by omega
      rw [h]

theorem getElem?_recordsOf_zero (log : List (Nat × IObject)) :
    (recordsOf log)[0]? = some (rootRecord log) := by
  simp [recordsOf]

theorem getElem?_recordsOf_succ (log : List (Nat × IObject)) (k : Nat) :
    (recordsOf log)[k + 1]? = (log[k]?).map (childRecord log k) := by
  simp [recordsOf, getElem?_recordsFrom]

theorem modify_append_of_lt {α : Type} (f : α → α) (l r : List α) (n : Nat)
    (h : n < l.length) : (l ++ r).modify f n = l.modify f n ++ r := by
  induction l generalizing n with
  | nil => simp at h
  | cons a l ih =>
    cases n with
    | zero => simp
    | succ n =>
      simp only [List.cons_append, List.modify_succ_cons, List.cons.injEq, true_and]
      exact ih n (by simpa using h)

theorem modify_length_append_singleton {α : Type} (f : α → α) (l : List α) (a : α) :
    (l ++ [a]).modify f l.length = l ++ [f a] := by
  induction l with
  | nil => simp
  | cons b l ih => simp [ih]

theorem modifyBack_append_singleton (f : infoTuple → infoTuple) (l : List infoTuple)
    (a : infoTuple) : modifyBack f (l ++ [a]) = l ++ [f a] := by
  unfold modifyBack
  have h : (l ++ [a]).length - 1 = l.length := by simp
  rw [h, modify_length_append_singleton]

theorem string_eq_empty_of_length (s : String) (h : ¬ s.length > 0) : s = "" := by
  have h0 : s.length = 0 := by omega
  have h1 : s.data = [] := List.length_eq_zero.mp h0
  cases s
  simp_all

theorem processChild_infoVector (i : Nat) (child : IObject) (s : State)
    (hi : i < s.infoVector.length) :
    (processChild i child s).infoVector =
      s.infoVector.modify (parentUpdate (getAlembicTypeFromObject child) (s.idx + 1)) i ++
        [newTuple (decide (child.getFullName ∈ s.uniqueIdentifiers)) i child] := by
  unfold processChild
  simp only
  rw [modifyBack_append_singleton, modify_append_of_lt _ _ _ _ hi, modifyBack_append_singleton]
  congr 2
  by_cases hd : (additionalData child).length > 0
  · simp [hd, newTuple]
  · have h0 := string_eq_empty_of_length _ hd
    simp [h0, newTuple]

theorem rootRecord_snoc (log : List (Nat × IObject)) (i : Nat) (child : IObject) :
    rootRecord (log ++ [(i, child)]) =
      if i = 0 then
        parentUpdate (getAlembicTypeFromObject child) ((log.length : Int) + 1) (rootRecord log)
      else rootRecord log := by
  unfold rootRecord
  rw [kidsFrom_append]
  by_cases h : i = 0
  · subst h
    simp [kidsFrom, parentUpdate, Int.add_comm]
  · simp [kidsFrom, h]

theorem childRecord_snoc (log : List (Nat × IObject)) (i : Nat) (child : IObject) (k : Nat)
    (e : Nat × IObject) (hk : k < log.length) :
    childRecord (log ++ [(i, child)]) k e =
      if i = k + 1 then
        parentUpdate (getAlembicTypeFromObject child) ((log.length : Int) + 1) (childRecord log k e)
      else childRecord log k e := by
  have ht : (log ++ [(i, child)]).take k = log.take k := by
    rw [List.take_append_of_le_length (by omega)]
  have hs : hasXformChild (k + 1) [(i, child)] =
      (decide (i = k + 1) && decide (getAlembicTypeFromObject child = AT_Xform)) := by
    simp [hasXformChild]
  have hkid : kidsFrom (k + 1) (1 + log.length) [(i, child)] =
      if i = k + 1 then [((log.length : Int) + 1)] else [] := by
    by_cases h : i = k + 1 <;> simp [kidsFrom, h, Int.add_comm]
  unfold childRecord
  rw [kidsFrom_append, hasXformChild_append, ht, hs, hkid]
  generalize hasXformChild (k + 1) log = b
  generalize getAlembicTypeFromObject child = tc
  generalize getAlembicTypeFromObject e.2 = te
  by_cases h : i = k + 1
  · by_cases hc : tc = AT_Xform
    · by_cases he : te = AT_Xform
      · cases b <;> simp [parentUpdate, h, hc, he]
      · cases b <;> simp [parentUpdate, h, hc, he]
    · cases b <;> simp [parentUpdate, h, hc]
  · simp [h]

theorem childRecord_last (log : List (Nat × IObject)) (i : Nat) (child : IObject)
    (hi : i ≤ log.length) (hlog : ∀ e ∈ log, e.1 ≤ log.length) :
    childRecord (log ++ [(i, child)]) log.length (i, child) =
      newTuple (decide (child.getFullName ∈ log.map (fun x => x.2.getFullName))) i child := by
  have h1 : ∀ e ∈ log ++ [(i, child)], e.1 ≠ log.length + 1 := by
    intro e he
    rcases List.mem_append.mp he with h | h
    · have := hlog e h
      omega
    · simp at h
      subst h
      simp
      omega
  have ht : (log ++ [(i, child)]).take log.length = log := by simp
  unfold childRecord newTuple
  rw [kidsFrom_eq_nil _ _ _ h1, hasXformChild_eq_false _ _ h1, ht]
  by_cases hm : child.getFullName ∈ List.map (fun x => x.2.getFullName) log <;> simp [hm]

theorem recordsOf_snoc (log : List (Nat × IObject)) (i : Nat) (child : IObject)
    (hi : i ≤ log.length) (hlog : ∀ e ∈ log, e.1 ≤ log.length) :
    recordsOf (log ++ [(i, child)]) =
      (recordsOf log).modify
          (parentUpdate (getAlembicTypeFromObject child) ((log.length : Int) + 1)) i ++
        [newTuple (decide (child.getFullName ∈ log.map (fun x => x.2.getFullName))) i child] := by
  apply List.ext_getElem?
  intro n
  have hlen : ∀ f : infoTuple → infoTuple,
      ((recordsOf log).modify f i).length = log.length + 1 := by
    intro f
    simp [length_recordsOf]
  cases n with
  | zero =>
    rw [getElem?_recordsOf_zero, List.getElem?_append_left (by rw [hlen]; omega),
      List.getElem?_modify, getElem?_recordsOf_zero, rootRecord_snoc]
    by_cases h : i = 0 <;> simp [h]
  | succ k =>
    rw [getElem?_recordsOf_succ]
    generalize hf : parentUpdate (getAlembicTypeFromObject child) ((log.length : Int) + 1) = f
    generalize hnew :
      newTuple (decide (child.getFullName ∈ log.map (fun x => x.2.getFullName))) i child = nt
    rcases Nat.lt_trichotomy k log.length with hk | hk | hk
    · have hR : ((recordsOf log).modify f i ++ [nt])[k + 1]? =
          ((recordsOf log).modify f i)[k + 1]? :=
        List.getElem?_append_left (by rw [hlen]; omega)
      have hL : (log ++ [(i, child)])[k]? = some log[k] := by
        rw [List.getElem?_append_left hk, List.getElem?_eq_getElem hk]
      rw [hR, hL, List.getElem?_modify, getElem?_recordsOf_succ, List.getElem?_eq_getElem hk]
      simp only [Option.map_some', Option.map_eq_map]
      rw [childRecord_snoc _ _ _ _ _ hk, hf]
    · subst hk
      have hR : ((recordsOf log).modify f i ++ [nt])[log.length + 1]? = some nt := by
        rw [List.getElem?_append_right (by rw [hlen]), hlen]
        simp
      have hL : (log ++ [(i, child)])[log.length]? = some (i, child) := by
        rw [List.getElem?_append_right (Nat.le_refl _)]
        simp
      rw [hR, hL]
      simp only [Option.map_some']
      rw [childRecord_last _ _ _ hi hlog, hnew]
    · have hR : ((recordsOf log).modify f i ++ [nt])[k + 1]? = none := by
        apply List.getElem?_eq_none
        rw [List.length_append, hlen]
        simp
        omega
      have hL : (log ++ [(i, child)])[k]? = none := by
        apply List.getElem?_eq_none
        simp
        omega
      rw [hR, hL]
      rfl

/-! ## Lemmas: the children of an object and the inner loop -/

theorem getElem?_childrenFrom (path : List Nat) (cs : List ObjectTree) (j m : Nat) :
    (childrenFrom path j cs)[m]? =
      (cs[m]?).map (fun c => ({ path := path ++ [j + m], tree := c } : IObject)) := by
  induction cs generalizing j m with
  | nil => simp [childrenFrom]
  | cons c cs ih =>
    cases m with
    | zero => simp [childrenFrom]
    | succ m =>
      simp only [childrenFrom, List.getElem?_cons_succ]
      rw [ih (j + 1) m]
      have h : j + 1 + m = j + (m + 1) := by omega
      rw [h]

theorem length_childrenFrom (path : List Nat) (cs : List ObjectTree) (j : Nat) :
    (childrenFrom path j cs).length = cs.length := by
  induction cs generalizing j with
  | nil => rfl
  | cons c cs ih => simp [childrenFrom, ih]

theorem map_tree_childrenFrom (path : List Nat) (cs : List ObjectTree) (j : Nat) :
    (childrenFrom path j cs).map IObject.tree = cs := by
  induction cs generalizing j with
  | nil => rfl
  | cons c cs ih => simp [childrenFrom, ih]

theorem length_children (o : IObject) : o.children.length = o.getNumChildren := by
  simp [IObject.children, IObject.getNumChildren, length_childrenFrom]

theorem getElem?_children (o : IObject) (j : Nat) : o.children[j]? = o.getChild j := by
  unfold IObject.children IObject.getChild
  rw [getElem?_childrenFrom]
  cases o.tree.children[j]? <;> simp

theorem mem_children_iff (o c : IObject) : c ∈ o.children ↔ ∃ j, o.getChild j = some c := by
  rw [List.mem_iff_getElem?]
  simp only [getElem?_children]

theorem getChild_path (o c : IObject) (j : Nat) (h : o.getChild j = some c) :
    c.path = o.path ++ [j] := by
  unfold IObject.getChild at h
  cases hj : o.tree.children[j]? with
  | none => simp [hj] at h
  | some t =>
    simp [hj] at h
    rw [← h]

theorem getChild_tree (o c : IObject) (j : Nat) (h : o.getChild j = some c) :
    o.tree.children[j]? = some c.tree := by
  unfold IObject.getChild at h
  cases hj : o.tree.children[j]? with
  | none => simp [hj] at h
  | some t =>
    simp [hj] at h
    rw [← h]

theorem foldl_range_step {β σ : Type} (step : σ → Nat → σ) (f : σ → β → σ) (L : List β)
    (h : ∀ s j, (hj : j < L.length) → step s j = f s (L.get ⟨j, hj⟩)) (s : σ) :
    (List.range L.length).foldl step s = L.foldl f s := by
  induction L using List.reverseRecOn generalizing s with
  | nil => simp
  | append_singleton L a ih =>
    have h1 : ∀ s j, (hj : j < L.length) → step s j = f s (L.get ⟨j, hj⟩) := by
      intro s j hj
      rw [h s j (by simp; omega)]
      simp [List.getElem_append_left hj]
    have h2 : ∀ s, step s L.length = f s a := by
      intro s
      rw [h s L.length (by simp)]
      simp
    simp only [List.length_append, List.length_singleton, List.range_succ, List.foldl_append,
      List.foldl_cons, List.foldl_nil]
    rw [ih h1, h2]

theorem childLoop_eq_foldl (i : Nat) (iObj : IObject) (s : State) :
    childLoop i iObj s = iObj.children.foldl (fun s c => processChild i c s) s := by
  unfold childLoop
  rw [← length_children]
  apply foldl_range_step
  intro s j hj
  have h : iObj.getChild j = some (iObj.children.get ⟨j, hj⟩) := by
    rw [← getElem?_children, List.getElem?_eq_getElem hj]
    rfl
  simp only [h]

theorem processChild_core (i : Nat) (child : IObject) (s : State) (hc : Core s)
    (hi : i ≤ s.log.length) : Core (processChild i child s) := by
  have hlen : i < s.infoVector.length := by
    rw [hc.records, length_recordsOf]
    omega
  constructor
  · rw [processChild_infoVector i child s hlen]
    have hlog : (processChild i child s).log = s.log ++ [(i, child)] := rfl
    rw [hlog, recordsOf_snoc _ _ _ hi hc.parents, hc.records, hc.idx]
    have hd : decide (child.getFullName ∈ s.uniqueIdentifiers) =
        decide (child.getFullName ∈ s.log.map (fun x => x.2.getFullName)) := by
      rw [decide_eq_decide]
      exact hc.uniq _
    rw [hd]
  · show s.idx + 1 = ((s.log ++ [(i, child)]).length : Int)
    rw [hc.idx]
    simp
  · intro x
    show x ∈ (if decide (child.getFullName ∈ s.uniqueIdentifiers) = true then s.uniqueIdentifiers
      else child.getFullName :: s.uniqueIdentifiers) ↔
      x ∈ (s.log ++ [(i, child)]).map (fun e => e.2.getFullName)
    rw [List.map_append, List.mem_append, ← hc.uniq x]
    by_cases hm : child.getFullName ∈ s.uniqueIdentifiers
    · simp only [hm, decide_True, if_true, List.map_cons, List.map_nil, List.mem_singleton]
      constructor
      · intro hx
        exact Or.inl hx
      · rintro (hx | hx)
        · exact hx
        · rw [hx]
          exact hm
    · simp only [hm, decide_False, Bool.false_eq_true, if_false, List.map_cons, List.map_nil,
        List.mem_cons, List.not_mem_nil, or_false]
      exact Or.comm
  · intro e he
    have hlog : (processChild i child s).log = s.log ++ [(i, child)] := rfl
    rw [hlog] at he ⊢
    rw [List.length_append]
    rcases List.mem_append.mp he with h | h
    · have := hc.parents e h
      omega
    · simp at h
      subst h
      simp
      omega

theorem childLoop_spec (i : Nat) (iObj : IObject) (s : State) (hc : Core s)
    (hi : i ≤ s.log.length) :
    Core (childLoop i iObj s) ∧
      (childLoop i iObj s).log = s.log ++ iObj.children.map (fun c => (i, c)) ∧
      (childLoop i iObj s).objects = s.objects ++ iObj.children ∧
      (childLoop i iObj s).i = s.i ∧
      (childLoop i iObj s).polls = s.polls ∧
      (childLoop i iObj s).calls = s.calls ∧
      (childLoop i iObj s).processStopped = s.processStopped ∧
      (childLoop i iObj s).identifiers = s.identifiers := by
  rw [childLoop_eq_foldl]
  generalize iObj.children = cs
  induction cs generalizing s with
  | nil => simp [hc]
  | cons c cs ih =>
    have hc1 := processChild_core i c s hc hi
    have hlog : (processChild i c s).log = s.log ++ [(i, c)] := rfl
    have hi1 : i ≤ (processChild i c s).log.length := by
      rw [hlog, List.length_append]
      omega
    obtain ⟨h1, h2, h3, h4, h5, h6, h7, h8⟩ := ih (processChild i c s) hc1 hi1
    simp only [List.foldl_cons]
    refine ⟨h1, ?_, ?_, ?_, ?_, ?_, ?_, ?_⟩
    · rw [h2, hlog]
      simp
    · rw [h3]
      show s.objects ++ [c] ++ cs = s.objects ++ c :: cs
      simp
    · rw [h4]
      rfl
    · rw [h5]
      rfl
    · rw [h6]
      rfl
    · rw [h7]
      rfl
    · rw [h8]
      rfl

/-! ## Lemmas: the log of the traversal and the archive -/

theorem visited_append (archive : ObjectTree) (log : List (Nat × IObject)) (i : Nat)
    (cs : List IObject) :
    visited archive (log ++ cs.map (fun c => (i, c))) = visited archive log ++ cs := by
  simp [visited, Function.comp_def]

theorem length_visited (archive : ObjectTree) (log : List (Nat × IObject)) :
    (visited archive log).length = log.length + 1 := by
  simp [visited]

theorem getElem?_visited_succ (archive : ObjectTree) (log : List (Nat × IObject)) (k : Nat) :
    (visited archive log)[k + 1]? = (log[k]?).map Prod.snd := by
  simp [visited]

theorem getElem?_append_cases {α : Type} (l r : List α) (a : Nat) (x : α)
    (h : (l ++ r)[a]? = some x) :
    (a < l.length ∧ l[a]? = some x) ∨ (l.length ≤ a ∧ r[a - l.length]? = some x) := by
  by_cases ha : a < l.length
  · left
    rw [List.getElem?_append_left ha] at h
    exact ⟨ha, h⟩
  · right
    have ha1 : l.length ≤ a := by omega
    rw [List.getElem?_append_right ha1] at h
    exact ⟨ha1, h⟩

theorem nodeAt_append (t : ObjectTree) (p q : List Nat) :
    t.nodeAt (p ++ q) = (t.nodeAt p).bind (fun u => u.nodeAt q) := by
  induction p generalizing t with
  | nil => simp [ObjectTree.nodeAt]
  | cons j p ih =>
    simp only [List.cons_append, ObjectTree.nodeAt]
    cases t.children[j]? with
    | none => simp
    | some c => simp [ih]

theorem nodeAt_snoc (t u : ObjectTree) (p : List Nat) (j : Nat) (h : t.nodeAt p = some u) :
    t.nodeAt (p ++ [j]) = u.children[j]? := by
  rw [nodeAt_append, h]
  simp only [Option.some_bind, ObjectTree.nodeAt]
  cases u.children[j]? <;> rfl

theorem children_path (o c : IObject) (m : Nat) (h : o.children[m]? = some c) :
    c.path = o.path ++ [m] :=
  getChild_path o c m (by rw [← getElem?_children]; exact h)

theorem getElem?_log_append_cases (log : List (Nat × IObject)) (i : Nat) (cs : List IObject)
    (k : Nat) (e : Nat × IObject) (h : (log ++ cs.map (fun c => (i, c)))[k]? = some e) :
    (k < log.length ∧ log[k]? = some e) ∨
      (log.length ≤ k ∧ e.1 = i ∧ cs[k - log.length]? = some e.2) := by
  rcases getElem?_append_cases _ _ _ _ h with ⟨h1, h2⟩ | ⟨h1, h2⟩
  · exact Or.inl ⟨h1, h2⟩
  · right
    rw [List.getElem?_map] at h2
    cases hc : cs[k - log.length]? with
    | none => simp [hc] at h2
    | some c =>
      simp [hc] at h2
      subst h2
      exact ⟨h1, rfl, rfl⟩

theorem bfs_sound {archive : ObjectTree} {i : Nat} {log : List (Nat × IObject)}
    (hb : Bfs archive i log) (k : Nat) (e : Nat × IObject) (h : log[k]? = some e) :
    ∃ hp j, (visited archive log)[e.1]? = some hp ∧ hp.getChild j = some e.2 := by
  obtain ⟨h1, h2⟩ := hb.parentLt k e h
  have hk : k < log.length := by
    by_contra hk
    rw [List.getElem?_eq_none (by omega)] at h
    exact Option.noConfusion h
  have hlt : e.1 < (visited archive log).length := by
    rw [length_visited]
    omega
  refine ⟨(visited archive log)[e.1], ?_⟩
  have hp := List.getElem?_eq_getElem hlt
  have hbatch := hb.batch e.1 _ h2 hp
  have hmem : e.2 ∈ (log.filter (fun x => decide (x.1 = e.1))).map Prod.snd := by
    apply List.mem_map_of_mem
    rw [List.mem_filter]
    exact ⟨List.getElem?_mem h, by simp⟩
  rw [hbatch, mem_children_iff] at hmem
  obtain ⟨j, hj⟩ := hmem
  exact ⟨j, hp, hj⟩

theorem getElem?_lt_length {α : Type} (l : List α) (a : Nat) (x : α) (h : l[a]? = some x) :
    a < l.length := by
  by_contra hk
  rw [List.getElem?_eq_none (by omega)] at h
  exact Option.noConfusion h

theorem bfs_init (archive : ObjectTree) : Bfs archive 0 [] := by
  constructor
  · simp
  · intro h hh
    simp [visited, getTop] at hh
    subst hh
    rfl
  · intro k e h
    simp at h
  · intro a b ea eb _ h
    simp at h
  · intro r hp h
    omega
  · intro a b ha hb h1 h2 _
    have := getElem?_lt_length _ _ _ h1
    have := getElem?_lt_length _ _ _ h2
    simp [visited] at *
    omega
  · intro a b ha hb _ h1 h2
    have ha0 := getElem?_lt_length _ _ _ h1
    have hb0 := getElem?_lt_length _ _ _ h2
    simp [visited] at ha0 hb0
    subst ha0 hb0
    rw [h1] at h2
    cases h2
    exact Nat.le_refl _
  · intro a ha h0 h1 h2
    have ha0 := getElem?_lt_length _ _ _ h2
    simp [visited] at ha0
    subst ha0
    rw [h1] at h2
    cases h2
    omega

theorem bfs_step {archive : ObjectTree} {i : Nat} {log : List (Nat × IObject)}
    (hb : Bfs archive i log) (h : IObject) (hi : (visited archive log)[i]? = some h) :
    Bfs archive (i + 1) (log ++ h.children.map (fun c => (i, c))) := by
  have hilt : i < log.length + 1 := by
    have := getElem?_lt_length _ _ _ hi
    rwa [length_visited] at this
  have hgen : archive.nodeAt h.path = some h.tree := hb.genuine h (List.getElem?_mem hi)
  -- facts about the handles visited after the step
  have hV : ∀ (a : Nat) (x : IObject),
      (visited archive (log ++ h.children.map (fun c => (i, c))))[a]? = some x →
      (a < log.length + 1 ∧ (visited archive log)[a]? = some x) ∨
        (log.length + 1 ≤ a ∧ h.children[a - (log.length + 1)]? = some x) := by
    intro a x hx
    rw [visited_append] at hx
    have := getElem?_append_cases _ _ _ _ hx
    rwa [length_visited] at this
  have hVold : ∀ (a : Nat), a < log.length + 1 →
      (visited archive (log ++ h.children.map (fun c => (i, c))))[a]? =
        (visited archive log)[a]? := by
    intro a ha
    rw [visited_append, List.getElem?_append_left (by rw [length_visited]; exact ha)]
  have hnewdepth : ∀ (m : Nat) (x : IObject), h.children[m]? = some x →
      x.path.length = h.path.length + 1 := by
    intro m x hx
    rw [children_path h x m hx]
    simp
  constructor
  · rw [List.length_append]
    omega
  · intro x hx
    rw [visited_append, List.mem_append] at hx
    rcases hx with hx | hx
    · exact hb.genuine x hx
    · obtain ⟨j, hj⟩ := (mem_children_iff h x).mp hx
      rw [getChild_path h x j hj, nodeAt_snoc _ _ _ _ hgen]
      exact getChild_tree h x j hj
  · intro k e he
    rcases getElem?_log_append_cases _ _ _ _ _ he with ⟨_, h2⟩ | ⟨h1, h2, _⟩
    · have := hb.parentLt k e h2
      omega
    · omega
  · intro a b ea eb hab hea heb
    rcases getElem?_log_append_cases _ _ _ _ _ hea with ⟨ha1, ha2⟩ | ⟨ha1, ha2, _⟩
    · rcases getElem?_log_append_cases _ _ _ _ _ heb with ⟨_, hb2⟩ | ⟨_, hb2, _⟩
      · exact hb.parentsSorted a b ea eb hab ha2 hb2
      · have := hb.parentLt a ea ha2
        omega
    · rcases getElem?_log_append_cases _ _ _ _ _ heb with ⟨hb1, _⟩ | ⟨_, hb2, _⟩
      · omega
      · omega
  · intro r hp hr hhp
    rw [List.filter_append, List.map_append]
    by_cases hri : r = i
    · subst hri
      rw [hVold r hilt, hi] at hhp
      cases hhp
      have h1 : log.filter (fun e => decide (e.1 = r)) = [] := by
        rw [List.filter_eq_nil_iff]
        intro e he
        obtain ⟨k, hk⟩ := List.mem_iff_getElem?.mp he
        have := hb.parentLt k e hk
        simp
        omega
      have h2 : (h.children.map (fun c => (r, c))).filter (fun e => decide (e.1 = r)) =
          h.children.map (fun c => (r, c)) := by
        rw [List.filter_eq_self]
        intro e he
        simp at he
        obtain ⟨c, _, hc⟩ := he
        subst hc
        simp
      rw [h1, h2]
      simp [Function.comp_def]
    · have hr2 : r < i := by omega
      rw [hVold r (by omega)] at hhp
      have h2 : (h.children.map (fun c => (i, c))).filter (fun e => decide (e.1 = r)) = [] := by
        rw [List.filter_eq_nil_iff]
        intro e he
        simp at he
        obtain ⟨c, _, hc⟩ := he
        subst hc
        simp
        omega
      rw [h2]
      simp only [List.map_nil, List.append_nil]
      exact hb.batch r hp hr2 hhp
  · intro a b ha hb2 hha hhb hpath
    rcases hV a ha hha with ⟨ha1, ha2⟩ | ⟨ha1, ha2⟩
    · rcases hV b hb2 hhb with ⟨hb1, hb3⟩ | ⟨hb1, hb3⟩
      · exact hb.inj a b ha hb2 ha2 hb3 hpath
      · exfalso
        rw [children_path h hb2 _ hb3] at hpath
        cases a with
        | zero =>
          simp [visited, getTop] at ha2
          subst ha2
          simp at hpath
        | succ k =>
          rw [getElem?_visited_succ] at ha2
          cases hk : log[k]? with
          | none => simp [hk] at ha2
          | some e =>
            simp [hk] at ha2
            obtain ⟨hp, j, hp1, hp2⟩ := bfs_sound hb k e hk
            rw [← ha2, getChild_path hp e.2 j hp2] at hpath
            have hpp : hp.path = h.path := (List.append_inj' hpath rfl).1
            have := hb.inj e.1 i hp h hp1 hi hpp
            have := hb.parentLt k e hk
            omega
    · rcases hV b hb2 hhb with ⟨hb1, hb3⟩ | ⟨hb1, hb3⟩
      · exfalso
        rw [children_path h ha _ ha2] at hpath
        cases b with
        | zero =>
          simp [visited, getTop] at hb3
          subst hb3
          simp at hpath
        | succ k =>
          rw [getElem?_visited_succ] at hb3
          cases hk : log[k]? with
          | none => simp [hk] at hb3
          | some e =>
            simp [hk] at hb3
            obtain ⟨hp, j, hp1, hp2⟩ := bfs_sound hb k e hk
            rw [← hb3, getChild_path hp e.2 j hp2] at hpath
            have hpp : h.path = hp.path := (List.append_inj' hpath rfl).1
            have := hb.inj i e.1 h hp hi hp1 hpp
            have := hb.parentLt k e hk
            omega
      · rw [children_path h ha _ ha2, children_path h hb2 _ hb3] at hpath
        have := (List.append_inj' hpath rfl).2
        simp at this
        omega
  · intro a b ha hb2 hab hha hhb
    rcases hV a ha hha with ⟨ha1, ha2⟩ | ⟨ha1, ha2⟩
    · rcases hV b hb2 hhb with ⟨hb1, hb3⟩ | ⟨hb1, hb3⟩
      · exact hb.depthSorted a b ha hb2 hab ha2 hb3
      · rw [hnewdepth _ _ hb3]
        exact hb.depthBound a ha h hi ha2
    · rcases hV b hb2 hhb with ⟨hb1, hb3⟩ | ⟨hb1, hb3⟩
      · omega
      · rw [hnewdepth _ _ hb3, hnewdepth _ _ ha2]
  · intro a ha h0 hh0 hha
    have h0depth : h.path.length ≤ h0.path.length := by
      rcases hV (i + 1) h0 hh0 with ⟨hb1, hb3⟩ | ⟨hb1, hb3⟩
      · exact hb.depthSorted i (i + 1) h h0 (by omega) hi hb3
      · rw [hnewdepth _ _ hb3]
        omega
    rcases hV a ha hha with ⟨ha1, ha2⟩ | ⟨ha1, ha2⟩
    · have := hb.depthBound a ha h hi ha2
      omega
    · rw [hnewdepth _ _ ha2]
      omega

/-! ## Lemmas: the traversal loop -/

theorem size_pos (t : ObjectTree) : 1 ≤ t.size := by
  cases t
  simp [ObjectTree.size]

theorem size_eq (t : ObjectTree) : t.size = 1 + ObjectTree.sizeList t.children := by
  cases t
  simp [ObjectTree.size, ObjectTree.children]

theorem sizeList_append (l r : List ObjectTree) :
    ObjectTree.sizeList (l ++ r) = ObjectTree.sizeList l + ObjectTree.sizeList r := by
  induction l with
  | nil => simp [ObjectTree.sizeList]
  | cons t l ih =>
    have h : ObjectTree.sizeList (t :: (l ++ r)) = t.size + ObjectTree.sizeList (l ++ r) := by
      simp only [ObjectTree.sizeList]
    rw [List.cons_append, h, ih]
    simp only [ObjectTree.sizeList]
    omega

theorem drop_eq_cons {α : Type} (l : List α) (i : Nat) (x : α) (r : List α)
    (h : l.drop i = x :: r) : l[i]? = some x ∧ l.drop (i + 1) = r := by
  induction l generalizing i with
  | nil => simp at h
  | cons a l ih =>
    cases i with
    | zero =>
      simp at h
      simp [h.1, h.2]
    | succ i =>
      simp at h
      simpa using ih i h

theorem inv_init (fileName : String) (archive : ObjectTree) :
    Inv archive (initialState fileName archive) := by
  constructor
  · constructor
    · rfl
    · rfl
    · intro x
      simp [initialState]
    · intro e he
      simp [initialState] at he
  · exact bfs_init archive
  · rfl
  · simp [initialState, ObjectTree.sizeList, getTop]

theorem traversalLoop_spec (isCancelled : Nat → Bool) (archive : ObjectTree) :
    ∀ (fuel : Nat) (s : State), Inv archive s → PollInv isCancelled s →
      s.processStopped = false →
      ObjectTree.sizeList (s.objects.map IObject.tree) ≤ fuel →
      ∃ s', traversalLoop isCancelled fuel s = some s' ∧ Inv archive s' ∧
        PollInv isCancelled s' ∧ (s'.processStopped = false → s'.objects = []) ∧
        s'.identifiers = s.identifiers := by
  intro fuel
  induction fuel with
  | zero =>
    intro s hinv hpoll _ hfuel
    cases hobj : s.objects with
    | nil =>
      refine ⟨s, ?_, hinv, hpoll, fun _ => hobj, rfl⟩
      simp [traversalLoop, hobj]
    | cons iObj rest =>
      exfalso
      rw [hobj] at hfuel
      simp only [List.map_cons, ObjectTree.sizeList] at hfuel
      have := size_pos iObj.tree
      omega
  | succ fuel ih =>
    intro s hinv hpoll hrun hfuel
    cases hobj : s.objects with
    | nil =>
      refine ⟨s, ?_, hinv, hpoll, fun _ => hobj, rfl⟩
      simp [traversalLoop, hobj]
    | cons iObj rest =>
      by_cases hcancel : isCancelled s.polls = true
      · refine ⟨{ s with
          processStopped := true
          polls := s.polls + 1
          calls := s.calls ++ [Call.isCancelled true] }, ?_, ?_, ?_, ?_, ?_⟩
        · simp only [traversalLoop, hobj, hcancel, if_true]
        · exact ⟨⟨hinv.core.records, hinv.core.idx, hinv.core.uniq, hinv.core.parents⟩,
            hinv.bfs, hinv.queue, hinv.size⟩
        · constructor
          · intro h
            simp at h
          · intro _
            exact ⟨s.polls, Nat.lt_succ_self _, hcancel⟩
        · intro h
          simp at h
        · rfl
      · have hq := hinv.queue
        rw [hobj] at hq
        obtain ⟨hi, hdrop⟩ := drop_eq_cons _ _ _ _ hq.symm
        have hilt : s.i < s.log.length + 1 := by
          have := getElem?_lt_length _ _ _ hi
          rwa [length_visited] at this
        -- the state after the poll and the pop
        generalize hs1 : ({ s with
          polls := s.polls + 1
          calls := s.calls ++ [Call.isCancelled false, Call.advanceProgress 1]
          objects := rest } : State) = s1
        have hc1 : Core s1 := by
          subst hs1
          exact ⟨hinv.core.records, hinv.core.idx, hinv.core.uniq, hinv.core.parents⟩
        have hlog1 : s1.log = s.log := by subst hs1; rfl
        have hi1 : s1.i = s.i := by subst hs1; rfl
        have hobj1 : s1.objects = rest := by subst hs1; rfl
        have hpolls1 : s1.polls = s.polls + 1 := by subst hs1; rfl
        have hstop1 : s1.processStopped = s.processStopped := by subst hs1; rfl
        have hid1 : s1.identifiers = s.identifiers := by subst hs1; rfl
        obtain ⟨k1, k2, k3, k4, k5, _, k7, k8⟩ :=
          childLoop_spec s1.i iObj s1 hc1 (by rw [hlog1, hi1]; omega)
        generalize hs2 : childLoop s1.i iObj s1 = s2 at k1 k2 k3 k4 k5 k7 k8
        have hinv3 : Inv archive { s2 with i := s2.i + 1 } := by
          constructor
          · exact ⟨k1.records, k1.idx, k1.uniq, k1.parents⟩
          · show Bfs archive (s2.i + 1) s2.log
            rw [k4, k2, hlog1, hi1]
            exact bfs_step hinv.bfs iObj hi
          · show s2.objects = (visited archive s2.log).drop (s2.i + 1)
            rw [k3, k4, k2, hlog1, hi1, hobj1, visited_append,
              List.drop_append_of_le_length (by rw [length_visited]; omega), hdrop]
          · show s2.i + 1 + ObjectTree.sizeList (s2.objects.map IObject.tree) = archive.size
            rw [k3, k4, hi1, hobj1, List.map_append, sizeList_append]
            have h0 := hinv.size
            rw [hobj] at h0
            simp only [List.map_cons, ObjectTree.sizeList] at h0
            rw [size_eq] at h0
            have h1 : iObj.children.map IObject.tree = iObj.tree.children :=
              map_tree_childrenFrom _ _ _
            rw [h1]
            omega
        have hpoll3 : PollInv isCancelled { s2 with i := s2.i + 1 } := by
          constructor
          · intro _ n hn
            have hn' : n < s.polls + 1 := by
              have : n < s2.polls := hn
              rw [k5, hpolls1] at this
              exact this
            by_cases hn2 : n < s.polls
            · exact hpoll.running hrun n hn2
            · have : n = s.polls := by omega
              rw [this]
              simpa using hcancel
          · intro h
            have : s2.processStopped = true := h
            rw [k7, hstop1, hrun] at this
            exact Bool.noConfusion this
        have hrun3 : ({ s2 with i := s2.i + 1 } : State).processStopped = false := by
          show s2.processStopped = false
          rw [k7, hstop1, hrun]
        have hfuel3 : ObjectTree.sizeList
            (({ s2 with i := s2.i + 1 } : State).objects.map IObject.tree) ≤ fuel := by
          have h3 := hinv3.size
          have h0 := hinv.size
          have h4 : ({ s2 with i := s2.i + 1 } : State).i = s.i + 1 := by
            show s2.i + 1 = s.i + 1
            rw [k4, hi1]
          rw [h4] at h3
          omega
        obtain ⟨s', r1, r2, r3, r4, r5⟩ := ih _ hinv3 hpoll3 hrun3 hfuel3
        refine ⟨s', ?_, r2, r3, r4, ?_⟩
        · simp only [traversalLoop, hobj, hcancel, Bool.false_eq_true, if_false]
          rw [← r1, ← hs2, ← hs1]
        · rw [r5]
          show s2.identifiers = s.identifiers
          rw [k8, hid1]

theorem pollInv_not_stopped {isCancelled : Nat → Bool} {s : State} (hp : PollInv isCancelled s)
    (h : ∀ n, n < s.polls → isCancelled n = false) : s.processStopped = false := by
  cases hs : s.processStopped with
  | false => rfl
  | true =>
    obtain ⟨n, hn, hc⟩ := hp.stopped hs
    rw [h n hn] at hc
    exact Bool.noConfusion hc

theorem traversal_final (isCancelled : Nat → Bool) (fileName : String) (archive : ObjectTree) :
    ∃ s, traversal isCancelled fileName archive = some s ∧ Inv archive s ∧
      PollInv isCancelled s ∧ s.identifiers = [] ∧
      (s.processStopped = false →
        Bfs archive (s.log.length + 1) s.log ∧ s.log.length + 1 = archive.size) := by
  have hp0 : PollInv isCancelled (initialState fileName archive) := by
    constructor
    · intro _ n hn
      simp [initialState] at hn
    · intro h
      simp [initialState] at h
  obtain ⟨s, h1, h2, h3, h4, h5⟩ :=
    traversalLoop_spec isCancelled archive archive.size (initialState fileName archive)
      (inv_init fileName archive) hp0 rfl
      (by simp [initialState, ObjectTree.sizeList, getTop])
  refine ⟨s, h1, h2, h3, by rw [h5]; rfl, ?_⟩
  intro hrun
  have hobj := h4 hrun
  have hq := h2.queue
  rw [hobj] at hq
  have hlen : (visited archive s.log).length ≤ s.i := by
    have := congrArg List.length hq
    simp only [List.length_nil, List.length_drop] at this
    omega
  rw [length_visited] at hlen
  have hi : s.i = s.log.length + 1 := by
    have := h2.bfs.i_le
    omega
  have hsz := h2.size
  rw [hobj] at hsz
  simp only [List.map_nil, ObjectTree.sizeList] at hsz
  constructor
  · rw [← hi]
    exact h2.bfs
  · omega

/-! ## Lemmas: the encoding loop and `doIt` -/

theorem encodeBody_frame (ty : ALEMBIC_TYPE → String) (beg : infoTuple) (s : State) :
    (encodeBody ty beg s).processStopped = s.processStopped ∧
    (encodeBody ty beg s).polls = s.polls ∧
    (encodeBody ty beg s).infoVector = s.infoVector ∧
    (encodeBody ty beg s).log = s.log ∧
    (encodeBody ty beg s).i = s.i ∧
    (encodeBody ty beg s).identifiers = s.identifiers ++ linesOf ty [beg] := by
  unfold encodeBody linesOf
  cases hv : beg.valid <;> simp [hv]

theorem encodingLoop_spec (isCancelled : Nat → Bool) (ty : ALEMBIC_TYPE → String) :
    ∀ (v : List infoTuple) (interrupt : Int) (s : State), PollInv isCancelled s →
      s.processStopped = false →
      PollInv isCancelled (encodingLoop isCancelled ty v interrupt s) ∧
      (encodingLoop isCancelled ty v interrupt s).infoVector = s.infoVector ∧
      (encodingLoop isCancelled ty v interrupt s).log = s.log ∧
      (encodingLoop isCancelled ty v interrupt s).i = s.i ∧
      s.polls ≤ (encodingLoop isCancelled ty v interrupt s).polls ∧
      ((encodingLoop isCancelled ty v interrupt s).processStopped = false →
        (encodingLoop isCancelled ty v interrupt s).identifiers =
          s.identifiers ++ linesOf ty v) := by
  intro v
  induction v with
  | nil =>
    intro interrupt s hp _
    simp [encodingLoop, linesOf, hp]
  | cons beg rest ih =>
    intro interrupt s hp hrun
    obtain ⟨b1, b2, b3, b4, b5, b6⟩ := encodeBody_frame ty beg s
    have hlines : linesOf ty (beg :: rest) = linesOf ty [beg] ++ linesOf ty rest := by
      unfold linesOf
      rw [← List.map_append, ← List.filter_append]
      rfl
    by_cases hint : interrupt = 0
    · by_cases hcancel : isCancelled s.polls = true
      · have heq : encodingLoop isCancelled ty (beg :: rest) interrupt s =
            { s with
              processStopped := true
              polls := s.polls + 1
              calls := s.calls ++ [Call.isCancelled true] } := by
          simp only [encodingLoop, hint, hcancel, if_true]
        rw [heq]
        refine ⟨⟨?_, ?_⟩, rfl, rfl, rfl, Nat.le_succ _, ?_⟩
        · intro h
          simp at h
        · intro _
          exact ⟨s.polls, Nat.lt_succ_self _, hcancel⟩
        · intro h
          simp at h
      · simp only [encodingLoop, hint, hcancel, if_true, Bool.false_eq_true, if_false]
        generalize hs1 : ({ s with
          polls := s.polls + 1
          calls := s.calls ++ [Call.isCancelled false] } : State) = s1
        have hp1 : PollInv isCancelled s1 := by
          subst hs1
          constructor
          · intro _ n hn
            have hn' : n < s.polls + 1 := hn
            by_cases hn2 : n < s.polls
            · exact hp.running hrun n hn2
            · have : n = s.polls := by omega
              rw [this]
              simpa using hcancel
          · intro h
            have : s.processStopped = true := h
            rw [hrun] at this
            exact Bool.noConfusion this
        have hrun1 : s1.processStopped = false := by subst hs1; exact hrun
        have hpolls1 : s1.polls = s.polls + 1 := by subst hs1; rfl
        obtain ⟨c1, c2, c3, c4, c5, c6⟩ := encodeBody_frame ty beg s1
        have hp2 : PollInv isCancelled (encodeBody ty beg s1) :=
          ⟨fun _ n hn => hp1.running hrun1 n (by rw [c2] at hn; exact hn),
            fun h => by rw [c1, hrun1] at h; exact Bool.noConfusion h⟩
        obtain ⟨r1, r2, r3, r4, r5, r6⟩ := ih (20 - 1) (encodeBody ty beg s1) hp2
          (by rw [c1]; exact hrun1)
        refine ⟨r1, ?_, ?_, ?_, ?_, ?_⟩
        · rw [r2, c3, ← hs1]
        · rw [r3, c4, ← hs1]
        · rw [r4, c5, ← hs1]
        · rw [c2, hpolls1] at r5
          exact Nat.le_of_succ_le r5
        · intro h
          rw [r6 h, c6, hlines, ← hs1, List.append_assoc]
    · simp only [encodingLoop, hint, if_false]
      have hp2 : PollInv isCancelled (encodeBody ty beg s) :=
        ⟨fun _ n hn => hp.running hrun n (by rw [b2] at hn; exact hn),
          fun h => by rw [b1, hrun] at h; exact Bool.noConfusion h⟩
      obtain ⟨r1, r2, r3, r4, r5, r6⟩ := ih (interrupt - 1) (encodeBody ty beg s) hp2
        (by rw [b1]; exact hrun)
      refine ⟨r1, ?_, ?_, ?_, ?_, ?_⟩
      · rw [r2, b3]
      · rw [r3, b4]
      · rw [r4, b5]
      · rw [b2] at r5
        exact r5
      · intro h
        rw [r6 h, b6, hlines, List.append_assoc]

theorem filter_valid_recordsFrom (log es : List (Nat × IObject)) (k : Nat) :
    (recordsFrom log k es).filter (fun t => t.valid) = recordsFrom log k es := by
  rw [List.filter_eq_self]
  intro t ht
  obtain ⟨n, hn⟩ := List.mem_iff_getElem?.mp ht
  rw [getElem?_recordsFrom] at hn
  cases he : es[n]? with
  | none => simp [he] at hn
  | some e =>
    simp [he] at hn
    rw [← hn]
    rfl

theorem linesOf_recordsOf (ty : ALEMBIC_TYPE → String) (log : List (Nat × IObject)) :
    linesOf ty (recordsOf log) = (recordsOf log).tail.map (infoTuple.toInfo ty) := by
  unfold linesOf recordsOf
  have h : (rootRecord log).valid = false := rfl
  rw [List.filter_cons_of_neg (by simp [h]), filter_valid_recordsFrom]
  rfl

theorem finish_frame (status : MStatus) (s : State) :
    (finish status s).status = status ∧
    (finish status s).final.processStopped = s.processStopped ∧
    (finish status s).final.polls = s.polls ∧
    (finish status s).final.infoVector = s.infoVector ∧
    (finish status s).final.log = s.log ∧
    (finish status s).final.i = s.i ∧
    (finish status s).result = some (if s.processStopped then [] else s.identifiers) := by
  unfold finish
  cases hs : s.processStopped <;> simp [hs]

theorem encoding_spec (isCancelled : Nat → Bool) (ty : ALEMBIC_TYPE → String)
    (fileName : String) (s : State) (hp : PollInv isCancelled s) (hid : s.identifiers = []) :
    PollInv isCancelled (encoding isCancelled ty fileName s) ∧
    (encoding isCancelled ty fileName s).infoVector = s.infoVector ∧
    (encoding isCancelled ty fileName s).log = s.log ∧
    (encoding isCancelled ty fileName s).i = s.i ∧
    s.polls ≤ (encoding isCancelled ty fileName s).polls ∧
    ((encoding isCancelled ty fileName s).processStopped = false →
      s.processStopped = false ∧
      (encoding isCancelled ty fileName s).identifiers = linesOf ty s.infoVector) := by
  unfold encoding
  by_cases hs : s.processStopped = true
  · rw [if_neg (by simp [hs])]
    refine ⟨hp, rfl, rfl, rfl, Nat.le_refl _, ?_⟩
    intro h
    rw [hs] at h
    exact Bool.noConfusion h
  · have hs : s.processStopped = false := by simpa using hs
    rw [if_pos (by simp [hs])]
    simp only
    generalize hs1 : ({ s with calls := s.calls ++ [Call.delRefArchive fileName] } : State) = s1
    have hp1 : PollInv isCancelled s1 := by
      subst hs1
      exact ⟨hp.running, hp.stopped⟩
    have h1 : s1.processStopped = false := by subst hs1; exact hs
    have h2 : s1.infoVector = s.infoVector := by subst hs1; rfl
    have h3 : s1.log = s.log := by subst hs1; rfl
    have h4 : s1.i = s.i := by subst hs1; rfl
    have h5 : s1.polls = s.polls := by subst hs1; rfl
    have h6 : s1.identifiers = [] := by subst hs1; exact hid
    obtain ⟨r1, r2, r3, r4, r5, r6⟩ :=
      encodingLoop_spec isCancelled ty s.infoVector 20 s1 hp1 h1
    refine ⟨r1, by rw [r2, h2], by rw [r3, h3], by rw [r4, h4], by rw [← h5]; exact r5, ?_⟩
    intro h
    refine ⟨hs, ?_⟩
    rw [r6 h, h6]
    rfl

theorem doIt_available (isCancelled : Nat → Bool) (ty : ALEMBIC_TYPE → String)
    (getArchiveFromID : String → Option ObjectTree) (args : Args) (fileName : String)
    (archive : ObjectTree) (hhelp : args.help = false)
    (hfile : args.fileNameArg = some fileName)
    (harch : getArchiveFromID fileName = some archive) :
    ∃ out, doIt isCancelled ty getArchiveFromID args = some out ∧
      out.status = args.status ∧
      PollInv isCancelled out.final ∧
      out.final.infoVector = recordsOf out.final.log ∧
      (out.final.processStopped = true → out.result = some []) ∧
      (out.final.processStopped = false →
        out.result = some ((recordsOf out.final.log).tail.map (infoTuple.toInfo ty)) ∧
        Bfs archive (out.final.log.length + 1) out.final.log ∧
        out.final.log.length + 1 = archive.size) := by
  obtain ⟨s, t1, t2, t3, t4, t5⟩ := traversal_final isCancelled fileName archive
  obtain ⟨e1, e2, e3, _, _, e6⟩ := encoding_spec isCancelled ty fileName s t3 t4
  obtain ⟨f1, f2, f3, f4, f5, _, f7⟩ :=
    finish_frame args.status (encoding isCancelled ty fileName s)
  refine ⟨finish args.status (encoding isCancelled ty fileName s), ?_, f1, ?_, ?_, ?_, ?_⟩
  · simp only [doIt, hhelp, hfile, harch, t1, Bool.false_eq_true, if_false]
  · exact ⟨fun h n hn => e1.running (by rw [← f2]; exact h) n (by rw [← f3]; exact hn),
      fun h => by
        obtain ⟨n, hn, hc⟩ := e1.stopped (by rw [← f2]; exact h)
        exact ⟨n, by rw [f3]; exact hn, hc⟩⟩
  · rw [f4, f5, e2, e3]
    exact t2.core.records
  · intro h
    rw [f2] at h
    rw [f7, h]
    rfl
  · intro h
    rw [f2] at h
    obtain ⟨h1, h2⟩ := e6 h
    obtain ⟨h3, h4⟩ := t5 h1
    rw [f5, e3]
    refine ⟨?_, h3, h4⟩
    rw [f7, h, h2, t2.core.records, linesOf_recordsOf]
    rfl

theorem doIt_total (isCancelled : Nat → Bool) (ty : ALEMBIC_TYPE → String)
    (getArchiveFromID : String → Option ObjectTree) (args : Args) :
    ∃ out, doIt isCancelled ty getArchiveFromID args = some out ∧
      PollInv isCancelled out.final ∧
      (out.final.processStopped = true → out.result = some []) := by
  have hearly : ∀ (o : Option Outcome) (status : MStatus) (calls : List Call),
      o = some { status := status, result := none, final := earlyState calls } →
      ∃ out, o = some out ∧ PollInv isCancelled out.final ∧
        (out.final.processStopped = true → out.result = some []) := by
    intro o status calls ho
    refine ⟨_, ho, ⟨?_, ?_⟩, ?_⟩
    · intro _ n hn
      simp [earlyState] at hn
    · intro h
      simp [earlyState] at h
    · intro h
      simp [earlyState] at h
  cases hhelp : args.help with
  | true =>
    apply hearly
    · simp only [doIt, hhelp, if_true]
      rfl
  | false =>
    cases hfile : args.fileNameArg with
    | none =>
      apply hearly
      · simp only [doIt, hhelp, hfile, Bool.false_eq_true, if_false]
        rfl
    | some fileName =>
      cases harch : getArchiveFromID fileName with
      | none =>
        apply hearly
        · simp only [doIt, hhelp, hfile, harch, Bool.false_eq_true, if_false]
          rfl
      | some archive =>
        obtain ⟨out, h1, _, h3, _, h5, _⟩ :=
          doIt_available isCancelled ty getArchiveFromID args fileName archive hhelp hfile harch
        exact ⟨out, h1, h3, h5⟩

/-! ## The records and the lines of a call without cancellation, and cancellation -/

/-- C1: with an available archive of `N` objects besides the top object, `doIt` returns,
and if no cancellation poll made during the call answered true, then `infoVector` has
exactly `N + 1` records (indices `0 .. N`), the record at index `k` is valid exactly when
`1 ≤ k`, and the result is a sequence of exactly `N` lines whose `k`-th line
(`k = 1 .. N`) is `toInfo` of the record with index `k` (the root record gives no line). -/
theorem doIt_records_and_lines (isCancelled : Nat → Bool) (ty : ALEMBIC_TYPE → String)
    (getArchiveFromID : String → Option ObjectTree) (args : Args) (fileName : String)
    (archive : ObjectTree) (N : Nat) (hhelp : args.help = false)
    (hfile : args.fileNameArg = some fileName)
    (harch : getArchiveFromID fileName = some archive) (hN : archive.size = N + 1) :
    ∃ out, doIt isCancelled ty getArchiveFromID args = some out ∧
      ((∀ n, n < out.final.polls → isCancelled n = false) →
        out.final.infoVector.length = N + 1 ∧
        (∀ (k : Nat) (r : infoTuple), out.final.infoVector[k]? = some r →
          (r.valid = true ↔ 1 ≤ k)) ∧
        ∃ lines, out.result = some lines ∧ lines.length = N ∧
          ∀ k, 1 ≤ k → k ≤ N →
            lines[k - 1]? = (out.final.infoVector[k]?).map (infoTuple.toInfo ty)) := by
  obtain ⟨out, h1, _, h3, h4, _, h6⟩ :=
    doIt_available isCancelled ty getArchiveFromID args fileName archive hhelp hfile harch
  refine ⟨out, h1, ?_⟩
  intro hpolls
  obtain ⟨h7, _, h9⟩ := h6 (pollInv_not_stopped h3 hpolls)
  have hlen : out.final.log.length = N := by omega
  refine ⟨by rw [h4, length_recordsOf, hlen], ?_, ?_⟩
  · intro k r hr
    rw [h4] at hr
    cases k with
    | zero =>
      rw [getElem?_recordsOf_zero] at hr
      cases hr
      simp [rootRecord]
    | succ k =>
      rw [getElem?_recordsOf_succ] at hr
      cases he : out.final.log[k]? with
      | none => simp [he] at hr
      | some e =>
        simp [he] at hr
        rw [← hr]
        simp [childRecord]
  · refine ⟨_, h7, ?_, ?_⟩
    · simp [length_recordsOf, hlen]
    · intro k hk1 _
      obtain ⟨m, rfl⟩ : ∃ m, k = m + 1 := ⟨k - 1, by omega⟩
      rw [h4]
      simp [recordsOf]

/-- Witness for `doIt_records_and_lines`: the archive of the scenario of the spec (three
objects below the top object) with no poll answering true; the result is the three lines
of `A`, `B` and `C`. -/
theorem doIt_records_and_lines_witness :
    exampleArgs.help = false ∧ exampleArgs.fileNameArg = some "scene.abc" ∧
      scenarioArchive.size = 3 + 1 ∧
      ∃ out, doIt (fun _ => false) exampleTypeName (fun _ => some scenarioArchive)
          exampleArgs = some out ∧
        (∀ n, n < out.final.polls → (fun _ => false) n = false) ∧
        out.result =
          some ["/A|Group|A|1|0|3", "/B|PolyMesh|B|2|0|-1", "/A/C|Xform|C|1|1|-1"] ∧
        out.final.infoVector.length = 3 + 1 ∧
        (∀ (k : Nat) (r : infoTuple), out.final.infoVector[k]? = some r →
          (r.valid = true ↔ 1 ≤ k)) ∧
        ∃ lines, out.result = some lines ∧ lines.length = 3 ∧
          ∀ k, 1 ≤ k → k ≤ 3 →
            lines[k - 1]? =
              (out.final.infoVector[k]?).map (infoTuple.toInfo exampleTypeName) := by
  obtain ⟨out, ho, h⟩ :=
    doIt_records_and_lines (fun _ => false) exampleTypeName (fun _ => some scenarioArchive)
      exampleArgs "scene.abc" scenarioArchive 3 rfl rfl rfl (by decide)
  have ho2 : some _ = some out := ho
  cases ho2
  exact ⟨rfl, rfl, by decide, _, ho, fun _ _ => rfl, by decide, h (fun _ _ => rfl)⟩

/-- C8: `doIt` returns, and if some cancellation poll made during the call (in the
traversal loop or in the encoding loop) answered true, the result it sets is the empty
sequence. -/
theorem doIt_cancelled_result_empty (isCancelled : Nat → Bool) (ty : ALEMBIC_TYPE → String)
    (getArchiveFromID : String → Option ObjectTree) (args : Args) :
    ∃ out, doIt isCancelled ty getArchiveFromID args = some out ∧
      ((∃ n, n < out.final.polls ∧ isCancelled n = true) → out.result = some []) := by
  obtain ⟨out, h1, h2, h3⟩ := doIt_total isCancelled ty getArchiveFromID args
  refine ⟨out, h1, ?_⟩
  rintro ⟨n, hn, hc⟩
  apply h3
  cases hs : out.final.processStopped with
  | true => rfl
  | false =>
    rw [h2.running hs n hn] at hc
    exact Bool.noConfusion hc

set_option maxRecDepth 100000 in
/-- Witness for `doIt_cancelled_result_empty`: on `wideArchive` the 21 polls of the
traversal loop answer false and the first poll of the encoding loop, made before the
record at position 20, answers true; nineteen lines are made before it and the result is
empty. -/
theorem doIt_cancelled_result_empty_witness :
    ∃ out, doIt (fun n => decide (n = 21)) exampleTypeName (fun _ => some wideArchive)
        exampleArgs = some out ∧
      out.final.polls = 22 ∧
      (∃ n, n < out.final.polls ∧ (fun n => decide (n = 21)) n = true) ∧
      out.result = some [] := by
  obtain ⟨out, ho, h⟩ := doIt_cancelled_result_empty (fun n => decide (n = 21))
    exampleTypeName (fun _ => some wideArchive) exampleArgs
  have ho2 : some _ = some out := ho
  cases ho2
  have hex : ∃ n, n < 22 ∧ (fun n => decide (n = 21)) n = true := ⟨21, by decide, rfl⟩
  exact ⟨_, ho, rfl, hex, h hex⟩

/-! ## The format of a line -/

theorem foldl_dot_eq (pre : String) (rest : List Int) (acc : String) :
    rest.foldl (fun s c => s ++ "." ++ toString c) (pre ++ acc) =
      pre ++ String.intercalate.go acc "." (rest.map toString) := by
  induction rest generalizing acc with
  | nil => simp [String.intercalate.go]
  | cons c rest ih =>
    simp only [List.foldl_cons, List.map_cons, String.intercalate.go]
    rw [← ih (acc ++ "." ++ toString c)]
    simp only [String.append_assoc]

/-- C7: `toInfo` returns `identifier|typeName|name|nbSample|parentID|childList` followed
by the metadata tail, where `typeName` is `alembicTypeToString(type)`, `childList` is
`-1` for an empty `childID` and else the child indices joined with `.` in stored order,
and the tail is empty for empty `data` and `|data` otherwise. -/
theorem toInfo_format (ty : ALEMBIC_TYPE → String) (t : infoTuple) :
    t.toInfo ty =
      t.identifier ++ "|" ++ ty t.type ++ "|" ++ t.name ++ "|" ++ toString t.nbSample ++ "|" ++
        toString t.parentID ++ "|" ++ childIndexList t.childID ++ metadataTail t.data := by
  have htail : ∀ body : String,
      (if t.data.length > 0 then body ++ ("|" ++ t.data) else body) =
        body ++ metadataTail t.data := by
    intro body
    unfold metadataTail
    by_cases hd : t.data.length > 0
    · have hne : t.data ≠ "" := by
        intro h
        rw [h] at hd
        simp at hd
      rw [if_pos hd, if_neg hne]
    · have he := string_eq_empty_of_length _ hd
      rw [if_neg hd, if_pos he]
      simp
  unfold infoTuple.toInfo
  simp only
  rw [htail]
  cases hc : t.childID with
  | nil =>
    simp only [childIndexList, if_true, String.append_assoc]
  | cons beg rest =>
    simp only [childIndexList, List.map_cons, String.intercalate, reduceCtorEq, if_false]
    rw [foldl_dot_eq]
    simp only [String.append_assoc]

/-! ## The metadata of meshes and curves -/

theorem record_of_visited (archive : ObjectTree) (log : List (Nat × IObject)) (k : Nat)
    (h : IObject) (r : infoTuple) (hv : (visited archive log)[k + 1]? = some h)
    (hr : (recordsOf log)[k + 1]? = some r) :
    ∃ p, log[k]? = some (p, h) ∧ r = childRecord log k (p, h) := by
  rw [getElem?_visited_succ] at hv
  rw [getElem?_recordsOf_succ] at hr
  cases he : log[k]? with
  | none => simp [he] at hv
  | some e =>
    simp [he] at hv hr
    refine ⟨e.1, ?_, ?_⟩
    · rw [← hv]
    · rw [← hr, ← hv]

theorem traversal_records (isCancelled : Nat → Bool) (fileName : String)
    (archive : ObjectTree) :
    ∃ s, traversal isCancelled fileName archive = some s ∧
      s.infoVector = recordsOf s.log ∧ PollInv isCancelled s ∧
      (s.processStopped = false →
        Bfs archive (s.log.length + 1) s.log ∧ s.log.length + 1 = archive.size) := by
  obtain ⟨s, h1, h2, h3, _, h5⟩ := traversal_final isCancelled fileName archive
  exact ⟨s, h1, h2.core.records, h3, h5⟩

theorem additionalData_mesh (child : IObject)
    (hmesh : child.tree.data.polyMeshMatches = true ∨ child.tree.data.subDMatches = true) :
    additionalData child = String.join (meshTokens child.tree.data) := by
  unfold additionalData meshTokens
  cases h1 : child.tree.data.polyMeshMatches <;> cases h2 : child.tree.data.subDMatches <;>
    cases h3 : child.tree.data.meshTopoDynamic <;>
    cases h4 : child.tree.data.meshPointCache <;>
    simp_all [String.join]

theorem no_separator_between_tokens :
    ¬ ∃ sep : String, sep ≠ "" ∧
      "dynamictopology=1purepointcache=1" =
        String.intercalate sep ["dynamictopology=1", "purepointcache=1"] := by
  rintro ⟨sep, hne, h⟩
  have hlen := congrArg String.length h
  have h33 : "dynamictopology=1purepointcache=1".length = 33 := by decide
  have h17 : "dynamictopology=1".length = 17 := by decide
  have h16 : "purepointcache=1".length = 16 := by decide
  simp only [String.intercalate, String.intercalate.go, String.length_append, h33, h17, h16]
    at hlen
  exact hne (string_eq_empty_of_length sep (by omega))

/-- C9 (counterexample): for the mesh of `meshArchive`, for which both
`isAlembicMeshTopoDynamic` and `isAlembicMeshPointCache` hold, the metadata of the
record is `dynamictopology=1purepointcache=1`: the two tokens are not joined by any
non-empty separator. -/
theorem mesh_tokens_not_separated :
    ∃ s h r, traversal (fun _ => false) "scene.abc" meshArchive = some s ∧
      (visited meshArchive s.log)[1]? = some h ∧ s.infoVector[1]? = some r ∧
      h.tree.data.polyMeshMatches = true ∧ h.tree.data.meshTopoDynamic = true ∧
      h.tree.data.meshPointCache = true ∧
      r.data = "dynamictopology=1purepointcache=1" ∧
      ¬ ∃ sep : String, sep ≠ "" ∧ r.data = String.intercalate sep (meshTokens h.tree.data) := by
  exact ⟨_, _, _, rfl, rfl, rfl, rfl, rfl, rfl, rfl, no_separator_between_tokens⟩

/-- C9 (amended): the traversal returns, and for every record made for a PolyMesh or
SubD object the metadata is the concatenation, with nothing in between, of the tokens of
the flags the predicates report, `dynamictopology=1` first and `purepointcache=1`
second; when both predicates hold it is `dynamictopology=1purepointcache=1`. -/
theorem mesh_metadata_concatenated (isCancelled : Nat → Bool) (fileName : String)
    (archive : ObjectTree) :
    ∃ s, traversal isCancelled fileName archive = some s ∧
      ∀ (k : Nat) (h : IObject) (r : infoTuple), 1 ≤ k →
        (visited archive s.log)[k]? = some h → s.infoVector[k]? = some r →
        (h.tree.data.polyMeshMatches = true ∨ h.tree.data.subDMatches = true) →
        r.data = String.join (meshTokens h.tree.data) ∧
        (h.tree.data.meshTopoDynamic = true → h.tree.data.meshPointCache = true →
          r.data = "dynamictopology=1purepointcache=1") := by
  obtain ⟨s, h1, h2, _, _⟩ := traversal_records isCancelled fileName archive
  refine ⟨s, h1, ?_⟩
  intro k h r hk hv hr hmesh
  obtain ⟨m, rfl⟩ : ∃ m, k = m + 1 := ⟨k - 1, by omega⟩
  rw [h2] at hr
  obtain ⟨p, _, hrec⟩ := record_of_visited archive s.log m h r hv hr
  have hdata : r.data = additionalData h := by rw [hrec]; rfl
  rw [hdata, additionalData_mesh h hmesh]
  refine ⟨rfl, ?_⟩
  intro ht hp
  simp [meshTokens, ht, hp, String.join]

/-- Witness for `mesh_metadata_concatenated`: the mesh of `meshArchive`. -/
theorem mesh_metadata_concatenated_witness :
    ∃ s h r, traversal (fun _ => false) "scene.abc" meshArchive = some s ∧
      (visited meshArchive s.log)[1]? = some h ∧ s.infoVector[1]? = some r ∧
      (h.tree.data.polyMeshMatches = true ∨ h.tree.data.subDMatches = true) ∧
      r.data = String.join (meshTokens h.tree.data) := by
  obtain ⟨s, hs, hall⟩ := mesh_metadata_concatenated (fun _ => false) "scene.abc" meshArchive
  have hs2 : some _ = some s := hs
  cases hs2
  exact ⟨_, _, _, hs, rfl, rfl, Or.inl rfl, (hall 1 _ _ (Nat.le_refl 1) rfl rfl (Or.inl rfl)).1⟩

theorem hairLoop_eq (numCurves : List Nat) (data : String) :
    hairLoop numCurves data =
      if numCurves.any (fun n => n != 1) then data ++ "hair=1" else data := by
  induction numCurves with
  | nil => rfl
  | cons n rest ih =>
    by_cases hn : n = 1
    · simp [hairLoop, hn, ih]
    · simp [hairLoop, hn]

theorem additionalData_curves (child : IObject)
    (hpoly : child.tree.data.polyMeshMatches = false)
    (hsubd : child.tree.data.subDMatches = false)
    (hcurves : child.tree.data.curvesMatches = true)
    (hvalid : child.tree.data.curvesValid = true) :
    additionalData child =
      if child.tree.data.curvesNumCurves.any (fun n => n != 1) then "hair=1" else "" := by
  unfold additionalData
  simp only [hpoly, hsubd, hcurves, hvalid, Bool.false_eq_true, if_false, if_true, hairLoop_eq]
  split <;> simp

theorem no_sample_above_one : ¬ ∃ n ∈ [0], 1 < n := by
  simp

/-- C10 (counterexample): the curves object of `curvesArchive [0]` has a valid wrapper
and one sample, with zero curves; its record is flagged `hair=1` although no sample has
more than one curve. -/
theorem hair_flag_without_sample_above_one :
    ∃ s h r, traversal (fun _ => false) "scene.abc" (curvesArchive [0]) = some s ∧
      (visited (curvesArchive [0]) s.log)[1]? = some h ∧ s.infoVector[1]? = some r ∧
      h.tree.data.polyMeshMatches = false ∧ h.tree.data.subDMatches = false ∧
      h.tree.data.curvesMatches = true ∧ h.tree.data.curvesValid = true ∧
      r.data = "hair=1" ∧ ¬ ∃ n ∈ h.tree.data.curvesNumCurves, 1 < n :=
  ⟨_, _, _, rfl, rfl, rfl, rfl, rfl, rfl, rfl, rfl, no_sample_above_one⟩

/-- C10 (amended): the traversal returns, and for every record made for a Curves object
(only `ICurves::matches` holds) whose `ICurves` wrapper is valid, the metadata is either
empty or `hair=1`, and it is `hair=1` if and only if at least one of the time samples has
a number of curves different from one. -/
theorem curves_hair_flag (isCancelled : Nat → Bool) (fileName : String)
    (archive : ObjectTree) :
    ∃ s, traversal isCancelled fileName archive = some s ∧
      ∀ (k : Nat) (h : IObject) (r : infoTuple), 1 ≤ k →
        (visited archive s.log)[k]? = some h → s.infoVector[k]? = some r →
        h.tree.data.polyMeshMatches = false → h.tree.data.subDMatches = false →
        h.tree.data.curvesMatches = true → h.tree.data.curvesValid = true →
        (r.data = "" ∨ r.data = "hair=1") ∧
        (r.data = "hair=1" ↔ ∃ n ∈ h.tree.data.curvesNumCurves, n ≠ 1) := by
  obtain ⟨s, h1, h2, _, _⟩ := traversal_records isCancelled fileName archive
  refine ⟨s, h1, ?_⟩
  intro k h r hk hv hr hpoly hsubd hcurves hvalid
  obtain ⟨m, rfl⟩ : ∃ m, k = m + 1 := ⟨k - 1, by omega⟩
  rw [h2] at hr
  obtain ⟨p, _, hrec⟩ := record_of_visited archive s.log m h r hv hr
  have hdata : r.data = additionalData h := by rw [hrec]; rfl
  rw [hdata, additionalData_curves h hpoly hsubd hcurves hvalid]
  by_cases hany : h.tree.data.curvesNumCurves.any (fun n => n != 1) = true
  · rw [if_pos hany]
    refine ⟨Or.inr rfl, fun _ => ?_, fun _ => rfl⟩
    simpa using hany
  · rw [if_neg hany]
    refine ⟨Or.inl rfl, fun h0 => ?_, fun hex => ?_⟩
    · exact absurd h0 (by decide)
    · exfalso
      apply hany
      simpa using hex

/-- Witness for `curves_hair_flag`: the curves object of `curvesArchive [1, 3]`, whose
second sample has three curves. -/
theorem curves_hair_flag_witness :
    ∃ s h r, traversal (fun _ => false) "scene.abc" (curvesArchive [1, 3]) = some s ∧
      (visited (curvesArchive [1, 3]) s.log)[1]? = some h ∧ s.infoVector[1]? = some r ∧
      h.tree.data.polyMeshMatches = false ∧ h.tree.data.subDMatches = false ∧
      h.tree.data.curvesMatches = true ∧ h.tree.data.curvesValid = true ∧
      (r.data = "hair=1" ↔ ∃ n ∈ h.tree.data.curvesNumCurves, n ≠ 1) := by
  obtain ⟨s, hs, hall⟩ := curves_hair_flag (fun _ => false) "scene.abc" (curvesArchive [1, 3])
  have hs2 : some _ = some s := hs
  cases hs2
  exact ⟨_, _, _, hs, rfl, rfl, rfl, rfl, rfl, rfl,
    (hall 1 _ _ (Nat.le_refl 1) rfl rfl rfl rfl rfl rfl).2⟩

/-! ## Parent and child indices, level order -/

theorem bfs_children_mem {archive : ObjectTree} {i : Nat} {log : List (Nat × IObject)}
    (hb : Bfs archive i log) (k : Nat) (h : IObject) (hk : k < i)
    (hv : (visited archive log)[k]? = some h) (c : IObject) :
    c ∈ h.children ↔ (k, c) ∈ log := by
  rw [← hb.batch k h hk hv]
  simp only [List.mem_map, List.mem_filter, decide_eq_true_eq]
  constructor
  · rintro ⟨e, ⟨he, hek⟩, hec⟩
    have : e = (k, c) := by
      cases e
      simp at hek hec
      rw [hek, hec]
    rw [← this]
    exact he
  · intro he
    exact ⟨(k, c), ⟨he, rfl⟩, rfl⟩

theorem visited_of_mem_log (archive : ObjectTree) (log : List (Nat × IObject))
    (e : Nat × IObject) (he : e ∈ log) :
    ∃ m, log[m]? = some e ∧ (visited archive log)[m + 1]? = some e.2 := by
  obtain ⟨m, hm⟩ := List.mem_iff_getElem?.mp he
  refine ⟨m, hm, ?_⟩
  rw [getElem?_visited_succ, hm]
  rfl

theorem nodeAt_snoc_some (t c : ObjectTree) (q : List Nat) (j : Nat)
    (h : t.nodeAt (q ++ [j]) = some c) :
    ∃ u, t.nodeAt q = some u ∧ u.children[j]? = some c := by
  cases hu : t.nodeAt q with
  | none =>
    rw [nodeAt_append, hu] at h
    simp at h
  | some u =>
    rw [nodeAt_snoc t u q j hu] at h
    exact ⟨u, rfl, h⟩

theorem bfs_covers {archive : ObjectTree} {log : List (Nat × IObject)}
    (hb : Bfs archive (log.length + 1) log) (q : List Nat) :
    ∀ t, archive.nodeAt q = some t →
      ∃ (k : Nat) (h : IObject),
        (visited archive log)[k]? = some h ∧ h.path = q ∧ h.tree = t := by
  induction q using List.reverseRecOn with
  | nil =>
    intro t ht
    have h0 : (visited archive log)[0]? = some (getTop archive) := by simp [visited]
    refine ⟨0, getTop archive, h0, rfl, ?_⟩
    simp [ObjectTree.nodeAt] at ht
    rw [← ht]
    rfl
  | append_singleton q j ih =>
    intro t ht
    obtain ⟨u, hu, huj⟩ := nodeAt_snoc_some archive t q j ht
    obtain ⟨k, h, hv, hpath, htree⟩ := ih u hu
    have hk : k < log.length + 1 := by
      have := getElem?_lt_length _ _ _ hv
      rwa [length_visited] at this
    have hchild : h.getChild j = some { path := q ++ [j], tree := t } := by
      unfold IObject.getChild
      rw [htree, huj, hpath]
    have hmem : ({ path := q ++ [j], tree := t } : IObject) ∈ h.children :=
      (mem_children_iff h _).mpr ⟨j, hchild⟩
    rw [bfs_children_mem hb k h hk hv] at hmem
    obtain ⟨m, _, hm⟩ := visited_of_mem_log archive log _ hmem
    exact ⟨m + 1, _, hm, rfl, rfl⟩

theorem getElem?_visited_zero (archive : ObjectTree) (log : List (Nat × IObject)) :
    (visited archive log)[0]? = some (getTop archive) := by
  simp [visited]

theorem uncancelled_final {isCancelled : Nat → Bool} {fileName : String}
    {archive : ObjectTree} :
    ∃ s, traversal isCancelled fileName archive = some s ∧
      s.infoVector = recordsOf s.log ∧
      ((∀ n, n < s.polls → isCancelled n = false) →
        Bfs archive (s.log.length + 1) s.log ∧ s.log.length + 1 = archive.size) := by
  obtain ⟨s, h1, h2, h3, h4⟩ := traversal_records isCancelled fileName archive
  exact ⟨s, h1, h2, fun hp => h4 (pollInv_not_stopped h3 hp)⟩

/-- C2: the traversal returns, and if it was not cancelled then for every object `c`
below the top object, reached from its parent `p` (at the path `q`) as child number `j`:
`p` and `c` each have a record, the index `kp` of the record of `p` is the only index of
a visited handle with the path `q` (it is 0 when `p` is the top object), and the
`parentID` stored in the record of `c` is `kp`.  Moreover in every iteration of the
inner loop the counter `i` written into `parentID` is the index of the handle of the
dequeued object, of which the processed handle is a child. -/
theorem parentID_is_parent_index (isCancelled : Nat → Bool) (fileName : String)
    (archive : ObjectTree) :
    ∃ s, traversal isCancelled fileName archive = some s ∧
      ((∀ n, n < s.polls → isCancelled n = false) →
        (∀ (q : List Nat) (j : Nat) (c : ObjectTree), archive.nodeAt (q ++ [j]) = some c →
          ∃ (kp kc : Nat) (hp hc : IObject) (r : infoTuple),
            (visited archive s.log)[kp]? = some hp ∧ hp.path = q ∧
            (∀ (k : Nat) (h : IObject),
              (visited archive s.log)[k]? = some h → h.path = q → k = kp) ∧
            (visited archive s.log)[kc]? = some hc ∧ hc.path = q ++ [j] ∧ hc.tree = c ∧
            s.infoVector[kc]? = some r ∧ r.parentID = (kp : Int) ∧ (q = [] → kp = 0)) ∧
        (∀ (m i : Nat) (child : IObject), s.log[m]? = some (i, child) →
          ∃ (iObj : IObject) (j : Nat) (r : infoTuple),
            (visited archive s.log)[i]? = some iObj ∧ iObj.getChild j = some child ∧
            s.infoVector[m + 1]? = some r ∧ r.parentID = (i : Int))) := by
  obtain ⟨s, h1, h2, h3⟩ := @uncancelled_final isCancelled fileName archive
  refine ⟨s, h1, ?_⟩
  intro hpolls
  obtain ⟨hb, _⟩ := h3 hpolls
  have hsecond : ∀ (m i : Nat) (child : IObject), s.log[m]? = some (i, child) →
      ∃ (iObj : IObject) (j : Nat) (r : infoTuple),
        (visited archive s.log)[i]? = some iObj ∧ iObj.getChild j = some child ∧
        s.infoVector[m + 1]? = some r ∧ r.parentID = (i : Int) := by
    intro m i child hm
    obtain ⟨iObj, j, hi, hj⟩ := bfs_sound hb m (i, child) hm
    refine ⟨iObj, j, childRecord s.log m (i, child), hi, hj, ?_, rfl⟩
    rw [h2, getElem?_recordsOf_succ, hm]
    rfl
  refine ⟨?_, hsecond⟩
  intro q j c hc
  obtain ⟨kc, hcH, hv, hpath, htree⟩ := bfs_covers hb (q ++ [j]) c hc
  cases kc with
  | zero =>
    rw [getElem?_visited_zero] at hv
    cases hv
    simp [getTop] at hpath
  | succ m =>
    have hv' := hv
    rw [getElem?_visited_succ] at hv'
    cases hm : s.log[m]? with
    | none => simp [hm] at hv'
    | some e =>
      simp [hm] at hv'
      obtain ⟨iObj, j', r, hi, hj, hr, hpar⟩ := hsecond m e.1 e.2 hm
      have hp2 := getChild_path iObj e.2 j' hj
      rw [hv', hpath] at hp2
      have hq : q = iObj.path := (List.append_inj' hp2 rfl).1
      refine ⟨e.1, m + 1, iObj, hcH, r, hi, hq.symm, ?_, hv, hpath, htree, hr, hpar, ?_⟩
      · intro k h hk hkq
        exact hb.inj k e.1 h iObj hk hi (by rw [hkq, hq])
      · intro hnil
        exact (hb.inj 0 e.1 (getTop archive) iObj (getElem?_visited_zero _ _) hi
          (by rw [← hq, hnil]; rfl)).symm

/-- Witness for `parentID_is_parent_index`: in the archive of the scenario of the spec
the object `C` is child number 0 of `A`, which is child number 0 of the top object; the
record of `A` has the index 1, the record of `C` the index 3 and the `parentID` 1. -/
theorem parentID_is_parent_index_witness :
    ∃ s, traversal (fun _ => false) "scene.abc" scenarioArchive = some s ∧
      (∀ n, n < s.polls → (fun _ => false) n = false) ∧
      (∃ c, scenarioArchive.nodeAt ([0] ++ [0]) = some c) ∧
      (∃ hp hc r, (visited scenarioArchive s.log)[1]? = some hp ∧ hp.path = [0] ∧
        (visited scenarioArchive s.log)[3]? = some hc ∧ hc.path = [0] ++ [0] ∧
        s.infoVector[3]? = some r ∧ r.parentID = 1) ∧
      ∀ (q : List Nat) (j : Nat) (c : ObjectTree),
        scenarioArchive.nodeAt (q ++ [j]) = some c →
        ∃ (kp kc : Nat) (hp hc : IObject) (r : infoTuple),
          (visited scenarioArchive s.log)[kp]? = some hp ∧ hp.path = q ∧
          (∀ (k : Nat) (h : IObject),
            (visited scenarioArchive s.log)[k]? = some h → h.path = q → k = kp) ∧
          (visited scenarioArchive s.log)[kc]? = some hc ∧ hc.path = q ++ [j] ∧ hc.tree = c ∧
          s.infoVector[kc]? = some r ∧ r.parentID = (kp : Int) ∧ (q = [] → kp = 0) := by
  obtain ⟨s, hs, hall⟩ := parentID_is_parent_index (fun _ => false) "scene.abc" scenarioArchive
  have hs2 : some _ = some s := hs
  cases hs2
  exact ⟨_, hs, fun _ _ => rfl, ⟨_, rfl⟩, ⟨_, _, _, rfl, rfl, rfl, rfl, rfl, rfl⟩,
    (hall (fun _ _ => rfl)).1⟩

theorem childID_recordsOf (log : List (Nat × IObject)) (k : Nat) (r : infoTuple)
    (hr : (recordsOf log)[k]? = some r) : r.childID = kidsFrom k 1 log := by
  cases k with
  | zero =>
    rw [getElem?_recordsOf_zero] at hr
    cases hr
    rfl
  | succ m =>
    rw [getElem?_recordsOf_succ] at hr
    cases he : log[m]? with
    | none => simp [he] at hr
    | some e =>
      simp [he] at hr
      rw [← hr]
      rfl

theorem le_of_mem_kidsFrom (r : Nat) (log : List (Nat × IObject)) (n : Nat) (c : Int)
    (hc : c ∈ kidsFrom r n log) : (n : Int) ≤ c := by
  induction log generalizing n with
  | nil => simp [kidsFrom] at hc
  | cons e es ih =>
    simp only [kidsFrom] at hc
    split at hc
    · rcases List.mem_cons.mp hc with h | h
      · omega
      · have := ih (n + 1) h
        omega
    · have := ih (n + 1) hc
      omega

theorem pairwise_kidsFrom (r : Nat) (log : List (Nat × IObject)) (n : Nat) :
    (kidsFrom r n log).Pairwise (fun a b => a < b) := by
  induction log generalizing n with
  | nil => simp [kidsFrom]
  | cons e es ih =>
    simp only [kidsFrom]
    split
    · rw [List.pairwise_cons]
      refine ⟨?_, ih (n + 1)⟩
      intro c hc
      have := le_of_mem_kidsFrom r es (n + 1) c hc
      omega
    · exact ih (n + 1)

theorem map_kidsFrom (r : Nat) (log : List (Nat × IObject)) (n : Nat)
    (g : Int → Option IObject)
    (hg : ∀ p : Nat, g ((n + p : Nat) : Int) = (log[p]?).map Prod.snd) :
    (kidsFrom r n log).map g =
      ((log.filter (fun e => decide (e.1 = r))).map Prod.snd).map some := by
  induction log generalizing n with
  | nil => simp [kidsFrom]
  | cons e es ih =>
    have h0 : g (n : Int) = some e.2 := by
      have := hg 0
      simpa using this
    have htail : ∀ p : Nat, g ((n + 1 + p : Nat) : Int) = (es[p]?).map Prod.snd := by
      intro p
      have := hg (p + 1)
      rw [List.getElem?_cons_succ] at this
      rw [← this]
      congr 2
      omega
    by_cases he : e.1 = r
    · simp only [kidsFrom, if_pos he, List.map_cons, h0, ih (n + 1) htail]
      rw [List.filter_cons_of_pos (by simp [he])]
      rfl
    · simp only [kidsFrom, if_neg he, ih (n + 1) htail]
      rw [List.filter_cons_of_neg (by simp [he])]

theorem map_getChild_range (o : IObject) :
    (List.range o.getNumChildren).map o.getChild = o.children.map some := by
  apply List.ext_getElem?
  intro j
  rw [List.getElem?_map, List.getElem?_map, getElem?_children]
  by_cases hj : j < o.getNumChildren
  · rw [List.getElem?_range hj]
    have hlt : j < o.children.length := by rw [length_children]; exact hj
    have : o.getChild j = some o.children[j] := by
      rw [← getElem?_children, List.getElem?_eq_getElem hlt]
    simp [this]
  · have h1 : (List.range o.getNumChildren)[j]? = none := by
      apply List.getElem?_eq_none
      simp
      omega
    have h2 : o.getChild j = none := by
      rw [← getElem?_children]
      apply List.getElem?_eq_none
      rw [length_children]
      omega
    rw [h1, h2]
    rfl

/-- C4: the traversal returns, and if it was not cancelled then the records are those of
the objects of the archive in level order: there is one record per visited handle and
each handle is an object of the archive; every object reachable from the top object has
exactly one handle (so one record); for indices `a < b` the depth (length of the path) of
the object of `a` is at most that of the object of `b`; and the indices in the `childID`
of a record increase and are those of the handles `getChild(0)`, `getChild(1)`, ... of
its object, in this order. -/
theorem traversal_level_order (isCancelled : Nat → Bool) (fileName : String)
    (archive : ObjectTree) :
    ∃ s, traversal isCancelled fileName archive = some s ∧
      ((∀ n, n < s.polls → isCancelled n = false) →
        s.infoVector.length = (visited archive s.log).length ∧
        (∀ (k : Nat) (h : IObject), (visited archive s.log)[k]? = some h →
          archive.nodeAt h.path = some h.tree) ∧
        (∀ (q : List Nat) (t : ObjectTree), archive.nodeAt q = some t →
          ∃ (k : Nat) (h : IObject),
            (visited archive s.log)[k]? = some h ∧ h.path = q ∧ h.tree = t ∧
            ∀ (k' : Nat) (h' : IObject),
              (visited archive s.log)[k']? = some h' → h'.path = q → k' = k) ∧
        (∀ (a b : Nat) (ha hb : IObject), a < b →
          (visited archive s.log)[a]? = some ha → (visited archive s.log)[b]? = some hb →
          ha.path.length ≤ hb.path.length) ∧
        (∀ (k : Nat) (h : IObject) (r : infoTuple),
          (visited archive s.log)[k]? = some h → s.infoVector[k]? = some r →
          r.childID.Pairwise (fun a b => a < b) ∧
          r.childID.map (fun c => (visited archive s.log)[c.toNat]?) =
            (List.range h.getNumChildren).map h.getChild)) := by
  obtain ⟨s, h1, h2, h3⟩ := @uncancelled_final isCancelled fileName archive
  refine ⟨s, h1, ?_⟩
  intro hpolls
  obtain ⟨hb, _⟩ := h3 hpolls
  refine ⟨?_, ?_, ?_, ?_, ?_⟩
  · rw [h2, length_recordsOf, length_visited]
  · intro k h hv
    exact hb.genuine h (List.getElem?_mem hv)
  · intro q t ht
    obtain ⟨k, h, hv, hp, htree⟩ := bfs_covers hb q t ht
    refine ⟨k, h, hv, hp, htree, ?_⟩
    intro k' h' hv' hp'
    exact hb.inj k' k h' h hv' hv (by rw [hp', hp])
  · intro a b ha hb' hab hva hvb
    exact hb.depthSorted a b ha hb' (by omega) hva hvb
  · intro k h r hv hr
    rw [h2] at hr
    have hk : k < s.log.length + 1 := by
      have := getElem?_lt_length _ _ _ hv
      rwa [length_visited] at this
    rw [childID_recordsOf s.log k r hr]
    refine ⟨pairwise_kidsFrom k s.log 1, ?_⟩
    rw [map_kidsFrom k s.log 1 _ (by
      intro p
      have : (((1 + p : Nat) : Int)).toNat = p + 1 := by omega
      simp only [this, getElem?_visited_succ])]
    rw [hb.batch k h hk hv, map_getChild_range]

/-- Witness for `traversal_level_order`: the archive of the scenario of the spec,
traversed without cancellation; its objects are visited in the order top, `A`, `B`,
`C`. -/
theorem traversal_level_order_witness :
    ∃ s, traversal (fun _ => false) "scene.abc" scenarioArchive = some s ∧
      (∀ n, n < s.polls → (fun _ => false) n = false) ∧
      (visited scenarioArchive s.log).map IObject.path = [[], [0], [1], [0, 0]] ∧
      s.infoVector.map (fun r => r.childID) = [[1, 2], [3], [], []] ∧
      ∀ (k : Nat) (h : IObject) (r : infoTuple),
        (visited scenarioArchive s.log)[k]? = some h → s.infoVector[k]? = some r →
        r.childID.Pairwise (fun a b => a < b) ∧
        r.childID.map (fun c => (visited scenarioArchive s.log)[c.toNat]?) =
          (List.range h.getNumChildren).map h.getChild := by
  obtain ⟨s, hs, hall⟩ := traversal_level_order (fun _ => false) "scene.abc" scenarioArchive
  have hs2 : some _ = some s := hs
  cases hs2
  exact ⟨_, hs, fun _ _ => rfl, rfl, rfl, (hall (fun _ _ => rfl)).2.2.2.2⟩

theorem kidsFrom_eq_filter_range (r : Nat) (log : List (Nat × IObject)) (n : Nat) :
    kidsFrom r n log =
      ((List.range log.length).filter
        (fun j => decide ((log[j]?).map Prod.fst = some r))).map
        (fun (j : Nat) => ((n + j : Nat) : Int)) := by
  induction log generalizing n with
  | nil => simp [kidsFrom]
  | cons e es ih =>
    rw [List.length_cons, List.range_succ_eq_map, List.filter_cons, List.filter_map]
    have hcomp : (List.range es.length).filter
        ((fun j => decide (((e :: es)[j]?).map Prod.fst = some r)) ∘ Nat.succ) =
        (List.range es.length).filter (fun j => decide ((es[j]?).map Prod.fst = some r)) := by
      apply List.filter_congr
      intro j _
      simp
    have hmap : ∀ l : List Nat, l.map ((fun (j : Nat) => ((n + j : Nat) : Int)) ∘ Nat.succ) =
        l.map (fun j => ((n + 1 + j : Nat) : Int)) := by
      intro l
      apply List.map_congr_left
      intro j _
      simp only [Function.comp, Nat.succ_eq_add_one]
      congr 1
      omega
    rw [hcomp]
    by_cases he : e.1 = r
    · have hd : decide (((e :: es)[0]?).map Prod.fst = some r) = true := by
        simp [he]
      rw [hd]
      simp only [kidsFrom, if_pos he, if_true, List.map_cons, Nat.add_zero, ih (n + 1)]
      rw [List.map_map, hmap]
    · have hd : decide (((e :: es)[0]?).map Prod.fst = some r) = false := by
        simp [he]
      rw [hd]
      simp only [kidsFrom, if_neg he, Bool.false_eq_true, if_false, ih (n + 1)]
      rw [List.map_map, hmap]

theorem length_kidsFrom (r : Nat) (log : List (Nat × IObject)) (n : Nat) :
    (kidsFrom r n log).length = (log.filter (fun e => decide (e.1 = r))).length := by
  induction log generalizing n with
  | nil => rfl
  | cons e es ih =>
    by_cases he : e.1 = r
    · simp [kidsFrom, he, ih (n + 1)]
    · simp [kidsFrom, he, ih (n + 1)]

theorem parentID_recordsOf (log : List (Nat × IObject)) (k j : Nat) :
    decide (((recordsOf log)[j + 1]?).map (fun t => t.parentID) = some (k : Int)) =
      decide ((log[j]?).map Prod.fst = some k) := by
  rw [getElem?_recordsOf_succ]
  cases log[j]? with
  | none => simp
  | some e => simp [childRecord]

theorem kidsFrom_eq_filter_records (log : List (Nat × IObject)) (k : Nat) :
    kidsFrom k 1 log =
      ((List.range (recordsOf log).length).filter
        (fun j => decide (((recordsOf log)[j]?).map (fun t => t.parentID) = some (k : Int)))).map
        (fun (j : Nat) => (j : Int)) := by
  rw [length_recordsOf, List.range_succ_eq_map, List.filter_cons, List.filter_map]
  have h0 : decide (((recordsOf log)[0]?).map (fun t => t.parentID) = some (k : Int)) =
      false := by
    rw [getElem?_recordsOf_zero]
    simp [rootRecord]
  have hcomp : (List.range log.length).filter
      ((fun j => decide (((recordsOf log)[j]?).map (fun t => t.parentID) = some (k : Int))) ∘
        Nat.succ) =
      (List.range log.length).filter (fun j => decide ((log[j]?).map Prod.fst = some k)) := by
    apply List.filter_congr
    intro j _
    exact parentID_recordsOf log k j
  rw [h0, hcomp, kidsFrom_eq_filter_range]
  simp only [Bool.false_eq_true, if_false, List.map_map]
  apply List.map_congr_left
  intro j _
  simp only [Function.comp, Nat.succ_eq_add_one]
  congr 1
  omega

/-- C3: the traversal returns, and if it was not cancelled then for every record `r`
(the root record included), at index `k`: `r.childID` is the list of all indices `j`
whose record has `parentID` equal to `k`, in increasing order (so without duplicates);
it has as many entries as the object of the record has children, and so it is empty if
and only if the object is a leaf. -/
theorem childID_lists_children (isCancelled : Nat → Bool) (fileName : String)
    (archive : ObjectTree) :
    ∃ s, traversal isCancelled fileName archive = some s ∧
      ((∀ n, n < s.polls → isCancelled n = false) →
        ∀ (k : Nat) (h : IObject) (r : infoTuple),
          (visited archive s.log)[k]? = some h → s.infoVector[k]? = some r →
          r.childID =
            ((List.range s.infoVector.length).filter
              (fun j => decide ((s.infoVector[j]?).map (fun t => t.parentID) =
                some (k : Int)))).map (fun (j : Nat) => (j : Int)) ∧
          r.childID.Pairwise (fun a b => a < b) ∧
          r.childID.length = h.getNumChildren ∧
          (r.childID = [] ↔ h.getNumChildren = 0)) := by
  obtain ⟨s, h1, h2, h3⟩ := @uncancelled_final isCancelled fileName archive
  refine ⟨s, h1, ?_⟩
  intro hpolls k h r hv hr
  obtain ⟨hb, _⟩ := h3 hpolls
  have hk : k < s.log.length + 1 := by
    have := getElem?_lt_length _ _ _ hv
    rwa [length_visited] at this
  have hlen : r.childID.length = h.getNumChildren := by
    rw [h2] at hr
    rw [childID_recordsOf s.log k r hr, length_kidsFrom, ← length_children,
      ← hb.batch k h hk hv, List.length_map]
  refine ⟨?_, ?_, hlen, ?_⟩
  · rw [h2] at hr ⊢
    rw [childID_recordsOf s.log k r hr]
    exact kidsFrom_eq_filter_records s.log k
  · rw [h2] at hr
    rw [childID_recordsOf s.log k r hr]
    exact pairwise_kidsFrom k s.log 1
  · rw [← hlen]
    exact List.length_eq_zero.symm

/-- Witness for `childID_lists_children`: the archive of the scenario of the spec,
traversed without cancellation; the records of the top object and of `A` list their
children, `B` and `C` are leaves. -/
theorem childID_lists_children_witness :
    ∃ s, traversal (fun _ => false) "scene.abc" scenarioArchive = some s ∧
      (∀ n, n < s.polls → (fun _ => false) n = false) ∧
      s.infoVector.map (fun r => r.childID) = [[1, 2], [3], [], []] ∧
      s.infoVector.map (fun r => r.parentID) = [-1, 0, 0, 1] ∧
      ∀ (k : Nat) (h : IObject) (r : infoTuple),
        (visited scenarioArchive s.log)[k]? = some h → s.infoVector[k]? = some r →
        r.childID =
          ((List.range s.infoVector.length).filter
            (fun j => decide ((s.infoVector[j]?).map (fun t => t.parentID) =
              some (k : Int)))).map (fun (j : Nat) => (j : Int)) ∧
        r.childID.Pairwise (fun a b => a < b) ∧
        r.childID.length = h.getNumChildren ∧
        (r.childID = [] ↔ h.getNumChildren = 0) := by
  obtain ⟨s, hs, hall⟩ := childID_lists_children (fun _ => false) "scene.abc" scenarioArchive
  have hs2 : some _ = some s := hs
  cases hs2
  exact ⟨_, hs, fun _ _ => rfl, rfl, rfl, hall (fun _ _ => rfl)⟩

/-! ## Identifiers -/

theorem hasXformChild_iff {archive : ObjectTree} {log : List (Nat × IObject)}
    (hb : Bfs archive (log.length + 1) log) (k : Nat) (h : IObject)
    (hv : (visited archive log)[k]? = some h) :
    hasXformChild k log = true ↔ hasXformChildObject h := by
  have hk : k < log.length + 1 := by
    have := getElem?_lt_length _ _ _ hv
    rwa [length_visited] at this
  unfold hasXformChild hasXformChildObject
  rw [List.any_eq_true]
  constructor
  · rintro ⟨e, he, hp⟩
    simp only [Bool.and_eq_true, decide_eq_true_eq] at hp
    have hmem : (k, e.2) ∈ log := by
      rw [← hp.1]
      exact he
    rw [← bfs_children_mem hb k h hk hv, mem_children_iff] at hmem
    obtain ⟨j, hj⟩ := hmem
    exact ⟨j, e.2, hj, hp.2⟩
  · rintro ⟨j, c, hj, hc⟩
    have hmem : c ∈ h.children := (mem_children_iff h c).mpr ⟨j, hj⟩
    rw [bfs_children_mem hb k h hk hv] at hmem
    exact ⟨(k, c), hmem, by simp [hc]⟩

/-- C6: the traversal returns, and if it was not cancelled then for every object below
the top object whose source classification is `AT_Xform`, the type in its record is
`AT_Group` if at least one of its direct children has the source classification
`AT_Xform`, and stays `AT_Xform` if none has. -/
theorem xform_promoted_iff_xform_child (isCancelled : Nat → Bool) (fileName : String)
    (archive : ObjectTree) :
    ∃ s, traversal isCancelled fileName archive = some s ∧
      ((∀ n, n < s.polls → isCancelled n = false) →
        ∀ (k : Nat) (h : IObject) (r : infoTuple), 1 ≤ k →
          (visited archive s.log)[k]? = some h → s.infoVector[k]? = some r →
          getAlembicTypeFromObject h = AT_Xform →
          (hasXformChildObject h → r.type = AT_Group) ∧
          (¬ hasXformChildObject h → r.type = AT_Xform)) := by
  obtain ⟨s, h1, h2, h3⟩ := @uncancelled_final isCancelled fileName archive
  refine ⟨s, h1, ?_⟩
  intro hpolls k h r hk hv hr hx
  obtain ⟨hb, _⟩ := h3 hpolls
  obtain ⟨m, rfl⟩ : ∃ m, k = m + 1 := ⟨k - 1, by omega⟩
  rw [h2] at hr
  obtain ⟨p, _, hrec⟩ := record_of_visited archive s.log m h r hv hr
  have htype : r.type =
      if getAlembicTypeFromObject h = AT_Xform ∧ hasXformChild (m + 1) s.log = true then
        AT_Group
      else getAlembicTypeFromObject h := by
    rw [hrec]
    rfl
  have hiff := hasXformChild_iff hb (m + 1) h hv
  constructor
  · intro hc
    rw [htype, if_pos ⟨hx, hiff.mpr hc⟩]
  · intro hc
    rw [htype, if_neg (fun hand => hc (hiff.mp hand.2)), hx]

/-- Witness for `xform_promoted_iff_xform_child`: in the archive of the scenario of the
spec `A` (Xform) has the Xform child `C` and its record has the type `AT_Group`; `C` has
no child and its record keeps the type `AT_Xform`. -/
theorem xform_promoted_iff_xform_child_witness :
    ∃ s, traversal (fun _ => false) "scene.abc" scenarioArchive = some s ∧
      (∀ n, n < s.polls → (fun _ => false) n = false) ∧
      s.infoVector.map (fun r => r.type) = [AT_UNKNOWN, AT_Group, AT_PolyMesh, AT_Xform] ∧
      ∃ rA, (visited scenarioArchive s.log)[1]? = some scenarioHandleA ∧
        s.infoVector[1]? = some rA ∧
        getAlembicTypeFromObject scenarioHandleA = AT_Xform ∧
        hasXformChildObject scenarioHandleA ∧ rA.type = AT_Group := by
  obtain ⟨s, hs, hall⟩ :=
    xform_promoted_iff_xform_child (fun _ => false) "scene.abc" scenarioArchive
  have hs2 : some _ = some s := hs
  cases hs2
  have hchild : hasXformChildObject scenarioHandleA := ⟨0, _, rfl, rfl⟩
  exact ⟨_, hs, fun _ _ => rfl, rfl, _, rfl, rfl, rfl, hchild,
    (hall (fun _ _ => rfl) 1 scenarioHandleA _ (Nat.le_refl 1) rfl rfl rfl).1 hchild⟩

/-! ## Lemmas: a step of the inner loop and the existing records -/

theorem getElem?_modifyBack_of_lt (f : infoTuple → infoTuple) (v : List infoTuple) (k : Nat)
    (hk : k + 1 < v.length) : (modifyBack f v)[k]? = v[k]? := by
  unfold modifyBack
  rw [List.getElem?_modify_ne]
  omega

theorem processChild_getElem?_old (i : Nat) (child : IObject) (s : State) (k : Nat)
    (t : infoTuple) (ht : s.infoVector[k]? = some t) :
    (processChild i child s).infoVector[k]? =
      some (if i = k then parentUpdate (getAlembicTypeFromObject child) (s.idx + 1) t
        else t) := by
  have hk : k < s.infoVector.length := getElem?_lt_length _ _ _ ht
  unfold processChild
  simp only
  rw [getElem?_modifyBack_of_lt _ _ _ (by
    rw [List.length_modify]
    unfold modifyBack
    rw [List.length_modify, List.length_append]
    simp
    omega)]
  rw [List.getElem?_modify, getElem?_modifyBack_of_lt _ _ _ (by simp; omega),
    List.getElem?_append_left hk, ht]
  by_cases h : i = k <;> simp [h]

theorem length_processChild (i : Nat) (child : IObject) (s : State) :
    (processChild i child s).infoVector.length = s.infoVector.length + 1 := by
  unfold processChild
  simp [modifyBack]

theorem parentUpdate_type (childType : ALEMBIC_TYPE) (idx : Int) (t : infoTuple) :
    (parentUpdate childType idx t).type =
      if childType = AT_Xform ∧ t.type = AT_Xform then AT_Group else t.type := by
  unfold parentUpdate
  by_cases h : childType = AT_Xform ∧ t.type = AT_Xform
  · simp [h]
  · simp only [if_neg h]

theorem parentUpdate_frame (childType : ALEMBIC_TYPE) (idx : Int) (t : infoTuple) :
    (parentUpdate childType idx t).valid = t.valid ∧
    (parentUpdate childType idx t).identifier = t.identifier ∧
    (parentUpdate childType idx t).name = t.name ∧
    (parentUpdate childType idx t).nbSample = t.nbSample ∧
    (parentUpdate childType idx t).parentID = t.parentID ∧
    (parentUpdate childType idx t).data = t.data ∧
    (parentUpdate childType idx t).childID = t.childID ++ [idx] := by
  unfold parentUpdate
  by_cases h : childType = AT_Xform ∧ t.type = AT_Xform
  · simp [h]
  · simp only [if_neg h, and_self]

/-- C11: the traversal returns, and if it was not cancelled then the root record, at
index 0, has `parentID = -1`, it is the only record with `parentID = -1`, and every record
at an index `k ≥ 1` has `0 ≤ parentID < k`. -/
theorem parentID_range (isCancelled : Nat → Bool) (fileName : String)
    (archive : ObjectTree) :
    ∃ s, traversal isCancelled fileName archive = some s ∧
      ((∀ n, n < s.polls → isCancelled n = false) →
        (∃ r0, s.infoVector[0]? = some r0 ∧ r0.parentID = -1) ∧
        (∀ (k : Nat) (r : infoTuple), s.infoVector[k]? = some r →
          (r.parentID = -1 ↔ k = 0)) ∧
        (∀ (k : Nat) (r : infoTuple), 1 ≤ k → s.infoVector[k]? = some r →
          0 ≤ r.parentID ∧ r.parentID < (k : Int))) := by
  obtain ⟨s, h1, h2, h3⟩ := @uncancelled_final isCancelled fileName archive
  refine ⟨s, h1, ?_⟩
  intro hpolls
  obtain ⟨hb, _⟩ := h3 hpolls
  have hpos : ∀ (k : Nat) (r : infoTuple), 1 ≤ k → s.infoVector[k]? = some r →
      0 ≤ r.parentID ∧ r.parentID < (k : Int) := by
    intro k r hk hr
    obtain ⟨m, rfl⟩ : ∃ m, k = m + 1 := ⟨k - 1, by omega⟩
    rw [h2, getElem?_recordsOf_succ] at hr
    cases he : s.log[m]? with
    | none => simp [he] at hr
    | some e =>
      simp [he] at hr
      have hpar : r.parentID = (e.1 : Int) := by rw [← hr]; rfl
      have := (hb.parentLt m e he).1
      rw [hpar]
      omega
  refine ⟨⟨rootRecord s.log, by rw [h2, getElem?_recordsOf_zero], rfl⟩, ?_, hpos⟩
  intro k r hr
  cases k with
  | zero =>
    rw [h2, getElem?_recordsOf_zero] at hr
    cases hr
    simp [rootRecord]
  | succ m =>
    have := hpos (m + 1) r (by omega) hr
    constructor
    · intro h
      omega
    · intro h
      omega

/-- Witness for `parentID_range`: the archive of the scenario of the spec, traversed
without cancellation; the values of `parentID` are -1, 0, 0, 1. -/
theorem parentID_range_witness :
    ∃ s, traversal (fun _ => false) "scene.abc" scenarioArchive = some s ∧
      (∀ n, n < s.polls → (fun _ => false) n = false) ∧
      s.infoVector.map (fun r => r.parentID) = [-1, 0, 0, 1] ∧
      (∀ (k : Nat) (r : infoTuple), s.infoVector[k]? = some r → (r.parentID = -1 ↔ k = 0)) ∧
      (∀ (k : Nat) (r : infoTuple), 1 ≤ k → s.infoVector[k]? = some r →
        0 ≤ r.parentID ∧ r.parentID < (k : Int)) := by
  obtain ⟨s, hs, hall⟩ := parentID_range (fun _ => false) "scene.abc" scenarioArchive
  have hs2 : some _ = some s := hs
  cases hs2
  exact ⟨_, hs, fun _ _ => rfl, rfl, (hall (fun _ _ => rfl)).2⟩

/-- C12: when help is not requested and the archive of the given file name cannot be
obtained (`getArchiveFromID` gives `NULL`), `doIt` returns `kFailure`, sets no result,
makes no poll and no traversal (no record, no handle visited; its only external calls are
`addRefArchive` and `displayError`); when the flag `fileNameArg` is absent it returns
`kFailure` with no result, its only external call being `displayError`. -/
theorem doIt_failure_paths (isCancelled : Nat → Bool) (ty : ALEMBIC_TYPE → String)
    (getArchiveFromID : String → Option ObjectTree) (args : Args) (hhelp : args.help = false) :
    (∀ fileName, args.fileNameArg = some fileName → getArchiveFromID fileName = none →
      ∃ out, doIt isCancelled ty getArchiveFromID args = some out ∧
        out.status = MStatus.kFailure ∧ out.result = none ∧ out.final.polls = 0 ∧
        out.final.i = 0 ∧ out.final.infoVector = [] ∧ out.final.log = [] ∧
        out.final.identifiers = [] ∧
        out.final.calls =
          [Call.addRefArchive fileName,
           Call.displayError
             ("[ExocortexAlembic] FileName specified. '" ++ fileName ++ "' does not exist.")]) ∧
    (args.fileNameArg = none →
      ∃ out, doIt isCancelled ty getArchiveFromID args = some out ∧
        out.status = MStatus.kFailure ∧ out.result = none ∧ out.final.polls = 0 ∧
        out.final.i = 0 ∧ out.final.infoVector = [] ∧ out.final.log = [] ∧
        out.final.calls = [Call.displayError "[ExocortexAlembic] No fileName specified."]) := by
  constructor
  · intro fileName hfile harch
    refine ⟨{ status := MStatus.kFailure, result := none,
              final := earlyState
                [Call.addRefArchive fileName,
                 Call.displayError
                   ("[ExocortexAlembic] FileName specified. '" ++ fileName ++
                     "' does not exist.")] },
      ?_, rfl, rfl, rfl, rfl, rfl, rfl, rfl, rfl⟩
    simp only [doIt, hhelp, hfile, harch, Bool.false_eq_true, if_false]
  · intro hfile
    refine ⟨{ status := MStatus.kFailure, result := none,
              final := earlyState
                [Call.displayError "[ExocortexAlembic] No fileName specified."] },
      ?_, rfl, rfl, rfl, rfl, rfl, rfl, rfl⟩
    simp only [doIt, hhelp, hfile, Bool.false_eq_true, if_false]

/-- Witness for `doIt_failure_paths`: the flag `-f scene.abc` with a registry that has no
archive, and a call without the flag. -/
theorem doIt_failure_paths_witness :
    exampleArgs.help = false ∧ exampleArgs.fileNameArg = some "scene.abc" ∧
      (∃ out, doIt (fun _ => true) exampleTypeName (fun _ => none) exampleArgs = some out ∧
        out.status = MStatus.kFailure ∧ out.result = none ∧ out.final.polls = 0) ∧
      noFileArgs.help = false ∧ noFileArgs.fileNameArg = none ∧
      (∃ out, doIt (fun _ => true) exampleTypeName (fun _ => some scenarioArchive)
          noFileArgs = some out ∧
        out.status = MStatus.kFailure ∧ out.result = none ∧ out.final.polls = 0) := by
  obtain ⟨out, h1, h2, h3, h4, _⟩ :=
    (doIt_failure_paths (fun _ => true) exampleTypeName (fun _ => none) exampleArgs rfl).1
      "scene.abc" rfl rfl
  obtain ⟨out', k1, k2, k3, k4, _⟩ :=
    (doIt_failure_paths (fun _ => true) exampleTypeName (fun _ => some scenarioArchive)
      noFileArgs rfl).2 rfl
  exact ⟨rfl, rfl, ⟨out, h1, h2, h3, h4⟩, rfl, rfl, ⟨out', k1, k2, k3, k4⟩⟩

theorem type_recordsOf (archive : ObjectTree) (log : List (Nat × IObject)) (k : Nat)
    (h : IObject) (r : infoTuple) (hv : (visited archive log)[k + 1]? = some h)
    (hr : (recordsOf log)[k + 1]? = some r) :
    r.type =
      if getAlembicTypeFromObject h = AT_Xform ∧ hasXformChild (k + 1) log = true then AT_Group
      else getAlembicTypeFromObject h := by
  obtain ⟨p, _, hrec⟩ := record_of_visited archive log k h r hv hr
  rw [hrec]
  rfl

/-- C16: in a step of the inner loop the type of a record that exists already either
stays as it is or goes from `AT_Xform` to `AT_Group`, and a type other than `AT_Xform`
(so `AT_Group`, and the `AT_UNKNOWN` of the root record) stays as it is.  So after the
traversal, cancelled or not, the type of the root record is `AT_UNKNOWN`, and the type of
any other record is the source classification of its object, or `AT_Group` when that
classification is `AT_Xform`; a classification other than `AT_Xform` is kept. -/
theorem type_promotion_monotone (isCancelled : Nat → Bool) (fileName : String)
    (archive : ObjectTree) :
    (∀ (i : Nat) (child : IObject) (s : State) (k : Nat) (t : infoTuple),
      s.infoVector[k]? = some t →
      ∃ t', (processChild i child s).infoVector[k]? = some t' ∧
        (t'.type = t.type ∨ (t.type = AT_Xform ∧ t'.type = AT_Group)) ∧
        (t.type ≠ AT_Xform → t'.type = t.type) ∧
        (t.type = AT_Group → t'.type = AT_Group) ∧
        (t.type = AT_UNKNOWN → t'.type = AT_UNKNOWN)) ∧
    ∃ s, traversal isCancelled fileName archive = some s ∧
      (∃ r0, s.infoVector[0]? = some r0 ∧ r0.type = AT_UNKNOWN) ∧
      ∀ (k : Nat) (h : IObject) (r : infoTuple), 1 ≤ k →
        (visited archive s.log)[k]? = some h → s.infoVector[k]? = some r →
        (r.type = getAlembicTypeFromObject h ∨
          (getAlembicTypeFromObject h = AT_Xform ∧ r.type = AT_Group)) ∧
        (getAlembicTypeFromObject h ≠ AT_Xform → r.type = getAlembicTypeFromObject h) := by
  constructor
  · intro i child s k t ht
    refine ⟨_, processChild_getElem?_old i child s k t ht, ?_⟩
    by_cases hik : i = k
    · rw [if_pos hik, parentUpdate_type]
      by_cases hx : getAlembicTypeFromObject child = AT_Xform ∧ t.type = AT_Xform
      · rw [if_pos hx]
        refine ⟨Or.inr ⟨hx.2, rfl⟩, fun h => absurd hx.2 h, fun _ => rfl, fun h => ?_⟩
        rw [hx.2] at h
        exact ALEMBIC_TYPE.noConfusion h
      · rw [if_neg hx]
        exact ⟨Or.inl rfl, fun _ => rfl, fun h => h, fun h => h⟩
    · rw [if_neg hik]
      exact ⟨Or.inl rfl, fun _ => rfl, fun h => h, fun h => h⟩
  · obtain ⟨s, h1, h2, _, _⟩ := traversal_records isCancelled fileName archive
    refine ⟨s, h1, ⟨rootRecord s.log, by rw [h2, getElem?_recordsOf_zero], rfl⟩, ?_⟩
    intro k h r hk hv hr
    obtain ⟨m, rfl⟩ : ∃ m, k = m + 1 := ⟨k - 1, by omega⟩
    rw [h2] at hr
    rw [type_recordsOf archive s.log m h r hv hr]
    by_cases hx : getAlembicTypeFromObject h = AT_Xform ∧ hasXformChild (m + 1) s.log = true
    · rw [if_pos hx]
      exact ⟨Or.inr ⟨hx.1, rfl⟩, fun hne => absurd hx.1 hne⟩
    · rw [if_neg hx]
      exact ⟨Or.inl rfl, fun _ => rfl⟩

/-- Witness for `type_promotion_monotone`: in the archive of the scenario of the spec the
child `A` of the top object is classified `AT_Xform`; the root record keeps the type
`AT_UNKNOWN` and the mesh `B` keeps `AT_PolyMesh`. -/
theorem type_promotion_monotone_witness :
    ∃ s, traversal (fun _ => false) "scene.abc" scenarioArchive = some s ∧
      (visited scenarioArchive s.log)[1]? = some scenarioHandleA ∧
      getAlembicTypeFromObject scenarioHandleA = AT_Xform ∧
      s.infoVector.map (fun r => r.type) = [AT_UNKNOWN, AT_Group, AT_PolyMesh, AT_Xform] ∧
      (∃ r0, s.infoVector[0]? = some r0 ∧ r0.type = AT_UNKNOWN) := by
  obtain ⟨s, hs, hroot, _⟩ :=
    (type_promotion_monotone (fun _ => false) "scene.abc" scenarioArchive).2
  have hs2 : some _ = some s := hs
  cases hs2
  exact ⟨_, hs, rfl, rfl, rfl, hroot⟩

/-- C19: a step of the inner loop, for a child of the object dequeued in the iteration
`i`, adds one record and leaves every record that exists already as it is, except the
record at index `i` (the parent), of which only `type` and `childID` can change:
`identifier`, `name`, `nbSample`, `parentID`, `data` and `valid` of every such record stay,
and the `childID` of the parent grows by the new index, appended at the end. -/
theorem processChild_frame (i : Nat) (child : IObject) (s : State) (k : Nat) (t : infoTuple)
    (ht : s.infoVector[k]? = some t) :
    (processChild i child s).infoVector.length = s.infoVector.length + 1 ∧
    ∃ t', (processChild i child s).infoVector[k]? = some t' ∧
      t'.identifier = t.identifier ∧ t'.name = t.name ∧ t'.nbSample = t.nbSample ∧
      t'.parentID = t.parentID ∧ t'.data = t.data ∧ t'.valid = t.valid ∧
      (k ≠ i → t' = t) ∧
      (k = i → t'.childID = t.childID ++ [s.idx + 1]) ∧
      (∃ suffix, t'.childID = t.childID ++ suffix) := by
  refine ⟨length_processChild i child s, _, processChild_getElem?_old i child s k t ht, ?_⟩
  by_cases hik : i = k
  · rw [if_pos hik]
    obtain ⟨f1, f2, f3, f4, f5, f6, f7⟩ :=
      parentUpdate_frame (getAlembicTypeFromObject child) (s.idx + 1) t
    exact ⟨f2, f3, f4, f5, f6, f1, fun hne => absurd hik.symm hne, fun _ => f7, ⟨_, f7⟩⟩
  · rw [if_neg hik]
    exact ⟨rfl, rfl, rfl, rfl, rfl, rfl, fun _ => rfl, fun h => absurd h.symm hik,
      ⟨[], by simp⟩⟩

/-- Witness for `processChild_frame`: processing `C`, the child of `A` (index 1), in the
state in which the record of `A` exists; the record of `A` keeps its identifier and gets
the type `AT_Group` and the child index 2. -/
theorem processChild_frame_witness :
    stateAfterA.infoVector[1]? =
        some { valid := true, identifier := "/A", type := AT_Xform, name := "A",
               nbSample := 1, parentID := 0, childID := [], data := "" } ∧
      (processChild 1 scenarioHandleC stateAfterA).infoVector[1]? =
        some { valid := true, identifier := "/A", type := AT_Group, name := "A",
               nbSample := 1, parentID := 0, childID := [2], data := "" } ∧
      (processChild 1 scenarioHandleC stateAfterA).infoVector.length =
        stateAfterA.infoVector.length + 1 := by
  have h := processChild_frame 1 scenarioHandleC stateAfterA 1
    { valid := true, identifier := "/A", type := AT_Xform, name := "A",
      nbSample := 1, parentID := 0, childID := [], data := "" } (by decide)
  exact ⟨by decide, by decide, h.1⟩

/-! ## The traces of the loops: polls and progress calls -/

theorem childLoop_frame (i : Nat) (iObj : IObject) (s : State) :
    (childLoop i iObj s).i = s.i ∧
    (childLoop i iObj s).polls = s.polls ∧
    (childLoop i iObj s).calls = s.calls ∧
    (childLoop i iObj s).processStopped = s.processStopped ∧
    (childLoop i iObj s).identifiers = s.identifiers := by
  rw [childLoop_eq_foldl]
  generalize iObj.children = cs
  induction cs generalizing s with
  | nil => simp
  | cons c cs ih =>
    obtain ⟨h1, h2, h3, h4, h5⟩ := ih (processChild i c s)
    simp only [List.foldl_cons]
    exact ⟨h1, h2, h3, h4, h5⟩

theorem traversalLoop_trace (isCancelled : Nat → Bool) :
    ∀ (fuel : Nat) (s s' : State), s.processStopped = false →
      traversalLoop isCancelled fuel s = some s' →
      s.i ≤ s'.i ∧
      s'.calls = s.calls ++ iterationCalls (s'.i - s.i) ++
        (if s'.processStopped then [Call.isCancelled true] else []) ∧
      s'.polls = s.polls + (s'.i - s.i) + (if s'.processStopped then 1 else 0) ∧
      (s'.processStopped = false → s'.objects = []) := by
  intro fuel
  induction fuel with
  | zero =>
    intro s s' hrun h
    cases hobj : s.objects with
    | nil =>
      simp only [traversalLoop, hobj, Option.some.injEq] at h
      subst h
      simp [hrun, iterationCalls, hobj]
    | cons iObj rest => simp [traversalLoop, hobj] at h
  | succ fuel ih =>
    intro s s' hrun h
    cases hobj : s.objects with
    | nil =>
      simp only [traversalLoop, hobj, Option.some.injEq] at h
      subst h
      simp [hrun, iterationCalls, hobj]
    | cons iObj rest =>
      by_cases hcancel : isCancelled s.polls = true
      · simp only [traversalLoop, hobj, hcancel, if_true, Option.some.injEq] at h
        subst h
        simp [iterationCalls]
      · simp only [traversalLoop, hobj, hcancel, Bool.false_eq_true, if_false] at h
        generalize hs1 : ({ s with
          polls := s.polls + 1
          calls := s.calls ++ [Call.isCancelled false, Call.advanceProgress 1]
          objects := rest } : State) = s1 at h
        have hi1 : s1.i = s.i := by subst hs1; rfl
        have hpolls1 : s1.polls = s.polls + 1 := by subst hs1; rfl
        have hcalls1 : s1.calls = s.calls ++ [Call.isCancelled false, Call.advanceProgress 1] := by
          subst hs1; rfl
        have hstop1 : s1.processStopped = false := by subst hs1; exact hrun
        obtain ⟨k1, k2, k3, k4, _⟩ := childLoop_frame s.i iObj s1
        generalize hs2 : childLoop s.i iObj s1 = s2 at h k1 k2 k3 k4
        obtain ⟨r1, r2, r3, r4⟩ := ih { s2 with i := s2.i + 1 } s'
          (by show s2.processStopped = false; rw [k4, hstop1]) h
        have hi3 : ({ s2 with i := s2.i + 1 } : State).i = s.i + 1 := by
          show s2.i + 1 = s.i + 1
          rw [k1, hi1]
        have hc3 : ({ s2 with i := s2.i + 1 } : State).calls =
            s.calls ++ [Call.isCancelled false, Call.advanceProgress 1] := by
          show s2.calls = _
          rw [k3, hcalls1]
        have hp3 : ({ s2 with i := s2.i + 1 } : State).polls = s.polls + 1 := by
          show s2.polls = _
          rw [k2, hpolls1]
        rw [hi3] at r1 r2 r3
        rw [hc3] at r2
        rw [hp3] at r3
        have hk : s'.i - s.i = (s'.i - (s.i + 1)) + 1 := by omega
        refine ⟨by omega, ?_, ?_, r4⟩
        · rw [r2, hk]
          simp [iterationCalls]
        · rw [r3]
          omega

theorem interruptAt_eq_zero_iff (p : Nat) : interruptAt p = 0 ↔ (0 < p ∧ p % 20 = 0) := by
  unfold interruptAt
  by_cases hp : p = 0
  · simp [hp]
  · rw [if_neg hp]
    omega

theorem interruptAt_succ_of_zero (p : Nat) (h : interruptAt p = 0) :
    interruptAt (p + 1) = 20 - 1 := by
  have h1 := (interruptAt_eq_zero_iff p).mp h
  unfold interruptAt
  rw [if_neg (by omega)]
  omega

theorem interruptAt_succ_of_ne (p : Nat) (h : interruptAt p ≠ 0) :
    interruptAt (p + 1) = interruptAt p - 1 := by
  have h1 : ¬ (0 < p ∧ p % 20 = 0) := fun hc => h ((interruptAt_eq_zero_iff p).mpr hc)
  unfold interruptAt
  rw [if_neg (by omega)]
  by_cases hp : p = 0
  · simp [hp]
  · rw [if_neg hp]
    omega

theorem encodeBody_calls (ty : ALEMBIC_TYPE → String) (beg : infoTuple) (s : State) :
    (encodeBody ty beg s).calls = s.calls ++ [Call.advanceProgress 1] := by
  unfold encodeBody
  cases hv : beg.valid <;> simp [hv]

theorem linesOf_cons (ty : ALEMBIC_TYPE → String) (beg : infoTuple) (rest : List infoTuple) :
    linesOf ty (beg :: rest) = linesOf ty [beg] ++ linesOf ty rest := by
  unfold linesOf
  rw [← List.map_append, ← List.filter_append]
  rfl

theorem encodingLoop_trace (isCancelled : Nat → Bool) (ty : ALEMBIC_TYPE → String) :
    ∀ (v : List infoTuple) (p : Nat) (s : State), s.processStopped = false →
      ∃ stop, stop ≤ v.length ∧
        (encodingLoop isCancelled ty v (interruptAt p) s).calls =
          s.calls ++ (List.range' p stop).flatMap encodingCallsAt ++
            (if (encodingLoop isCancelled ty v (interruptAt p) s).processStopped then
              [Call.isCancelled true] else []) ∧
        ((encodingLoop isCancelled ty v (interruptAt p) s).processStopped = true →
          stop < v.length ∧ 0 < p + stop ∧ (p + stop) % 20 = 0) ∧
        ((encodingLoop isCancelled ty v (interruptAt p) s).processStopped = false →
          stop = v.length) ∧
        (encodingLoop isCancelled ty v (interruptAt p) s).identifiers =
          s.identifiers ++ linesOf ty (v.take stop) ∧
        (encodingLoop isCancelled ty v (interruptAt p) s).polls =
          s.polls +
            ((List.range' p stop).filter (fun q => decide (0 < q ∧ q % 20 = 0))).length +
            (if (encodingLoop isCancelled ty v (interruptAt p) s).processStopped then 1
              else 0) := by
  intro v
  induction v with
  | nil =>
    intro p s hrun
    refine ⟨0, Nat.le_refl _, ?_⟩
    simp [encodingLoop, hrun, linesOf]
  | cons beg rest ih =>
    intro p s hrun
    obtain ⟨b1, b2, _, _, _, b6⟩ := encodeBody_frame ty beg s
    by_cases hint : interruptAt p = 0
    · have hp := (interruptAt_eq_zero_iff p).mp hint
      by_cases hcancel : isCancelled s.polls = true
      · have heq : encodingLoop isCancelled ty (beg :: rest) (interruptAt p) s =
            { s with
              processStopped := true
              polls := s.polls + 1
              calls := s.calls ++ [Call.isCancelled true] } := by
          simp only [encodingLoop, hint, hcancel, if_true]
        rw [heq]
        refine ⟨0, Nat.zero_le _, ?_⟩
        simp [linesOf, hp.1, hp.2]
      · generalize hs1 : ({ s with
          polls := s.polls + 1
          calls := s.calls ++ [Call.isCancelled false] } : State) = s1
        have heq : encodingLoop isCancelled ty (beg :: rest) (interruptAt p) s =
            encodingLoop isCancelled ty rest (interruptAt (p + 1)) (encodeBody ty beg s1) := by
          simp only [encodingLoop, hint, hcancel, if_true, Bool.false_eq_true, if_false]
          rw [interruptAt_succ_of_zero p hint, hs1]
        have hrun1 : s1.processStopped = false := by subst hs1; exact hrun
        have hpolls1 : s1.polls = s.polls + 1 := by subst hs1; rfl
        have hcalls1 : s1.calls = s.calls ++ [Call.isCancelled false] := by subst hs1; rfl
        have hid1 : s1.identifiers = s.identifiers := by subst hs1; rfl
        obtain ⟨c1, c2, _, _, _, c6⟩ := encodeBody_frame ty beg s1
        obtain ⟨stop, r1, r2, r3, r4, r5, r6⟩ :=
          ih (p + 1) (encodeBody ty beg s1) (by rw [c1]; exact hrun1)
        rw [heq]
        refine ⟨stop + 1, by simp; omega, ?_, ?_, ?_, ?_, ?_⟩
        · rw [r2, encodeBody_calls, hcalls1, List.range'_succ, List.flatMap_cons]
          simp [encodingCallsAt, hp.1, hp.2]
        · intro h
          have := r3 h
          simp only [List.length_cons]
          omega
        · intro h
          have := r4 h
          simp only [List.length_cons]
          omega
        · rw [r5, c6, hid1, List.take_succ_cons, linesOf_cons ty beg (rest.take stop),
            List.append_assoc]
        · rw [r6, c2, hpolls1, List.range'_succ, List.filter_cons_of_pos (by simp [hp.1, hp.2])]
          simp only [List.length_cons]
          omega
    · have hp : ¬ (0 < p ∧ p % 20 = 0) := fun hc => hint ((interruptAt_eq_zero_iff p).mpr hc)
      have heq : encodingLoop isCancelled ty (beg :: rest) (interruptAt p) s =
          encodingLoop isCancelled ty rest (interruptAt (p + 1)) (encodeBody ty beg s) := by
        simp only [encodingLoop, hint, if_false]
        rw [interruptAt_succ_of_ne p hint]
      obtain ⟨stop, r1, r2, r3, r4, r5, r6⟩ :=
        ih (p + 1) (encodeBody ty beg s) (by rw [b1]; exact hrun)
      rw [heq]
      refine ⟨stop + 1, by simp; omega, ?_, ?_, ?_, ?_, ?_⟩
      · rw [r2, encodeBody_calls, List.range'_succ, List.flatMap_cons]
        simp [encodingCallsAt, hp]
      · intro h
        have := r3 h
        simp only [List.length_cons]
        omega
      · intro h
        have := r4 h
        simp only [List.length_cons]
        omega
      · rw [r5, b6, List.take_succ_cons, linesOf_cons ty beg (rest.take stop),
          List.append_assoc]
      · rw [r6, b2, List.range'_succ, List.filter_cons_of_neg (by simpa using hp)]

theorem isProgressCall_iterationCalls (k : Nat) :
    ∀ c ∈ iterationCalls k, isProgressCall c = true := by
  induction k with
  | zero => simp [iterationCalls]
  | succ k ih =>
    intro c hc
    simp only [iterationCalls, List.mem_cons] at hc
    rcases hc with h | h | h
    · rw [h]; rfl
    · rw [h]; rfl
    · exact ih c h

theorem isProgressCall_encodingCalls (p n : Nat) :
    ∀ c ∈ (List.range' p n).flatMap encodingCallsAt, isProgressCall c = true := by
  intro c hc
  rw [List.mem_flatMap] at hc
  obtain ⟨q, _, hq⟩ := hc
  unfold encodingCallsAt at hq
  rw [List.mem_append] at hq
  rcases hq with h | h
  · split at h
    · simp at h
      rw [h]; rfl
    · simp at h
  · simp at h
    rw [h]; rfl

theorem flatMap_encodingCallsAt_of_le (n : Nat) (hn : n ≤ 20) :
    (List.range' 0 n).flatMap encodingCallsAt = List.replicate n (Call.advanceProgress 1) ∧
      (List.range' 0 n).filter (fun q => decide (0 < q ∧ q % 20 = 0)) = [] := by
  induction n with
  | zero => simp
  | succ n ih =>
    obtain ⟨h1, h2⟩ := ih (by omega)
    have hq : ¬ (0 < n ∧ n % 20 = 0) := by omega
    rw [List.range'_concat, List.flatMap_append, List.filter_append, h1, h2]
    constructor
    · simp only [Nat.one_mul, Nat.zero_add, List.flatMap_cons, List.flatMap_nil,
        List.append_nil, encodingCallsAt, if_neg hq, List.nil_append]
      rw [List.replicate_succ']
    · simp [hq]

theorem encoding_trace (isCancelled : Nat → Bool) (ty : ALEMBIC_TYPE → String)
    (fileName : String) (s : State) (hs : s.processStopped = false) :
    ∃ stop, stop ≤ s.infoVector.length ∧
      (encoding isCancelled ty fileName s).calls =
        s.calls ++ [Call.delRefArchive fileName] ++
          (List.range' 0 stop).flatMap encodingCallsAt ++
          (if (encoding isCancelled ty fileName s).processStopped then
            [Call.isCancelled true] else []) ∧
      ((encoding isCancelled ty fileName s).processStopped = true →
        stop < s.infoVector.length ∧ 0 < stop ∧ stop % 20 = 0) ∧
      ((encoding isCancelled ty fileName s).processStopped = false →
        stop = s.infoVector.length) ∧
      (encoding isCancelled ty fileName s).identifiers =
        s.identifiers ++ linesOf ty (s.infoVector.take stop) ∧
      (encoding isCancelled ty fileName s).polls =
        s.polls +
          ((List.range' 0 stop).filter (fun q => decide (0 < q ∧ q % 20 = 0))).length +
          (if (encoding isCancelled ty fileName s).processStopped then 1 else 0) := by
  generalize hs1 : ({ s with calls := s.calls ++ [Call.delRefArchive fileName] } : State) = s1
  have heq : encoding isCancelled ty fileName s =
      encodingLoop isCancelled ty s.infoVector (interruptAt 0) s1 := by
    unfold encoding
    rw [if_pos (by simp [hs])]
    simp only
    rw [hs1]
    rfl
  have h1 : s1.processStopped = false := by subst hs1; exact hs
  have h2 : s1.calls = s.calls ++ [Call.delRefArchive fileName] := by subst hs1; rfl
  have h3 : s1.identifiers = s.identifiers := by subst hs1; rfl
  have h4 : s1.polls = s.polls := by subst hs1; rfl
  obtain ⟨stop, r1, r2, r3, r4, r5, r6⟩ :=
    encodingLoop_trace isCancelled ty s.infoVector 0 s1 h1
  rw [← heq, h2] at r2
  rw [← heq] at r3 r4
  rw [← heq, h3] at r5
  rw [← heq, h4] at r6
  refine ⟨stop, r1, r2, ?_, r4, r5, r6⟩
  intro h
  have := r3 h
  omega

/-- C13: when the encoding phase is entered (the traversal was not cancelled), its
external calls are `delRefArchive` and then, for the records at the positions
`0, 1, ..., stop - 1` in turn, a poll exactly when the position is one of 20, 40, 60, ...
followed by `advanceProgress(1)`; it ends there with all records processed
(`stop` is the number of records), or with one more poll, answered true, made before the
record at the position `stop`, which is one of 20, 40, 60, ....  With at most 20 records
no poll is made and every valid record gives its line. -/
theorem encoding_poll_cadence (isCancelled : Nat → Bool) (ty : ALEMBIC_TYPE → String)
    (fileName : String) (s : State) (hs : s.processStopped = false) :
    ∃ stop, stop ≤ s.infoVector.length ∧
      (encoding isCancelled ty fileName s).calls =
        s.calls ++ [Call.delRefArchive fileName] ++
          (List.range' 0 stop).flatMap encodingCallsAt ++
          (if (encoding isCancelled ty fileName s).processStopped then
            [Call.isCancelled true] else []) ∧
      ((encoding isCancelled ty fileName s).processStopped = true →
        stop < s.infoVector.length ∧ 0 < stop ∧ stop % 20 = 0) ∧
      ((encoding isCancelled ty fileName s).processStopped = false →
        stop = s.infoVector.length) ∧
      (encoding isCancelled ty fileName s).identifiers =
        s.identifiers ++ linesOf ty (s.infoVector.take stop) ∧
      (encoding isCancelled ty fileName s).polls =
        s.polls +
          ((List.range' 0 stop).filter (fun q => decide (0 < q ∧ q % 20 = 0))).length +
          (if (encoding isCancelled ty fileName s).processStopped then 1 else 0) ∧
      (s.infoVector.length ≤ 20 →
        (encoding isCancelled ty fileName s).processStopped = false ∧
        (encoding isCancelled ty fileName s).polls = s.polls ∧
        (encoding isCancelled ty fileName s).calls =
          s.calls ++ [Call.delRefArchive fileName] ++
            List.replicate s.infoVector.length (Call.advanceProgress 1) ∧
        (encoding isCancelled ty fileName s).identifiers =
          s.identifiers ++ linesOf ty s.infoVector) := by
  obtain ⟨stop, r1, r2, r3, r4, r5, r6⟩ := encoding_trace isCancelled ty fileName s hs
  refine ⟨stop, r1, r2, r3, r4, r5, r6, ?_⟩
  intro hlen
  have hrun : (encoding isCancelled ty fileName s).processStopped = false := by
    cases hst : (encoding isCancelled ty fileName s).processStopped with
    | false => rfl
    | true =>
      have := r3 hst
      omega
  have hstop := r4 hrun
  obtain ⟨f1, f2⟩ := flatMap_encodingCallsAt_of_le stop (by omega)
  refine ⟨hrun, ?_, ?_, ?_⟩
  · rw [r6, f2, hrun]
    simp
  · rw [r2, f1, hrun, hstop]
    simp
  · rw [r5, hstop, List.take_length]

set_option maxRecDepth 100000 in
/-- Witness for `encoding_poll_cadence`: with 45 records and no poll answering true, the
polls are made before the records at the positions 20 and 40. -/
theorem encoding_poll_cadence_witness :
    manyRecordsState.processStopped = false ∧
      (encoding (fun _ => false) exampleTypeName "scene.abc" manyRecordsState).calls =
        [Call.delRefArchive "scene.abc"] ++ List.replicate 20 (Call.advanceProgress 1) ++
          [Call.isCancelled false] ++ List.replicate 20 (Call.advanceProgress 1) ++
          [Call.isCancelled false] ++ List.replicate 5 (Call.advanceProgress 1) ∧
      (encoding (fun _ => false) exampleTypeName "scene.abc" manyRecordsState).polls = 2 ∧
      ∃ stop, stop ≤ manyRecordsState.infoVector.length ∧
        (encoding (fun _ => false) exampleTypeName "scene.abc" manyRecordsState).calls =
          manyRecordsState.calls ++ [Call.delRefArchive "scene.abc"] ++
            (List.range' 0 stop).flatMap encodingCallsAt ++
            (if (encoding (fun _ => false) exampleTypeName "scene.abc"
                manyRecordsState).processStopped then [Call.isCancelled true] else []) := by
  obtain ⟨stop, h1, h2, _⟩ :=
    encoding_poll_cadence (fun _ => false) exampleTypeName "scene.abc" manyRecordsState rfl
  exact ⟨rfl, by decide, by decide, stop, h1, h2⟩

/-! ## The halted notice and the reference on the archive -/

theorem finish_calls (status : MStatus) (s : State) :
    (finish status s).final.calls =
      s.calls ++ (if s.processStopped then [Call.displayInfo "Alembic import halted!"] else []) ++
        [Call.endProgress, Call.setResult (if s.processStopped then [] else s.identifiers)] := by
  unfold finish
  cases hs : s.processStopped <;> simp [hs]

theorem doIt_eq (isCancelled : Nat → Bool) (ty : ALEMBIC_TYPE → String)
    (getArchiveFromID : String → Option ObjectTree) (args : Args) (fileName : String)
    (archive : ObjectTree) (hhelp : args.help = false)
    (hfile : args.fileNameArg = some fileName)
    (harch : getArchiveFromID fileName = some archive) :
    ∃ s, traversal isCancelled fileName archive = some s ∧
      PollInv isCancelled s ∧ s.identifiers = [] ∧
      doIt isCancelled ty getArchiveFromID args =
        some (finish args.status (encoding isCancelled ty fileName s)) ∧
      s.calls = (initialState fileName archive).calls ++ iterationCalls s.i ++
        (if s.processStopped then [Call.isCancelled true] else []) ∧
      s.polls = s.i + (if s.processStopped then 1 else 0) := by
  obtain ⟨s, t1, _, t3, t4, _⟩ := traversal_final isCancelled fileName archive
  obtain ⟨_, r2, r3, _⟩ :=
    traversalLoop_trace isCancelled archive.size (initialState fileName archive) s rfl t1
  refine ⟨s, t1, t3, t4, ?_, ?_, ?_⟩
  · simp only [doIt, hhelp, hfile, harch, t1, Bool.false_eq_true, if_false]
  · simpa [initialState] using r2
  · simpa [initialState] using r3

theorem count_of_progressCalls (l : List Call) (hl : ∀ c ∈ l, isProgressCall c = true)
    (c0 : Call) (h0 : isProgressCall c0 = false) : List.count c0 l = 0 := by
  apply List.count_eq_zero_of_not_mem
  intro hmem
  rw [hl c0 hmem] at h0
  exact Bool.noConfusion h0

theorem encoding_of_stopped (isCancelled : Nat → Bool) (ty : ALEMBIC_TYPE → String)
    (fileName : String) (s : State) (hs : s.processStopped = true) :
    encoding isCancelled ty fileName s = s := by
  unfold encoding
  rw [if_neg (by simp [hs])]

theorem doIt_calls (isCancelled : Nat → Bool) (ty : ALEMBIC_TYPE → String)
    (getArchiveFromID : String → Option ObjectTree) (args : Args) (fileName : String)
    (archive : ObjectTree) (hhelp : args.help = false)
    (hfile : args.fileNameArg = some fileName)
    (harch : getArchiveFromID fileName = some archive) :
    ∃ s out, traversal isCancelled fileName archive = some s ∧
      doIt isCancelled ty getArchiveFromID args = some out ∧
      PollInv isCancelled s ∧ PollInv isCancelled out.final ∧ out.status = args.status ∧
      s.polls ≤ out.final.polls ∧
      (s.processStopped = true →
        out.final.processStopped = true ∧
        out.final.calls =
          (initialState fileName archive).calls ++ iterationCalls s.i ++
            [Call.isCancelled true] ++ [Call.displayInfo "Alembic import halted!"] ++
            [Call.endProgress, Call.setResult []]) ∧
      (s.processStopped = false →
        ∃ stop lines,
          out.final.calls =
            (initialState fileName archive).calls ++ iterationCalls s.i ++
              [Call.delRefArchive fileName] ++ (List.range' 0 stop).flatMap encodingCallsAt ++
              (if out.final.processStopped then
                [Call.isCancelled true, Call.displayInfo "Alembic import halted!"] else []) ++
              [Call.endProgress, Call.setResult lines]) := by
  obtain ⟨s, t1, t2, t3, t4, t5, _⟩ :=
    doIt_eq isCancelled ty getArchiveFromID args fileName archive hhelp hfile harch
  obtain ⟨e1, _, _, _, e5, _⟩ := encoding_spec isCancelled ty fileName s t2 t3
  obtain ⟨f1, f2, f3, _, _, _, _⟩ :=
    finish_frame args.status (encoding isCancelled ty fileName s)
  refine ⟨s, _, t1, t4, t2, ?_, f1, by rw [f3]; exact e5, ?_, ?_⟩
  · exact ⟨fun h n hn => e1.running (by rw [← f2]; exact h) n (by rw [← f3]; exact hn),
      fun h => by
        obtain ⟨n, hn, hc⟩ := e1.stopped (by rw [← f2]; exact h)
        exact ⟨n, by rw [f3]; exact hn, hc⟩⟩
  · intro hs
    rw [f2, finish_calls, encoding_of_stopped isCancelled ty fileName s hs, t5, hs]
    simp
  · intro hs
    obtain ⟨stop, _, r2, _, _, _, _⟩ := encoding_trace isCancelled ty fileName s hs
    refine ⟨stop, (if (encoding isCancelled ty fileName s).processStopped then []
      else (encoding isCancelled ty fileName s).identifiers), ?_⟩
    rw [f2, finish_calls, r2, t5, hs]
    cases hst : (encoding isCancelled ty fileName s).processStopped <;> simp

theorem not_mem_of_progressCalls (l : List Call) (hl : ∀ c ∈ l, isProgressCall c = true)
    (c0 : Call) (h0 : isProgressCall c0 = false) : c0 ∉ l := by
  intro hmem
  rw [hl c0 hmem] at h0
  exact Bool.noConfusion h0

/-- C14 (counterexample): with the arguments `failedParseArgs` (the parser wrote
`kFailure`, the flag `-f` is set, help is not requested), an available archive and a
first poll answering true, the notice is made, the result is empty and the returned
status is `kFailure`, not `kSuccess`: `doIt` returns the status written by the argument
parser without looking at it. -/
theorem halted_call_returns_parser_status :
    failedParseArgs.help = false ∧ failedParseArgs.fileNameArg = some "scene.abc" ∧
    ∃ out, doIt (fun _ => true) exampleTypeName (fun _ => some scenarioArchive)
        failedParseArgs = some out ∧
      (∃ n, n < out.final.polls ∧ (fun _ => true) n = true) ∧
      Call.displayInfo "Alembic import halted!" ∈ out.final.calls ∧
      out.result = some [] ∧ out.status = MStatus.kFailure ∧
      out.status ≠ MStatus.kSuccess :=
  ⟨rfl, rfl, _, rfl, ⟨0, by decide, rfl⟩, by decide, rfl, rfl, by decide⟩

/-- C14 (amended): with an available archive `doIt` returns, the notice
`Alembic import halted!` is among its calls if and only if some poll made during the call
answered true, the status it returns is the one written by the argument parser, whatever
the polls answer (so a cancelled call returns the status of a completed call with the
same arguments), and a cancelled call has the empty result. -/
theorem halted_notice_iff_cancelled (isCancelled : Nat → Bool) (ty : ALEMBIC_TYPE → String)
    (getArchiveFromID : String → Option ObjectTree) (args : Args) (fileName : String)
    (archive : ObjectTree) (hhelp : args.help = false)
    (hfile : args.fileNameArg = some fileName)
    (harch : getArchiveFromID fileName = some archive) :
    ∃ out, doIt isCancelled ty getArchiveFromID args = some out ∧
      (Call.displayInfo "Alembic import halted!" ∈ out.final.calls ↔
        ∃ n, n < out.final.polls ∧ isCancelled n = true) ∧
      out.status = args.status ∧
      ((∃ n, n < out.final.polls ∧ isCancelled n = true) → out.result = some []) ∧
      (∀ isCancelled' : Nat → Bool,
        ∃ out', doIt isCancelled' ty getArchiveFromID args = some out' ∧
          out'.status = out.status) := by
  obtain ⟨s, out, _, d2, _, d4, d5, _, d7, d8⟩ :=
    doIt_calls isCancelled ty getArchiveFromID args fileName archive hhelp hfile harch
  obtain ⟨out2, a1, _, _, _, a5, _⟩ :=
    doIt_available isCancelled ty getArchiveFromID args fileName archive hhelp hfile harch
  have hout : out2 = out := Option.some.inj (a1.symm.trans d2)
  subst hout
  have hstop_iff : out2.final.processStopped = true ↔
      ∃ n, n < out2.final.polls ∧ isCancelled n = true := by
    constructor
    · exact d4.stopped
    · rintro ⟨n, hn, hc⟩
      cases hst : out2.final.processStopped with
      | true => rfl
      | false =>
        rw [d4.running hst n hn] at hc
        exact Bool.noConfusion hc
  have hnotice : Call.displayInfo "Alembic import halted!" ∈ out2.final.calls ↔
      out2.final.processStopped = true := by
    have hn1 := not_mem_of_progressCalls _ (isProgressCall_iterationCalls s.i)
      (Call.displayInfo "Alembic import halted!") rfl
    cases hs : s.processStopped with
    | true =>
      obtain ⟨k1, k2⟩ := d7 hs
      rw [k2, k1]
      simp
    | false =>
      obtain ⟨stop, lines, k2⟩ := d8 hs
      have hn2 := not_mem_of_progressCalls _ (isProgressCall_encodingCalls 0 stop)
        (Call.displayInfo "Alembic import halted!") rfl
      rw [k2]
      cases hst : out2.final.processStopped <;> simp [initialState, hn1, hn2]
  refine ⟨out2, d2, hnotice.trans hstop_iff, d5, ?_, ?_⟩
  · intro hc
    exact a5 (hstop_iff.mpr hc)
  · intro isCancelled'
    obtain ⟨out', b1, b2, _⟩ :=
      doIt_available isCancelled' ty getArchiveFromID args fileName archive hhelp hfile harch
    exact ⟨out', b1, by rw [b2, d5]⟩

/-- C20: with an available archive `doIt` returns, `addRefArchive` is called once, and
`delRefArchive` is called once if no poll of the traversal loop answered true (also when
the encoding loop is cancelled afterwards) and is not called at all if a poll of the
traversal loop answered true, so that then the calls leave one reference more than
before. -/
theorem archive_reference_release (isCancelled : Nat → Bool) (ty : ALEMBIC_TYPE → String)
    (getArchiveFromID : String → Option ObjectTree) (args : Args) (fileName : String)
    (archive : ObjectTree) (hhelp : args.help = false)
    (hfile : args.fileNameArg = some fileName)
    (harch : getArchiveFromID fileName = some archive) :
    ∃ s out, traversal isCancelled fileName archive = some s ∧
      doIt isCancelled ty getArchiveFromID args = some out ∧
      s.polls ≤ out.final.polls ∧
      out.final.calls.count (Call.addRefArchive fileName) = 1 ∧
      ((∀ n, n < s.polls → isCancelled n = false) →
        out.final.calls.count (Call.delRefArchive fileName) = 1) ∧
      ((∃ n, n < s.polls ∧ isCancelled n = true) →
        out.final.calls.count (Call.delRefArchive fileName) = 0) ∧
      (out.final.calls.count (Call.delRefArchive fileName) = 1 ↔
        ∀ n, n < s.polls → isCancelled n = false) := by
  obtain ⟨s, out, d1, d2, d3, _, _, d6, d7, d8⟩ :=
    doIt_calls isCancelled ty getArchiveFromID args fileName archive hhelp hfile harch
  have hrun_iff : s.processStopped = false ↔ ∀ n, n < s.polls → isCancelled n = false :=
    ⟨d3.running, pollInv_not_stopped d3⟩
  have hp : ∀ (k : Nat) (c0 : Call), isProgressCall c0 = false →
      List.count c0 (iterationCalls k) = 0 :=
    fun k c0 h0 => count_of_progressCalls _ (isProgressCall_iterationCalls k) c0 h0
  have he : ∀ (n : Nat) (c0 : Call), isProgressCall c0 = false →
      List.count c0 ((List.range' 0 n).flatMap encodingCallsAt) = 0 :=
    fun n c0 h0 => count_of_progressCalls _ (isProgressCall_encodingCalls 0 n) c0 h0
  have hpa : ∀ k, List.count (Call.addRefArchive fileName) (iterationCalls k) = 0 :=
    fun k => hp k _ rfl
  have hpd : ∀ k, List.count (Call.delRefArchive fileName) (iterationCalls k) = 0 :=
    fun k => hp k _ rfl
  have hea : ∀ n, List.count (Call.addRefArchive fileName)
      ((List.range' 0 n).flatMap encodingCallsAt) = 0 := fun n => he n _ rfl
  have hed : ∀ n, List.count (Call.delRefArchive fileName)
      ((List.range' 0 n).flatMap encodingCallsAt) = 0 := fun n => he n _ rfl
  have hcounts : out.final.calls.count (Call.addRefArchive fileName) = 1 ∧
      (s.processStopped = false → out.final.calls.count (Call.delRefArchive fileName) = 1) ∧
      (s.processStopped = true → out.final.calls.count (Call.delRefArchive fileName) = 0) := by
    cases hs : s.processStopped with
    | true =>
      obtain ⟨_, k2⟩ := d7 hs
      rw [k2]
      simp [initialState, List.count_cons, hpa, hpd]
    | false =>
      obtain ⟨stop, lines, k2⟩ := d8 hs
      rw [k2]
      cases hst : out.final.processStopped <;> simp [initialState, List.count_cons, hpa, hpd, hea, hed]
  obtain ⟨c1, c2, c3⟩ := hcounts
  refine ⟨s, out, d1, d2, d6, c1, fun h => c2 (hrun_iff.mpr h), ?_, ?_⟩
  · rintro ⟨n, hn, hc⟩
    apply c3
    cases hs : s.processStopped with
    | true => rfl
    | false =>
      rw [d3.running hs n hn] at hc
      exact Bool.noConfusion hc
  · constructor
    · intro h
      apply hrun_iff.mp
      cases hs : s.processStopped with
      | false => rfl
      | true =>
        rw [c3 hs] at h
        exact absurd h (by decide)
    · intro h
      exact c2 (hrun_iff.mpr h)

set_option maxRecDepth 100000 in
/-- Witness for `halted_notice_iff_cancelled`: on `wideArchive` with the first poll of the
encoding loop answering true, the notice is made, the result is empty and the status is
the `kSuccess` that the parser wrote. -/
theorem halted_notice_iff_cancelled_witness :
    exampleArgs.help = false ∧ exampleArgs.fileNameArg = some "scene.abc" ∧
      ∃ out, doIt (fun n => decide (n = 21)) exampleTypeName (fun _ => some wideArchive)
          exampleArgs = some out ∧
        (∃ n, n < out.final.polls ∧ (fun n => decide (n = 21)) n = true) ∧
        Call.displayInfo "Alembic import halted!" ∈ out.final.calls ∧
        out.status = exampleArgs.status ∧ exampleArgs.status = MStatus.kSuccess ∧
        out.result = some [] := by
  obtain ⟨out, ho, h1, h3, h4, _⟩ :=
    halted_notice_iff_cancelled (fun n => decide (n = 21)) exampleTypeName
      (fun _ => some wideArchive) exampleArgs "scene.abc" wideArchive rfl rfl rfl
  have ho2 : some _ = some out := ho
  cases ho2
  have hex : ∃ n, n < 22 ∧ (fun n => decide (n = 21)) n = true := ⟨21, by decide, rfl⟩
  exact ⟨rfl, rfl, _, ho, hex, h1.mpr hex, h3, rfl, h4 hex⟩

set_option maxRecDepth 100000 in
/-- Witness for `archive_reference_release`: on `wideArchive`, a cancellation by the first
poll of the encoding loop leaves one call of `delRefArchive`, a cancellation by the
second poll of the traversal loop leaves none. -/
theorem archive_reference_release_witness :
    exampleArgs.help = false ∧ exampleArgs.fileNameArg = some "scene.abc" ∧
      (∃ s out, traversal (fun n => decide (n = 21)) "scene.abc" wideArchive = some s ∧
        doIt (fun n => decide (n = 21)) exampleTypeName (fun _ => some wideArchive)
          exampleArgs = some out ∧
        (∀ n, n < s.polls → (fun n => decide (n = 21)) n = false) ∧
        out.final.processStopped = true ∧
        out.final.calls.count (Call.delRefArchive "scene.abc") = 1) ∧
      (∃ s out, traversal (fun n => decide (n = 1)) "scene.abc" wideArchive = some s ∧
        doIt (fun n => decide (n = 1)) exampleTypeName (fun _ => some wideArchive)
          exampleArgs = some out ∧
        (∃ n, n < s.polls ∧ (fun n => decide (n = 1)) n = true) ∧
        out.final.calls.count (Call.addRefArchive "scene.abc") = 1 ∧
        out.final.calls.count (Call.delRefArchive "scene.abc") = 0) := by
  obtain ⟨s, out, hs, ho, _, _, h1, _, _⟩ :=
    archive_reference_release (fun n => decide (n = 21)) exampleTypeName
      (fun _ => some wideArchive) exampleArgs "scene.abc" wideArchive rfl rfl rfl
  obtain ⟨s', out', hs', ho', _, h0', _, h2', _⟩ :=
    archive_reference_release (fun n => decide (n = 1)) exampleTypeName
      (fun _ => some wideArchive) exampleArgs "scene.abc" wideArchive rfl rfl rfl
  have hpolls : s.polls = 21 := by
    have h : (traversal (fun n => decide (n = 21)) "scene.abc" wideArchive).map
        (fun s => s.polls) = some 21 := by decide
    rw [hs] at h
    simpa using h
  have hp : ∀ n, n < s.polls → (fun n => decide (n = 21)) n = false := by
    intro n hn
    simp
    omega
  have hstop : out.final.processStopped = true := by
    have h : (doIt (fun n => decide (n = 21)) exampleTypeName (fun _ => some wideArchive)
        exampleArgs).map (fun o => o.final.processStopped) = some true := by decide
    rw [ho] at h
    simpa using h
  have hpolls' : s'.polls = 2 := by
    have h : (traversal (fun n => decide (n = 1)) "scene.abc" wideArchive).map
        (fun s => s.polls) = some 2 := by decide
    rw [hs'] at h
    simpa using h
  have hex : ∃ n, n < s'.polls ∧ (fun n => decide (n = 1)) n = true :=
    ⟨1, by omega, rfl⟩
  exact ⟨rfl, rfl, ⟨s, out, hs, ho, hp, hstop, h1 hp⟩, ⟨s', out', hs', ho', hex, h0', h2' hex⟩⟩

/-! ## Termination of the traversal loop -/

theorem traversalLoop_succ_run (isCancelled : Nat → Bool) (fuel : Nat) (s : State)
    (iObj : IObject) (rest : List IObject) (hobj : s.objects = iObj :: rest)
    (hc : isCancelled s.polls = false) :
    traversalLoop isCancelled (fuel + 1) s =
      traversalLoop isCancelled fuel (afterIteration s iObj rest) := by
  simp only [traversalLoop, hobj, hc, Bool.false_eq_true, if_false]
  rfl

theorem traversalLoopDequeued_succ_run (isCancelled : Nat → Bool) (fuel : Nat) (s : State)
    (iObj : IObject) (rest : List IObject) (hobj : s.objects = iObj :: rest)
    (hc : isCancelled s.polls = false) :
    traversalLoopDequeued isCancelled (fuel + 1) s =
      (traversalLoopDequeued isCancelled fuel (afterIteration s iObj rest)).map
        (fun r => (r.1, iObj :: r.2)) := by
  simp only [traversalLoopDequeued, hobj, hc, Bool.false_eq_true, if_false]
  unfold afterIteration
  simp only
  cases traversalLoopDequeued isCancelled fuel _ with
  | none => rfl
  | some r => rfl

theorem traversalLoopDequeued_fst (isCancelled : Nat → Bool) :
    ∀ (fuel : Nat) (s : State),
      (traversalLoopDequeued isCancelled fuel s).map Prod.fst =
        traversalLoop isCancelled fuel s := by
  intro fuel
  induction fuel with
  | zero =>
    intro s
    cases hobj : s.objects <;> simp [traversalLoopDequeued, traversalLoop, hobj]
  | succ fuel ih =>
    intro s
    cases hobj : s.objects with
    | nil => simp [traversalLoopDequeued, traversalLoop, hobj]
    | cons iObj rest =>
      cases hc : isCancelled s.polls with
      | true => simp [traversalLoopDequeued, traversalLoop, hobj, hc]
      | false =>
        rw [traversalLoop_succ_run isCancelled fuel s iObj rest hobj hc,
          traversalLoopDequeued_succ_run isCancelled fuel s iObj rest hobj hc, ← ih]
        cases traversalLoopDequeued isCancelled fuel (afterIteration s iObj rest) <;> rfl

theorem traversalLoop_fuel_succ (isCancelled : Nat → Bool) :
    ∀ (fuel : Nat) (s s' : State), traversalLoop isCancelled fuel s = some s' →
      traversalLoop isCancelled (fuel + 1) s = some s' := by
  intro fuel
  induction fuel with
  | zero =>
    intro s s' h
    cases hobj : s.objects with
    | nil =>
      simp only [traversalLoop, hobj] at h ⊢
      exact h
    | cons iObj rest => simp [traversalLoop, hobj] at h
  | succ fuel ih =>
    intro s s' h
    cases hobj : s.objects with
    | nil =>
      simp only [traversalLoop, hobj] at h ⊢
      exact h
    | cons iObj rest =>
      cases hc : isCancelled s.polls with
      | true =>
        simp only [traversalLoop, hobj, hc, if_true] at h ⊢
        exact h
      | false =>
        rw [traversalLoop_succ_run isCancelled fuel s iObj rest hobj hc] at h
        rw [traversalLoop_succ_run isCancelled (fuel + 1) s iObj rest hobj hc]
        exact ih _ _ h

theorem traversalLoop_fuel_le (isCancelled : Nat → Bool) (fuel fuel' : Nat) (s s' : State)
    (hle : fuel ≤ fuel') (h : traversalLoop isCancelled fuel s = some s') :
    traversalLoop isCancelled fuel' s = some s' := by
  induction hle with
  | refl => exact h
  | step _ ih => exact traversalLoop_fuel_succ isCancelled _ s s' ih

theorem afterIteration_inv (archive : ObjectTree) (s : State) (iObj : IObject)
    (rest : List IObject) (hinv : Inv archive s) (hobj : s.objects = iObj :: rest) :
    Inv archive (afterIteration s iObj rest) ∧
      (afterIteration s iObj rest).log = s.log ++ iObj.children.map (fun c => (s.i, c)) ∧
      (afterIteration s iObj rest).i = s.i + 1 ∧
      (afterIteration s iObj rest).polls = s.polls + 1 ∧
      (afterIteration s iObj rest).processStopped = s.processStopped ∧
      (visited archive s.log)[s.i]? = some iObj := by
  have hq := hinv.queue
  rw [hobj] at hq
  obtain ⟨hi, hdrop⟩ := drop_eq_cons _ _ _ _ hq.symm
  have hilt : s.i < s.log.length + 1 := by
    have := getElem?_lt_length _ _ _ hi
    rwa [length_visited] at this
  unfold afterIteration
  simp only
  generalize hs1 : ({ s with
    polls := s.polls + 1
    calls := s.calls ++ [Call.isCancelled false, Call.advanceProgress 1]
    objects := rest } : State) = s1
  have hc1 : Core s1 := by
    subst hs1
    exact ⟨hinv.core.records, hinv.core.idx, hinv.core.uniq, hinv.core.parents⟩
  have hlog1 : s1.log = s.log := by subst hs1; rfl
  have hi1 : s1.i = s.i := by subst hs1; rfl
  have hobj1 : s1.objects = rest := by subst hs1; rfl
  have hpolls1 : s1.polls = s.polls + 1 := by subst hs1; rfl
  have hstop1 : s1.processStopped = s.processStopped := by subst hs1; rfl
  obtain ⟨k1, k2, k3, k4, k5, _, k7, _⟩ :=
    childLoop_spec s1.i iObj s1 hc1 (by rw [hlog1, hi1]; omega)
  rw [hi1] at k1 k2 k3 k4 k5 k7
  generalize hs2 : childLoop s.i iObj s1 = s2 at k1 k2 k3 k4 k5 k7
  refine ⟨⟨?_, ?_, ?_, ?_⟩, ?_, ?_, ?_, ?_, hi⟩
  · exact ⟨k1.records, k1.idx, k1.uniq, k1.parents⟩
  · show Bfs archive (s2.i + 1) s2.log
    rw [k4, k2, hlog1]
    exact bfs_step hinv.bfs iObj hi
  · show s2.objects = (visited archive s2.log).drop (s2.i + 1)
    rw [k3, k4, k2, hlog1, hobj1, visited_append,
      List.drop_append_of_le_length (by rw [length_visited]; omega), hdrop]
  · show s2.i + 1 + ObjectTree.sizeList (s2.objects.map IObject.tree) = archive.size
    rw [k3, k4, hobj1, List.map_append, sizeList_append]
    have h0 := hinv.size
    rw [hobj] at h0
    simp only [List.map_cons, ObjectTree.sizeList] at h0
    rw [size_eq] at h0
    have h1 : iObj.children.map IObject.tree = iObj.tree.children :=
      map_tree_childrenFrom _ _ _
    rw [h1]
    omega
  · show s2.log = _
    rw [k2, hlog1]
  · show s2.i + 1 = _
    rw [k4]
  · show s2.polls = _
    rw [k5, hpolls1]
  · show s2.processStopped = _
    rw [k7, hstop1]

theorem traversalLoopDequeued_spec (isCancelled : Nat → Bool) (archive : ObjectTree) :
    ∀ (fuel : Nat) (s s' : State) (dequeued : List IObject), Inv archive s →
      s.processStopped = false →
      traversalLoopDequeued isCancelled fuel s = some (s', dequeued) →
      s.i ≤ s'.i ∧ (∃ ext, s'.log = s.log ++ ext) ∧
      dequeued = ((visited archive s'.log).drop s.i).take (s'.i - s.i) ∧
      s'.polls = s.polls + (s'.i - s.i) + (if s'.processStopped then 1 else 0) ∧
      (∀ n, s.polls ≤ n → n < s.polls + (s'.i - s.i) → isCancelled n = false) ∧
      (s'.processStopped = true → isCancelled (s.polls + (s'.i - s.i)) = true) := by
  intro fuel
  induction fuel with
  | zero =>
    intro s s' dq _ hns h
    cases hobj : s.objects with
    | nil =>
      simp only [traversalLoopDequeued, hobj, Option.some.injEq, Prod.mk.injEq] at h
      obtain ⟨h1, h2⟩ := h
      subst h1 h2
      refine ⟨Nat.le_refl _, ⟨[], by simp⟩, by simp, by simp [hns], ?_, ?_⟩
      · intro n h1 h2
        omega
      · intro h1
        rw [h1] at hns
        exact Bool.noConfusion hns
    | cons iObj rest => simp [traversalLoopDequeued, hobj] at h
  | succ fuel ih =>
    intro s s' dq hinv hns h
    cases hobj : s.objects with
    | nil =>
      simp only [traversalLoopDequeued, hobj, Option.some.injEq, Prod.mk.injEq] at h
      obtain ⟨h1, h2⟩ := h
      subst h1 h2
      refine ⟨Nat.le_refl _, ⟨[], by simp⟩, by simp, by simp [hns], ?_, ?_⟩
      · intro n h1 h2
        omega
      · intro h1
        rw [h1] at hns
        exact Bool.noConfusion hns
    | cons iObj rest =>
      cases hc : isCancelled s.polls with
      | true =>
        simp only [traversalLoopDequeued, hobj, hc, if_true, Option.some.injEq,
          Prod.mk.injEq] at h
        obtain ⟨h1, h2⟩ := h
        subst h1 h2
        refine ⟨Nat.le_refl _, ⟨[], by simp⟩, by simp, ?_, ?_, ?_⟩
        · simp
        · intro n h1 h2
          simp at h2
          omega
        · intro _
          simpa using hc
      | false =>
        rw [traversalLoopDequeued_succ_run isCancelled fuel s iObj rest hobj hc] at h
        obtain ⟨a1, a2, a3, a4, a5, a6⟩ := afterIteration_inv archive s iObj rest hinv hobj
        cases hr : traversalLoopDequeued isCancelled fuel (afterIteration s iObj rest) with
        | none => simp [hr] at h
        | some r =>
          obtain ⟨s'', dq'⟩ := r
          simp only [hr, Option.map_some', Option.some.injEq, Prod.mk.injEq] at h
          obtain ⟨h1, h2⟩ := h
          subst h1 h2
          obtain ⟨r1, ⟨ext, r2⟩, r3, r4, r5, r6⟩ := ih _ s'' dq' a1 (by rw [a5]; exact hns) hr
          rw [a3] at r1 r3 r4 r5 r6
          rw [a4] at r4 r5 r6
          rw [a2] at r2
          have hk : s''.i - s.i = (s''.i - (s.i + 1)) + 1 := by omega
          have hV : (visited archive s''.log)[s.i]? = some iObj := by
            rw [r2, List.append_assoc]
            unfold visited
            rw [List.map_append, ← List.cons_append]
            rw [List.getElem?_append_left (by
              have := getElem?_lt_length _ _ _ a6
              exact this)]
            exact a6
          refine ⟨by omega, ⟨_, by rw [r2, List.append_assoc]⟩, ?_, ?_, ?_, ?_⟩
          · rw [hk, r3]
            have hlt := getElem?_lt_length _ _ _ hV
            rw [List.drop_eq_getElem_cons hlt, List.take_succ_cons]
            have : (visited archive s''.log)[s.i] = iObj := by
              have := List.getElem?_eq_getElem hlt
              rw [hV] at this
              exact (Option.some.inj this).symm
            rw [this]
          · rw [r4]
            omega
          · intro n hn1 hn2
            by_cases hn : n = s.polls
            · rw [hn]
              exact hc
            · exact r5 n (by omega) (by omega)
          · intro hst
            have := r6 hst
            rw [← this]
            congr 1
            omega

/-- C15: the traversal loop terminates on every archive.  With the fuel of `doIt`, and
with any larger fuel, it returns one same final state `s`, with the list `dequeued` of
the handles taken from the front of `objects`; this list is the first `s.i` handles
pushed, one per completed iteration.  When no poll made answers true, the loop has made
`N + 1` iterations and `N + 1` polls, `N` being the number of objects below the top
object, the queue is empty at the end, every dequeued handle is an object of the
archive, and every object of the archive (the top object included) was dequeued exactly
once.  When the poll of iteration `k` (counted from 0, `k ≤ N`) is the first to answer
true, the loop stops with `k` iterations completed, `k` handles dequeued and `k + 1`
polls made. -/
theorem traversal_terminates (isCancelled : Nat → Bool) (fileName : String)
    (archive : ObjectTree) :
    ∃ (s : State) (dequeued : List IObject),
      traversalLoopDequeued isCancelled archive.size (initialState fileName archive) =
        some (s, dequeued) ∧
      traversal isCancelled fileName archive = some s ∧
      (∀ fuel, archive.size ≤ fuel →
        traversalLoop isCancelled fuel (initialState fileName archive) = some s) ∧
      dequeued = (visited archive s.log).take s.i ∧ dequeued.length = s.i ∧
      ((∀ n, n < s.polls → isCancelled n = false) →
        s.i = ObjectTree.sizeList archive.children + 1 ∧
        s.polls = ObjectTree.sizeList archive.children + 1 ∧
        s.processStopped = false ∧ s.objects = [] ∧
        (∀ h ∈ dequeued, archive.nodeAt h.path = some h.tree) ∧
        (∀ (q : List Nat) (t : ObjectTree), archive.nodeAt q = some t →
          ∃ (k : Nat) (h : IObject), dequeued[k]? = some h ∧ h.path = q ∧ h.tree = t ∧
            ∀ (k' : Nat) (h' : IObject), dequeued[k']? = some h' → h'.path = q → k' = k)) ∧
      (∀ k, k ≤ ObjectTree.sizeList archive.children → isCancelled k = true →
        (∀ n, n < k → isCancelled n = false) →
        s.i = k ∧ dequeued.length = k ∧ s.polls = k + 1 ∧ s.processStopped = true) := by
  obtain ⟨s, h1, h2, h3, _, h5⟩ := traversal_final isCancelled fileName archive
  have hfst := traversalLoopDequeued_fst isCancelled archive.size (initialState fileName archive)
  have h1t : traversalLoop isCancelled archive.size (initialState fileName archive) = some s := h1
  rw [h1t] at hfst
  cases hr : traversalLoopDequeued isCancelled archive.size (initialState fileName archive) with
  | none =>
    rw [hr] at hfst
    exact Option.noConfusion hfst
  | some r =>
    obtain ⟨s0, dq⟩ := r
    rw [hr] at hfst
    have hs0 : s0 = s := Option.some.inj hfst
    subst hs0
    obtain ⟨_, _, d3, d4, d5, d6⟩ :=
      traversalLoopDequeued_spec isCancelled archive archive.size (initialState fileName archive)
        s0 dq (inv_init fileName archive) rfl hr
    have hi0 : (initialState fileName archive).i = 0 := rfl
    have hp0 : (initialState fileName archive).polls = 0 := rfl
    rw [hi0] at d3 d4 d5 d6
    rw [hp0] at d4 d5 d6
    simp only [Nat.sub_zero, List.drop_zero, Nat.zero_add] at d3 d4 d5 d6
    have hile : s0.i ≤ s0.log.length + 1 := h2.bfs.i_le
    have hsize := size_eq archive
    have hdone : s0.processStopped = false →
        s0.objects = [] ∧ s0.i = ObjectTree.sizeList archive.children + 1 ∧
          s0.i = s0.log.length + 1 := by
      intro hrun
      obtain ⟨_, hlen⟩ := h5 hrun
      have hobj : s0.objects = [] :=
        (traversalLoop_trace isCancelled archive.size (initialState fileName archive) s0 rfl
          h1t).2.2.2 hrun
      have hsz := h2.size
      rw [hobj] at hsz
      simp only [List.map_nil, ObjectTree.sizeList] at hsz
      exact ⟨hobj, by omega, by omega⟩
    refine ⟨s0, dq, rfl, h1, ?_, d3, ?_, ?_, ?_⟩
    · intro fuel hfuel
      exact traversalLoop_fuel_le isCancelled _ fuel _ _ hfuel h1t
    · rw [d3, List.length_take, length_visited]
      omega
    · intro hpolls
      have hrun := pollInv_not_stopped h3 hpolls
      obtain ⟨hobj, hi, hil⟩ := hdone hrun
      obtain ⟨hb, _⟩ := h5 hrun
      have hdq : dq = visited archive s0.log := by
        rw [d3, hil]
        exact List.take_of_length_le (by rw [length_visited])
      refine ⟨hi, ?_, hrun, hobj, ?_, ?_⟩
      · rw [d4, hrun, hi]
        simp
      · intro h hh
        rw [hdq] at hh
        exact hb.genuine h hh
      · intro q t ht
        obtain ⟨k, h, hv, hp, htree⟩ := bfs_covers hb q t ht
        rw [hdq]
        refine ⟨k, h, hv, hp, htree, ?_⟩
        intro k' h' hv' hp'
        exact hb.inj k' k h' h hv' hv (by rw [hp', hp])
    · intro k hk hck hfirst
      have hstop : s0.processStopped = true := by
        cases hst : s0.processStopped with
        | true => rfl
        | false =>
          obtain ⟨_, hi, _⟩ := hdone hst
          have := d5 k (Nat.zero_le _) (by omega)
          rw [this] at hck
          exact Bool.noConfusion hck
      have hci := d6 hstop
      have hik : s0.i = k := by
        rcases Nat.lt_trichotomy s0.i k with hlt | heq | hgt
        · rw [hfirst _ hlt] at hci
          exact Bool.noConfusion hci
        · exact heq
        · rw [d5 k (Nat.zero_le _) hgt] at hck
          exact Bool.noConfusion hck
      refine ⟨hik, ?_, ?_, hstop⟩
      · rw [d3, List.length_take, length_visited]
        omega
      · rw [d4, hstop, hik]
        simp

/-- Witness for `traversal_terminates`: on the archive of the scenario of the spec
(three objects below the top object) the uncancelled loop makes four iterations and
dequeues the top object, `A`, `B` and `C`; when the poll of iteration 1 is the first to
answer true it stops with one iteration completed. -/
theorem traversal_terminates_witness :
    (∃ (s : State) (dequeued : List IObject),
      traversalLoopDequeued (fun _ => false) scenarioArchive.size
        (initialState "scene.abc" scenarioArchive) = some (s, dequeued) ∧
      s.i = 4 ∧ s.objects = [] ∧ dequeued.map IObject.path = [[], [0], [1], [0, 0]]) ∧
    (∃ (s : State) (dequeued : List IObject),
      traversalLoopDequeued (fun n => decide (n = 1)) scenarioArchive.size
        (initialState "scene.abc" scenarioArchive) = some (s, dequeued) ∧
      s.i = 1 ∧ dequeued.map IObject.path = [[]] ∧ s.polls = 2 ∧
      s.processStopped = true) := by
  constructor
  · obtain ⟨s, dq, h1, _, _, h4, _, h6, _⟩ :=
      traversal_terminates (fun _ => false) "scene.abc" scenarioArchive
    have hpath : (traversalLoopDequeued (fun _ => false) scenarioArchive.size
        (initialState "scene.abc" scenarioArchive)).map
          (fun r => r.2.map IObject.path) = some [[], [0], [1], [0, 0]] := by decide
    rw [h1] at hpath
    obtain ⟨a1, _, _, a4, _⟩ := h6 (fun _ _ => rfl)
    exact ⟨s, dq, h1, a1, a4, by simpa using hpath⟩
  · obtain ⟨s, dq, h1, _, _, h4, _, _, h7⟩ :=
      traversal_terminates (fun n => decide (n = 1)) "scene.abc" scenarioArchive
    have hpath : (traversalLoopDequeued (fun n => decide (n = 1)) scenarioArchive.size
        (initialState "scene.abc" scenarioArchive)).map
          (fun r => r.2.map IObject.path) = some [[]] := by decide
    rw [h1] at hpath
    obtain ⟨a1, _, a3, a4⟩ := h7 1 (by decide) (by decide) (by
      intro n hn
      have : n = 0 := by omega
      subst this
      decide)
    exact ⟨s, dq, h1, a1, by simpa using hpath, a3, a4⟩

/-! ## Runs of consecutive child indices -/

theorem pairwise_of_parentsSorted (log : List (Nat × IObject))
    (h : ∀ (a b : Nat) (ea eb : Nat × IObject), a ≤ b → log[a]? = some ea →
      log[b]? = some eb → ea.1 ≤ eb.1) :
    log.Pairwise (fun x y => x.1 ≤ y.1) := by
  rw [List.pairwise_iff_getElem]
  intro a b ha hb hab
  exact h a b _ _ (Nat.le_of_lt hab) (List.getElem?_eq_getElem ha) (List.getElem?_eq_getElem hb)

theorem kidsFrom_of_sorted (r : Nat) (log : List (Nat × IObject)) (n : Nat)
    (h : log.Pairwise (fun x y => x.1 ≤ y.1)) :
    kidsFrom r n log =
      (List.range' (n + (log.filter (fun e => decide (e.1 < r))).length)
        (log.filter (fun e => decide (e.1 = r))).length).map (fun (j : Nat) => (j : Int)) := by
  induction log generalizing n with
  | nil => rfl
  | cons e es ih =>
    rw [List.pairwise_cons] at h
    obtain ⟨hhead, htail⟩ := h
    rcases Nat.lt_trichotomy e.1 r with hlt | heq | hgt
    · have hne : e.1 ≠ r := by omega
      simp only [kidsFrom, if_neg hne]
      rw [ih (n + 1) htail]
      simp only [List.filter_cons, hlt, hne, decide_True, decide_False, if_true,
        Bool.false_eq_true, if_false, List.length_cons]
      have : n + 1 + (es.filter (fun e => decide (e.1 < r))).length =
          n + ((es.filter (fun e => decide (e.1 < r))).length + 1) := by omega
      rw [this]
    · have hnl : ¬ e.1 < r := by omega
      have hes : es.filter (fun e => decide (e.1 < r)) = [] := by
        rw [List.filter_eq_nil_iff]
        intro x hx
        have := hhead x hx
        simp only [decide_eq_true_eq]
        omega
      simp only [kidsFrom, if_pos heq]
      rw [ih (n + 1) htail]
      simp only [List.filter_cons, heq, hnl, decide_True, decide_False, if_true,
        Bool.false_eq_true, if_false, List.length_cons, hes, List.length_nil, Nat.add_zero,
        List.range'_succ, List.map_cons]
      simp [hes, heq]
    · have hnl : ¬ e.1 < r := by omega
      have hne : e.1 ≠ r := by omega
      have hall : ∀ x ∈ es, x.1 ≠ r := by
        intro x hx
        have := hhead x hx
        omega
      have hes : es.filter (fun e => decide (e.1 = r)) = [] := by
        rw [List.filter_eq_nil_iff]
        intro x hx
        simpa using hall x hx
      simp only [kidsFrom, if_neg hne]
      rw [kidsFrom_eq_nil r es (n + 1) hall]
      simp [List.filter_cons, hne, hes]

theorem length_filter_lt_succ (log : List (Nat × IObject)) (b : Nat) :
    (log.filter (fun e => decide (e.1 < b + 1))).length =
      (log.filter (fun e => decide (e.1 < b))).length +
        (log.filter (fun e => decide (e.1 = b))).length := by
  induction log with
  | nil => rfl
  | cons e es ih =>
    rcases Nat.lt_trichotomy e.1 b with hlt | heq | hgt
    · have h1 : e.1 < b + 1 := by omega
      have h2 : e.1 ≠ b := by omega
      simp only [List.filter_cons, h1, hlt, h2, decide_True, decide_False, if_true,
        Bool.false_eq_true, if_false, List.length_cons, ih]
      omega
    · subst heq
      simp only [List.filter_cons, Nat.lt_succ_self, Nat.lt_irrefl, decide_True, decide_False,
        if_true, Bool.false_eq_true, if_false, List.length_cons, ih]
      omega
    · have h1 : ¬ e.1 < b + 1 := by omega
      have h2 : ¬ e.1 < b := by omega
      have h3 : e.1 ≠ b := by omega
      simp only [List.filter_cons, h1, h2, h3, decide_False, Bool.false_eq_true, if_false, ih]

theorem flatMap_kidsFrom_range (log : List (Nat × IObject)) (n : Nat)
    (h : log.Pairwise (fun x y => x.1 ≤ y.1)) (b : Nat) :
    (List.range b).flatMap (fun r => kidsFrom r n log) =
      (List.range' n (log.filter (fun e => decide (e.1 < b))).length).map
        (fun (j : Nat) => (j : Int)) := by
  induction b with
  | zero => simp
  | succ b ih =>
    rw [List.range_succ, List.flatMap_append, ih, length_filter_lt_succ]
    simp only [List.flatMap_cons, List.flatMap_nil, List.append_nil]
    rw [kidsFrom_of_sorted b log n h, ← List.map_append, List.range'_append_1, Nat.add_comm
      (log.filter (fun e => decide (e.1 = b))).length]

theorem map_childID_recordsOf (log : List (Nat × IObject)) :
    (recordsOf log).map (fun r => r.childID) =
      (List.range (log.length + 1)).map (fun k => kidsFrom k 1 log) := by
  apply List.ext_getElem?
  intro k
  rw [List.getElem?_map, List.getElem?_map]
  by_cases hk : k < log.length + 1
  · rw [List.getElem?_range hk]
    have hlt : k < (recordsOf log).length := by rw [length_recordsOf]; exact hk
    rw [List.getElem?_eq_getElem hlt]
    simp only [Option.map_some']
    rw [childID_recordsOf log k _ (List.getElem?_eq_getElem hlt)]
  · have h1 : (recordsOf log)[k]? = none := by
      rw [List.getElem?_eq_none_iff, length_recordsOf]
      omega
    have h2 : (List.range (log.length + 1))[k]? = none := by
      rw [List.getElem?_eq_none_iff, List.length_range]
      omega
    rw [h1, h2]
    rfl

theorem flatMap_childID_take (log : List (Nat × IObject))
    (h : log.Pairwise (fun x y => x.1 ≤ y.1)) (k : Nat) (hk : k ≤ log.length + 1) :
    ((recordsOf log).take k).flatMap (fun r => r.childID) =
      (List.range' 1 (log.filter (fun e => decide (e.1 < k))).length).map
        (fun (j : Nat) => (j : Int)) := by
  have h1 : ((recordsOf log).take k).flatMap (fun r => r.childID) =
      (((recordsOf log).map (fun r => r.childID)).take k).flatMap id := by
    rw [← List.map_take, List.flatMap_map]
    rfl
  rw [h1, map_childID_recordsOf, ← List.map_take, List.take_range, Nat.min_eq_left hk,
    List.flatMap_map]
  exact flatMap_kidsFrom_range log 1 h k

/-- C17: the traversal returns, and if it was not cancelled then, `N` being the number
of objects below the top object, there are `N + 1` records; the `childID` of the record
`k` is the run of consecutive integers `c, c + 1, ..., c + m - 1`, where `m` is its
length and `c - 1` is the number of entries in the `childID` lists of the records before
`k`; and the `childID` lists of the records `0, 1, ..., N`, concatenated in this order,
are the list `1, 2, ..., N`. -/
theorem childID_consecutive_runs (isCancelled : Nat → Bool) (fileName : String)
    (archive : ObjectTree) :
    ∃ s, traversal isCancelled fileName archive = some s ∧
      ((∀ n, n < s.polls → isCancelled n = false) →
        s.infoVector.length = ObjectTree.sizeList archive.children + 1 ∧
        (∀ (k : Nat) (r : infoTuple), s.infoVector[k]? = some r →
          r.childID =
            (List.range' (1 + ((s.infoVector.take k).flatMap (fun t => t.childID)).length)
              r.childID.length).map (fun (j : Nat) => (j : Int))) ∧
        s.infoVector.flatMap (fun r => r.childID) =
          (List.range' 1 (ObjectTree.sizeList archive.children)).map
            (fun (j : Nat) => (j : Int))) := by
  obtain ⟨s, h1, h2, h3⟩ := @uncancelled_final isCancelled fileName archive
  refine ⟨s, h1, ?_⟩
  intro hpolls
  obtain ⟨hb, hlen⟩ := h3 hpolls
  have hsorted := pairwise_of_parentsSorted s.log hb.parentsSorted
  have hsize := size_eq archive
  have hN : s.log.length = ObjectTree.sizeList archive.children := by omega
  refine ⟨?_, ?_, ?_⟩
  · rw [h2, length_recordsOf, hN]
  · intro k r hr
    rw [h2] at hr ⊢
    have hk : k < s.log.length + 1 := by
      have := getElem?_lt_length _ _ _ hr
      rwa [length_recordsOf] at this
    have hc := childID_recordsOf s.log k r hr
    rw [flatMap_childID_take s.log hsorted k (Nat.le_of_lt hk), List.length_map,
      List.length_range', hc, length_kidsFrom]
    exact kidsFrom_of_sorted k s.log 1 hsorted
  · have hall : s.log.filter (fun e => decide (e.1 < s.log.length + 1)) = s.log := by
      rw [List.filter_eq_self]
      intro e he
      obtain ⟨j, hj⟩ := List.getElem?_of_mem he
      have := (hb.parentLt j e hj).2
      simpa using this
    have := flatMap_childID_take s.log hsorted (s.log.length + 1) (Nat.le_refl _)
    rw [hall, List.take_of_length_le (by rw [length_recordsOf]), hN] at this
    rw [h2]
    exact this

/-- Witness for `childID_consecutive_runs`: in the archive of the scenario of the spec,
traversed without cancellation, the `childID` lists are `1, 2` (top object), `3` (`A`)
and two empty lists (`B`, `C`), which concatenated are `1, 2, 3`. -/
theorem childID_consecutive_runs_witness :
    ∃ s, traversal (fun _ => false) "scene.abc" scenarioArchive = some s ∧
      (∀ n, n < s.polls → (fun _ => false) n = false) ∧
      s.infoVector.map (fun r => r.childID) = [[1, 2], [3], [], []] ∧
      s.infoVector.flatMap (fun r => r.childID) =
        (List.range' 1 (ObjectTree.sizeList scenarioArchive.children)).map
          (fun (j : Nat) => (j : Int)) := by
  obtain ⟨s, hs, hall⟩ := childID_consecutive_runs (fun _ => false) "scene.abc" scenarioArchive
  have hs2 : some _ = some s := hs
  cases hs2
  exact ⟨_, hs, fun _ _ => rfl, rfl, (hall (fun _ _ => rfl)).2.2⟩

/-! ## Injectivity of the line of a record -/

theorem digitChar_isDigit (k : Nat) (hk : k < 10) : (Nat.digitChar k).isDigit = true := by
  interval_cases k <;> rfl

theorem digitChar_value (k : Nat) (hk : k < 10) : (Nat.digitChar k).toNat - 48 = k := by
  interval_cases k <;> rfl

theorem toDigitsCore_append (b : Nat) :
    ∀ (fuel n : Nat) (ds : List Char),
      Nat.toDigitsCore b fuel n ds = Nat.toDigitsCore b fuel n [] ++ ds := by
  intro fuel
  induction fuel with
  | zero =>
    intro n ds
    simp [Nat.toDigitsCore]
  | succ fuel ih =>
    intro n ds
    simp only [Nat.toDigitsCore]
    by_cases h : n / b = 0
    · simp [h]
    · rw [if_neg h, if_neg h, ih (n / b) (Nat.digitChar (n % b) :: ds),
        ih (n / b) [Nat.digitChar (n % b)]]
      simp

theorem decimalValue_snoc (l : List Char) (c : Char) :
    decimalValue (l ++ [c]) = 10 * decimalValue l + (c.toNat - 48) := by
  simp [decimalValue]

theorem decimalValue_toDigitsCore :
    ∀ (fuel n : Nat), n < fuel → decimalValue (Nat.toDigitsCore 10 fuel n []) = n := by
  intro fuel
  induction fuel with
  | zero =>
    intro n h
    omega
  | succ fuel ih =>
    intro n hn
    simp only [Nat.toDigitsCore]
    by_cases h : n / 10 = 0
    · rw [if_pos h]
      have hlt : n < 10 := by omega
      have := decimalValue_snoc [] (Nat.digitChar (n % 10))
      simp only [List.nil_append] at this
      rw [this, digitChar_value _ (Nat.mod_lt _ (by decide))]
      simp [decimalValue]
      omega
    · rw [if_neg h, toDigitsCore_append, decimalValue_snoc, ih (n / 10) (by omega),
        digitChar_value _ (Nat.mod_lt _ (by decide))]
      omega

theorem isDigit_toDigitsCore :
    ∀ (fuel n : Nat) (ds : List Char), (∀ c ∈ ds, c.isDigit = true) →
      ∀ c ∈ Nat.toDigitsCore 10 fuel n ds, c.isDigit = true := by
  intro fuel
  induction fuel with
  | zero =>
    intro n ds hds c hc
    exact hds c hc
  | succ fuel ih =>
    intro n ds hds
    have hcons : ∀ c ∈ Nat.digitChar (n % 10) :: ds, c.isDigit = true := by
      intro c hc
      rcases List.mem_cons.mp hc with h | h
      · rw [h]
        exact digitChar_isDigit _ (Nat.mod_lt _ (by decide))
      · exact hds c h
    simp only [Nat.toDigitsCore]
    by_cases h : n / 10 = 0
    · rw [if_pos h]
      exact hcons
    · rw [if_neg h]
      exact ih (n / 10) _ hcons

theorem data_natRepr (n : Nat) : (toString n).data = Nat.toDigits 10 n := rfl

theorem toString_nat_injective (n m : Nat) (h : toString n = toString m) : n = m := by
  have hd : Nat.toDigits 10 n = Nat.toDigits 10 m := by
    rw [← data_natRepr, ← data_natRepr, h]
  have hn := decimalValue_toDigitsCore (n + 1) n (Nat.lt_succ_self n)
  have hm := decimalValue_toDigitsCore (m + 1) m (Nat.lt_succ_self m)
  unfold Nat.toDigits at hd
  rw [hd] at hn
  omega

theorem isDigit_toString_nat (n : Nat) : ∀ c ∈ (toString n).data, c.isDigit = true := by
  rw [data_natRepr]
  exact isDigit_toDigitsCore (n + 1) n [] (by simp)

theorem data_toString_ofNat (n : Nat) : (toString (Int.ofNat n)).data = (toString n).data := rfl

theorem data_toString_negSucc (n : Nat) :
    (toString (Int.negSucc n)).data = '-' :: (toString (n + 1)).data := rfl

theorem toString_int_injective (a b : Int) (h : toString a = toString b) : a = b := by
  have hd := congrArg String.data h
  cases a with
  | ofNat n =>
    cases b with
    | ofNat m =>
      rw [data_toString_ofNat, data_toString_ofNat] at hd
      rw [toString_nat_injective n m (String.ext hd)]
    | negSucc m =>
      rw [data_toString_ofNat, data_toString_negSucc] at hd
      have := isDigit_toString_nat n '-' (by rw [hd]; exact List.mem_cons_self _ _)
      exact absurd this (by decide)
  | negSucc n =>
    cases b with
    | ofNat m =>
      rw [data_toString_ofNat, data_toString_negSucc] at hd
      have := isDigit_toString_nat m '-' (by rw [← hd]; exact List.mem_cons_self _ _)
      exact absurd this (by decide)
    | negSucc m =>
      rw [data_toString_negSucc, data_toString_negSucc] at hd
      have h2 := toString_nat_injective (n + 1) (m + 1) (String.ext (List.cons.inj hd).2)
      have : n = m := by omega
      rw [this]

theorem chars_toString_int (a : Int) :
    ∀ c ∈ (toString a).data, c.isDigit = true ∨ c = '-' := by
  intro c hc
  cases a with
  | ofNat n =>
    rw [data_toString_ofNat] at hc
    exact Or.inl (isDigit_toString_nat n c hc)
  | negSucc n =>
    rw [data_toString_negSucc] at hc
    rcases List.mem_cons.mp hc with h | h
    · exact Or.inr h
    · exact Or.inl (isDigit_toString_nat _ c h)

theorem isDigit_toString_int (a : Int) (ha : 0 ≤ a) :
    ∀ c ∈ (toString a).data, c.isDigit = true := by
  cases a with
  | ofNat n =>
    intro c hc
    rw [data_toString_ofNat] at hc
    exact isDigit_toString_nat n c hc
  | negSucc n => exact absurd ha (by simp [Int.negSucc_lt_zero])

theorem split_at_separator (sep : Char) :
    ∀ (a b t u : List Char), sep ∉ a → sep ∉ b →
      (t = [] ∨ ∃ r, t = sep :: r) → (u = [] ∨ ∃ r, u = sep :: r) →
      a ++ t = b ++ u → a = b ∧ t = u := by
  intro a
  induction a with
  | nil =>
    intro b t u _ hb ht hu h
    cases b with
    | nil => exact ⟨rfl, h⟩
    | cons y ys =>
      simp only [List.nil_append, List.cons_append] at h
      rcases ht with ht | ⟨r, ht⟩
      · rw [ht] at h
        exact List.noConfusion h
      · rw [ht] at h
        have := (List.cons.inj h).1
        exact absurd (this ▸ List.mem_cons_self _ _) hb
  | cons x xs ih =>
    intro b t u ha hb ht hu h
    cases b with
    | nil =>
      simp only [List.nil_append, List.cons_append] at h
      rcases hu with hu | ⟨r, hu⟩
      · rw [hu] at h
        exact List.noConfusion h
      · rw [hu] at h
        have := (List.cons.inj h).1
        exact absurd (this ▸ List.mem_cons_self _ _) ha
    | cons y ys =>
      simp only [List.cons_append] at h
      obtain ⟨h1, h2⟩ := List.cons.inj h
      obtain ⟨h3, h4⟩ := ih ys t u (fun hm => ha (List.mem_cons_of_mem _ hm))
        (fun hm => hb (List.mem_cons_of_mem _ hm)) ht hu h2
      exact ⟨by rw [h1, h3], h4⟩

theorem dottedChars_shape (l : List Int) :
    dottedChars l = [] ∨ ∃ r, dottedChars l = '.' :: r := by
  cases l with
  | nil => exact Or.inl rfl
  | cons c cs => exact Or.inr ⟨_, rfl⟩

theorem dot_not_mem_toString_int (a : Int) : '.' ∉ (toString a).data := by
  intro h
  rcases chars_toString_int a '.' h with h1 | h1
  · exact absurd h1 (by decide)
  · exact absurd h1 (by decide)

theorem bar_not_mem_toString_int (a : Int) : '|' ∉ (toString a).data := by
  intro h
  rcases chars_toString_int a '|' h with h1 | h1
  · exact absurd h1 (by decide)
  · exact absurd h1 (by decide)

theorem dottedChars_injective :
    ∀ (l m : List Int), dottedChars l = dottedChars m → l = m := by
  intro l
  induction l with
  | nil =>
    intro m h
    cases m with
    | nil => rfl
    | cons d ds => exact List.noConfusion h
  | cons c cs ih =>
    intro m h
    cases m with
    | nil => exact List.noConfusion h
    | cons d ds =>
      have h1 : (toString c).data ++ dottedChars cs = (toString d).data ++ dottedChars ds := by
        have : dottedChars (c :: cs) = '.' :: ((toString c).data ++ dottedChars cs) := rfl
        rw [this] at h
        have : dottedChars (d :: ds) = '.' :: ((toString d).data ++ dottedChars ds) := rfl
        rw [this] at h
        exact (List.cons.inj h).2
      obtain ⟨h2, h3⟩ := split_at_separator '.' _ _ _ _ (dot_not_mem_toString_int c)
        (dot_not_mem_toString_int d) (dottedChars_shape cs) (dottedChars_shape ds) h1
      rw [toString_int_injective c d (String.ext h2), ih ds h3]

theorem chars_dottedChars (l : List Int) :
    ∀ c ∈ dottedChars l, c.isDigit = true ∨ c = '-' ∨ c = '.' := by
  intro c hc
  unfold dottedChars at hc
  rw [List.mem_flatMap] at hc
  obtain ⟨a, _, hca⟩ := hc
  rcases List.mem_cons.mp hca with h | h
  · exact Or.inr (Or.inr h)
  · rcases chars_toString_int a c h with h1 | h1
    · exact Or.inl h1
    · exact Or.inr (Or.inl h1)

theorem minus_not_mem_dottedChars (l : List Int) (hl : ∀ c ∈ l, 0 ≤ c) :
    '-' ∉ dottedChars l := by
  intro hc
  unfold dottedChars at hc
  rw [List.mem_flatMap] at hc
  obtain ⟨a, ha, hca⟩ := hc
  rcases List.mem_cons.mp hca with h | h
  · exact absurd h (by decide)
  · exact absurd (isDigit_toString_int a (hl a ha) '-' h) (by decide)

theorem data_intercalate_go (l : List String) :
    ∀ acc : String, (String.intercalate.go acc "." l).data =
      acc.data ++ l.flatMap (fun a => '.' :: a.data) := by
  induction l with
  | nil =>
    intro acc
    simp [String.intercalate.go]
  | cons a as ih =>
    intro acc
    simp only [String.intercalate.go, List.flatMap_cons]
    rw [ih]
    simp [String.data_append]

theorem data_childIndexList_nil : (childIndexList []).data = ['-', '1'] := rfl

theorem data_childIndexList_cons (c : Int) (cs : List Int) :
    '.' :: (childIndexList (c :: cs)).data = dottedChars (c :: cs) := by
  unfold childIndexList
  rw [if_neg (by simp)]
  simp only [List.map_cons, String.intercalate]
  rw [data_intercalate_go]
  unfold dottedChars
  simp [List.flatMap_map]

theorem childIndexList_injective (l m : List Int) (hl : ∀ c ∈ l, 0 ≤ c) (hm : ∀ c ∈ m, 0 ≤ c)
    (h : (childIndexList l).data = (childIndexList m).data) : l = m := by
  cases l with
  | nil =>
    cases m with
    | nil => rfl
    | cons d ds =>
      have h1 := data_childIndexList_cons d ds
      rw [← h, data_childIndexList_nil] at h1
      have : '-' ∈ dottedChars (d :: ds) := by
        rw [← h1]
        simp
      exact absurd this (minus_not_mem_dottedChars _ hm)
  | cons c cs =>
    cases m with
    | nil =>
      have h1 := data_childIndexList_cons c cs
      rw [h, data_childIndexList_nil] at h1
      have : '-' ∈ dottedChars (c :: cs) := by
        rw [← h1]
        simp
      exact absurd this (minus_not_mem_dottedChars _ hl)
    | cons d ds =>
      apply dottedChars_injective
      rw [← data_childIndexList_cons, ← data_childIndexList_cons, h]

theorem bar_not_mem_childIndexList (l : List Int) : '|' ∉ (childIndexList l).data := by
  cases l with
  | nil =>
    rw [data_childIndexList_nil]
    decide
  | cons c cs =>
    intro h
    have h1 : '|' ∈ dottedChars (c :: cs) := by
      rw [← data_childIndexList_cons]
      exact List.mem_cons_of_mem _ h
    rcases chars_dottedChars _ _ h1 with h2 | h2 | h2
    · exact absurd h2 (by decide)
    · exact absurd h2 (by decide)
    · exact absurd h2 (by decide)

theorem data_metadataTail (data : String) :
    ((metadataTail data).data = [] ∧ data = "") ∨
      ((metadataTail data).data = '|' :: data.data ∧ data ≠ "") := by
  unfold metadataTail
  by_cases h : data = ""
  · rw [if_pos h]
    exact Or.inl ⟨rfl, h⟩
  · rw [if_neg h]
    exact Or.inr ⟨rfl, h⟩

theorem data_toInfo (ty : ALEMBIC_TYPE → String) (t : infoTuple) :
    (t.toInfo ty).data =
      t.identifier.data ++ '|' :: ((ty t.type).data ++ '|' :: (t.name.data ++ '|' ::
        ((toString t.nbSample).data ++ '|' :: ((toString t.parentID).data ++ '|' ::
          ((childIndexList t.childID).data ++ (metadataTail t.data).data))))) := by
  have htail : ∀ body : String,
      (if t.data.length > 0 then body ++ ("|" ++ t.data) else body) =
        body ++ metadataTail t.data := by
    intro body
    unfold metadataTail
    by_cases hd : t.data.length > 0
    · have hne : t.data ≠ "" := by
        intro h
        rw [h] at hd
        simp at hd
      rw [if_pos hd, if_neg hne]
    · have he := string_eq_empty_of_length _ hd
      rw [if_neg hd, if_pos he]
      simp
  have hstr : t.toInfo ty =
      t.identifier ++ "|" ++ ty t.type ++ "|" ++ t.name ++ "|" ++ toString t.nbSample ++ "|" ++
        toString t.parentID ++ "|" ++ childIndexList t.childID ++ metadataTail t.data := by
    unfold infoTuple.toInfo
    simp only
    rw [htail]
    cases hc : t.childID with
    | nil =>
      simp only [childIndexList, if_true, String.append_assoc]
    | cons beg rest =>
      simp only [childIndexList, List.map_cons, String.intercalate, reduceCtorEq, if_false]
      rw [foldl_dot_eq]
      simp only [String.append_assoc]
  rw [hstr]
  simp only [String.data_append, List.append_assoc]
  rfl

/-- C18: `toInfo` is injective on well-formed records.  For two records whose
identifier, type name and name contain no `|` and whose `childID` entries are not
negative, and for an injective `alembicTypeToString`: if the two lines of `toInfo` are
equal then the records have the same identifier, type, name, `nbSample`, `parentID`,
`childID` and `data`. -/
theorem toInfo_injective (alembicTypeToString : ALEMBIC_TYPE → String) (t u : infoTuple)
    (hty : Function.Injective alembicTypeToString)
    (htid : '|' ∉ t.identifier.toList) (huid : '|' ∉ u.identifier.toList)
    (httype : '|' ∉ (alembicTypeToString t.type).toList)
    (hutype : '|' ∉ (alembicTypeToString u.type).toList)
    (htname : '|' ∉ t.name.toList) (huname : '|' ∉ u.name.toList)
    (htchild : ∀ c ∈ t.childID, 0 ≤ c) (huchild : ∀ c ∈ u.childID, 0 ≤ c)
    (h : t.toInfo alembicTypeToString = u.toInfo alembicTypeToString) :
    t.identifier = u.identifier ∧ t.type = u.type ∧ t.name = u.name ∧
      t.nbSample = u.nbSample ∧ t.parentID = u.parentID ∧ t.childID = u.childID ∧
      t.data = u.data := by
  have hd := congrArg String.data h
  rw [data_toInfo, data_toInfo] at hd
  obtain ⟨e1, hd⟩ := split_at_separator '|' _ _ _ _ htid huid (Or.inr ⟨_, rfl⟩)
    (Or.inr ⟨_, rfl⟩) hd
  obtain ⟨e2, hd⟩ := split_at_separator '|' _ _ _ _ httype hutype (Or.inr ⟨_, rfl⟩)
    (Or.inr ⟨_, rfl⟩) (List.cons.inj hd).2
  obtain ⟨e3, hd⟩ := split_at_separator '|' _ _ _ _ htname huname (Or.inr ⟨_, rfl⟩)
    (Or.inr ⟨_, rfl⟩) (List.cons.inj hd).2
  obtain ⟨e4, hd⟩ := split_at_separator '|' _ _ _ _ (bar_not_mem_toString_int _)
    (bar_not_mem_toString_int _) (Or.inr ⟨_, rfl⟩) (Or.inr ⟨_, rfl⟩) (List.cons.inj hd).2
  obtain ⟨e5, hd⟩ := split_at_separator '|' _ _ _ _ (bar_not_mem_toString_int _)
    (bar_not_mem_toString_int _) (Or.inr ⟨_, rfl⟩) (Or.inr ⟨_, rfl⟩) (List.cons.inj hd).2
  have hshape : ∀ d : String, (metadataTail d).data = [] ∨
      ∃ r, (metadataTail d).data = '|' :: r := by
    intro d
    rcases data_metadataTail d with h1 | h1
    · exact Or.inl h1.1
    · exact Or.inr ⟨_, h1.1⟩
  obtain ⟨e6, e7⟩ := split_at_separator '|' _ _ _ _ (bar_not_mem_childIndexList _)
    (bar_not_mem_childIndexList _) (hshape t.data) (hshape u.data) (List.cons.inj hd).2
  refine ⟨String.ext e1, hty (String.ext e2), String.ext e3,
    toString_int_injective _ _ (String.ext e4), toString_int_injective _ _ (String.ext e5),
    childIndexList_injective _ _ htchild huchild e6, ?_⟩
  rcases data_metadataTail t.data with ⟨a1, a2⟩ | ⟨a1, a2⟩
  · rcases data_metadataTail u.data with ⟨b1, b2⟩ | ⟨b1, b2⟩
    · rw [a2, b2]
    · rw [a1, b1] at e7
      exact List.noConfusion e7
  · rcases data_metadataTail u.data with ⟨b1, b2⟩ | ⟨b1, b2⟩
    · rw [a1, b1] at e7
      exact List.noConfusion e7
    · rw [a1, b1] at e7
      exact String.ext (List.cons.inj e7).2

theorem numberedTypeName_injective : Function.Injective numberedTypeName := by
  intro a b h
  cases a <;> cases b <;>
    first
    | rfl
    | exact absurd h (by decide)
    | exact absurd (congrArg (fun s => s.data.head?) h : some _ = some _) (by decide)
    | skip
  rename_i n m
  have hd := congrArg String.data h
  have h1 : (numberedTypeName (AT_Other n)).data = "Other".data ++ (toString n).data := rfl
  have h2 : (numberedTypeName (AT_Other m)).data = "Other".data ++ (toString m).data := rfl
  rw [h1, h2] at hd
  rw [toString_nat_injective n m (String.ext (List.append_cancel_left hd))]

/-- Witness for `toInfo_injective`: the record of `A` and the same record with the flag
`valid` off have the same line, and agree on the seven fields. -/
theorem toInfo_injective_witness :
    Function.Injective numberedTypeName ∧
      '|' ∉ recordA.identifier.toList ∧
      '|' ∉ (numberedTypeName recordA.type).toList ∧
      '|' ∉ recordA.name.toList ∧
      (∀ c ∈ recordA.childID, 0 ≤ c) ∧
      recordA.toInfo numberedTypeName = "/A|Group|A|1|0|3" ∧
      recordA.toInfo numberedTypeName =
        ({ recordA with valid := false }).toInfo numberedTypeName ∧
      recordA.identifier = ({ recordA with valid := false }).identifier ∧
      recordA.childID = ({ recordA with valid := false }).childID :=
  have hres := toInfo_injective numberedTypeName recordA { recordA with valid := false }
    numberedTypeName_injective (by decide) (by decide) (by decide) (by decide) (by decide)
    (by decide) (by decide) (by decide) rfl
  ⟨numberedTypeName_injective, by decide, by decide, by decide, by decide, by decide, rfl,
    hres.1, hres.2.2.2.2.2.1⟩

end AlembicGetInfo
